import Mathlib

set_option maxHeartbeats 1000000
set_option maxRecDepth 8000

/-!
A verification development for two library cores of this repository:

* `lib/libvarnish/vbh.c` — the VM-aware binary heap (`struct vbh`), with its
  page-based `parent`/`child` index arithmetic, `vbh_trickleup`,
  `vbh_trickledown`, `vbh_addrow`, and the public `VBH_new`, `VBH_insert`,
  `VBH_root`, `VBH_delete`, `VBH_reorder` operations.
* `lib/libvarnishapi/vxp_parse.c` — the recursive-descent query parser
  (`vxp_expr_lhs`, `vxp_expr_num/str/regex`, `vxp_vxid_cmp`, `vxp_expr_cmp`,
  `vxp_expr_group/not/and/or`, `vxp_expr`, `vxp_Parse`, `vex_Free`).

Machine `unsigned` arithmetic is modelled on `Nat` with the 32-bit universe
made explicit where the C code depends on it (mask complements, the clamp in
`child`).  Heap storage (`void ***array`) is modelled as a function from row
indices to optional rows, a row being a function from slot offsets to
optional element handles; consequently a read through a NULL row pointer
yields `none` instead of being undefined behaviour.  The opaque callbacks
are modelled by a comparison function stored in the heap and a boolean
`hasUpdate` recording whether an update callback was supplied; the update
callback's effect on elements is external to the heap state, but the
unguarded callback invocation in `VBH_delete` (contrast `vbh_update`, which
checks for NULL) is modelled by `VBH_delete` returning `none` when no
callback was supplied.
-/

namespace VBH

/-- ROW_SHIFT parameter from vbh.c. -/
def ROW_SHIFT : Nat := 16

/-- ROW_WIDTH = 1 << ROW_SHIFT. -/
def ROW_WIDTH : Nat := 1 <<< ROW_SHIFT

/-- ROOT_IDX from vbh.c: index 0 is reserved, the root lives at slot 1. -/
def ROOT_IDX : Nat := 1

/-- Number of values of the C `unsigned` type (32 bit). -/
def UINT_SIZE : Nat := 2 ^ 32

/-- UINT_MAX, used by `child` as an overflow clamp sentinel. -/
def UINT_MAX : Nat := UINT_SIZE - 1

/-- Model of `struct vbh`.  `array` is the two-level spine: outer row table
to optional rows, a row mapping slot offsets to optional element handles.
`cmp` is the comparison callback; `hasUpdate` records whether an update
callback was supplied (`bh->update != NULL`). -/
structure Vbh (α : Type) where
  cmp : α → α → Bool
  hasUpdate : Bool
  array : Nat → Option (Nat → Option α)
  rows : Nat
  length : Nat
  next : Nat
  page_size : Nat
  page_mask : Nat
  page_shift : Nat

variable {α : Type}

/-- The slot read macro `A(b, n)`:  `ROW(b, n)[(n) & (ROW_WIDTH - 1)]` where
`ROW(b, n)` is `(b)->array[(n) >> ROW_SHIFT]`.  A missing row reads as
`none`. -/
def Aof (bh : Vbh α) (n : Nat) : Option α :=
  match bh.array (n >>> ROW_SHIFT) with
  | none => none
  | some r => r (n &&& (ROW_WIDTH - 1))

/-- Writing through the `A(b, n)` macro. -/
def setSlot (bh : Vbh α) (n : Nat) (x : Option α) : Vbh α :=
  { bh with array := fun k =>
      if k = n >>> ROW_SHIFT then
        (bh.array k).map (fun r => fun j =>
          if j = n &&& (ROW_WIDTH - 1) then x else r j)
      else bh.array k }

/-- The comparison callback applied to two slots, as the C call
`bh->cmp(bh->priv, A(bh, u), A(bh, v))`.  In the code both slots are
asserted non-NULL at every call site; a missing handle is mapped to
`false` here (the call sites are all covered by those assertions). -/
def cmpA (bh : Vbh α) (u v : Nat) : Bool :=
  match Aof bh u, Aof bh v with
  | some x, some y => bh.cmp x y
  | _, _ => false

/-- `parent()` for the VM_AWARE layout (vbh.c lines 101-120).  The C
complement `~mask` of a low-bit mask is the 32-bit value
`UINT_MAX - mask`. -/
def parent (bh : Vbh α) (u : Nat) : Nat :=
  let po := u &&& bh.page_mask
  if u < bh.page_size ∨ 3 < po then
    (u &&& (UINT_MAX - bh.page_mask)) ||| (po >>> 1)
  else if po < 2 then
    let v0 := (u - bh.page_size) >>> bh.page_shift
    let v1 := v0 + (v0 &&& (UINT_MAX - (bh.page_mask >>> 1)))
    v1 ||| (bh.page_size / 2)
  else
    u - 2

/-- `child()` for the VM_AWARE layout (vbh.c lines 122-162), returning the
pair `(*a, *b)`.  The assignment `*a = uu` of a `uintmax_t` into an
`unsigned` truncates mod 2^32; the code clamps both children to
`UINT_MAX` when the truncation would lose bits. -/
def child (bh : Vbh α) (u : Nat) : Nat × Nat :=
  if bh.page_mask < u ∧ (u &&& (bh.page_mask - 1)) = 0 then
    (u + 2, u + 2)
  else if u &&& (bh.page_size >>> 1) ≠ 0 then
    let a1 := ((u &&& (UINT_MAX - bh.page_mask)) >>> 1) ||| (u &&& (bh.page_mask >>> 1))
    let a2 := a1 + 1
    let uu := a2 <<< bh.page_shift
    let a3 := uu % UINT_SIZE
    if a3 = uu then (a3, a3 + 1) else (UINT_MAX, UINT_MAX)
  else
    (u + (u &&& bh.page_mask), u + (u &&& bh.page_mask) + 1)

/-- `binhead_swap` exchanges two slots (the `vbh_update` notifications it
issues do not change the heap state). -/
def binhead_swap (bh : Vbh α) (u v : Nat) : Vbh α :=
  setSlot (setSlot bh u (Aof bh v)) v (Aof bh u)

/-- `vbh_trickleup` (vbh.c lines 286-308).  The inner guard `hv` mirrors
the source assertion `assert(v < u)` and also provides termination. -/
def vbh_trickleup (bh : Vbh α) (u : Nat) : Vbh α × Nat :=
  if _h1 : ROOT_IDX < u then
    let v := parent bh u
    if hv : v < u then
      if cmpA bh u v then vbh_trickleup (binhead_swap bh u v) v
      else (bh, u)
    else (bh, u)
  else (bh, u)
termination_by u
decreasing_by exact hv

/-- `vbh_trickledown` (vbh.c lines 310-343).  The guard `hw` mirrors the
source assertions `assert(v1 > 0)` (children lie strictly below `u`) and
provides termination. -/
def vbh_trickledown (bh : Vbh α) (u : Nat) : Vbh α × Nat :=
  let c := child bh u
  if _hc : c.1 < bh.next then
    let w := if c.1 ≠ c.2 ∧ c.2 < bh.next ∧ cmpA bh c.2 c.1 then c.2 else c.1
    if cmpA bh u w then (bh, u)
    else if hw : u < w ∧ w < bh.next then vbh_trickledown (binhead_swap bh u w) w
    else (bh, u)
  else (bh, u)
termination_by bh.next - u
decreasing_by
  simp only [binhead_swap, setSlot]
  exact Nat.sub_lt_sub_left (Nat.lt_trans hw.1 hw.2) hw.1

/-- `vbh_addrow` (vbh.c lines 188-207): double the outer row table when
exhausted (`&ROW(bh, length) >= bh->array + bh->rows`), then attach one
fresh row and advance `length` by a row.  The malloc'ed row contents are
indeterminate in C and never read before being written; they are modelled
as empty. -/
def vbh_addrow (bh : Vbh α) : Vbh α :=
  let bh1 := if bh.rows ≤ bh.length >>> ROW_SHIFT
             then { bh with rows := bh.rows * 2 }
             else bh
  { bh1 with
    array := fun k =>
      if k = bh1.length >>> ROW_SHIFT then some (fun _ => none) else bh1.array k,
    length := bh1.length + ROW_WIDTH }

/-- `VBH_new` (vbh.c lines 209-242).  The page parameters derive from the
platform page size; `page_shift` is the model's environment parameter and
`page_size`/`page_mask` are computed from it exactly as the C code asserts
them to be related (`AZ(page_size & page_mask)` and the shift loop). -/
def VBH_new (cmp : α → α → Bool) (hasUpdate : Bool) (page_shift : Nat) : Vbh α :=
  let ps := 2 ^ page_shift
  let bh : Vbh α :=
    { cmp := cmp, hasUpdate := hasUpdate,
      array := fun _ => none, rows := 16, length := 0, next := ROOT_IDX,
      page_size := ps, page_mask := ps - 1, page_shift := page_shift }
  let bh := vbh_addrow bh
  setSlot bh ROOT_IDX none

/-- `VBH_insert` (vbh.c lines 345-361). -/
def VBH_insert (bh : Vbh α) (p : α) : Vbh α :=
  let bh := if bh.length = bh.next then vbh_addrow bh else bh
  let u := bh.next
  let bh := setSlot bh u (some p)
  let bh := { bh with next := u + 1 }
  (vbh_trickleup bh u).1

/-- `VBH_root` (vbh.c lines 377-386). -/
def VBH_root (bh : Vbh α) : Option α :=
  Aof bh ROOT_IDX

/-- `VBH_delete` (vbh.c lines 412-448).  The first statement is the
unguarded callback invocation `bh->update(bh->priv, A(bh, idx), VBH_NOIDX)`
(contrast `vbh_update`, which tests `bh->update != NULL`); with no update
callback supplied it dereferences NULL, modelled as `none`.  Deleting the
tail slot returns early; otherwise the tail element is moved into `idx`,
re-trickled, and a tail row is freed under the one-row hysteresis test. -/
def VBH_delete (bh : Vbh α) (idx : Nat) : Option (Vbh α) :=
  if bh.hasUpdate then some (
    let nxt := bh.next - 1
    if idx = nxt then
      { setSlot bh nxt none with next := nxt }
    else
      let bh1 := setSlot bh idx (Aof bh nxt)
      let bh1 := setSlot bh1 nxt none
      let bh1 := { bh1 with next := nxt }
      let r1 := vbh_trickleup bh1 idx
      let r2 := vbh_trickledown r1.1 r1.2
      let bh2 := r2.1
      if bh2.next + 2 * ROW_WIDTH ≤ bh2.length then
        { bh2 with
          array := fun k =>
            if k = (bh2.length - 1) >>> ROW_SHIFT then none else bh2.array k,
          length := bh2.length - ROW_WIDTH }
      else bh2)
  else none

/-- `VBH_reorder` (vbh.c lines 454-471). -/
def VBH_reorder (bh : Vbh α) (idx : Nat) : Vbh α :=
  let r1 := vbh_trickleup bh idx
  let r2 := vbh_trickledown r1.1 r1.2
  r2.1

/-- The heap-order check, as the PARANOIA `chk()` in vbh.c lines 364-375:
for every `u` in `(ROOT_IDX, next)` the slot must not compare strictly
higher-priority than its parent. -/
def chk (bh : Vbh α) : Bool :=
  (List.range bh.next).all fun u =>
    decide (u < 2) || !cmpA bh u (parent bh u)

/-- Well-formedness of a heap state: the page parameters are a power of
two of at least four slots, slot indexing stays inside the 32-bit range,
`next` within `length`, the rows covering `[0, length)` are allocated, the
occupied slots `[ROOT_IDX, next)` are live, and `length` is a whole number
of rows. -/
def WF (bh : Vbh α) : Prop :=
  bh.page_size = 2 ^ bh.page_shift ∧
  bh.page_mask = bh.page_size - 1 ∧
  2 ≤ bh.page_shift ∧
  bh.page_shift ≤ 19 ∧
  ROOT_IDX ≤ bh.next ∧
  bh.next ≤ bh.length ∧
  bh.length < UINT_SIZE ∧
  (∀ k, k < bh.length >>> ROW_SHIFT → (bh.array k).isSome) ∧
  (∀ u, 1 ≤ u → u < bh.next → (Aof bh u).isSome) ∧
  bh.length % ROW_WIDTH = 0

/-- The comparison callback contract from the specification (a strict weak
ordering, §6.1): asymmetry, transitivity, and the interpolation property
(equivalently, transitivity of the negation). -/
def SWO (cmp : α → α → Bool) : Prop :=
  (∀ x y, cmp x y = true → cmp y x = false) ∧
  (∀ x y z, cmp x y = true → cmp y z = true → cmp x z = true) ∧
  (∀ x y z, cmp x z = true → cmp x y = true ∨ cmp y z = true)

/-- States reachable by any sequence of public heap operations called
within their preconditions, starting from `VBH_new`.  The `reorder`
constructor models the caller first changing the key of the element at
`idx` in place (replacing the stored handle by one that compares
arbitrarily) and then calling `VBH_reorder`, per the API contract. -/
inductive Reach (cmp : α → α → Bool) (hasU : Bool) (pshift : Nat) : Vbh α → Prop where
  | new :
      2 ≤ pshift → pshift ≤ 19 →
      Reach cmp hasU pshift (VBH_new cmp hasU pshift)
  | insert {bh : Vbh α} (p : α) :
      Reach cmp hasU pshift bh →
      bh.length + ROW_WIDTH < UINT_SIZE →
      Reach cmp hasU pshift (VBH_insert bh p)
  | delete {bh bh' : Vbh α} (idx : Nat) :
      Reach cmp hasU pshift bh →
      ROOT_IDX < bh.next →
      0 < idx → idx < bh.next →
      VBH_delete bh idx = some bh' →
      Reach cmp hasU pshift bh'
  | reorder {bh : Vbh α} (idx : Nat) (p : α) :
      Reach cmp hasU pshift bh →
      ROOT_IDX < bh.next →
      0 < idx → idx < bh.next →
      Reach cmp hasU pshift (VBH_reorder (setSlot bh idx (some p)) idx)

end VBH

namespace VXP

/-- Token kinds fed to the parser (vxp.h / §6.2 of the spec): punctuation,
comparison operators, keywords, the reserved identifier VXID, generic
values, and end-of-input.  `T_NULL` is the zero token value a freshly
allocated (zero-filled) `struct vex` carries before `tok` is assigned. -/
inductive TokKind where
  | lparen | rparen | lbrace | rbrace | lbrack | rbrack | comma | colon
  | T_EQ | lt | gt | T_GEQ | T_LEQ | T_NEQ
  | T_SEQ | T_SNEQ | tilde | T_NOMATCH
  | T_AND | T_OR | T_NOT
  | VXID | VAL | EOI
  | T_TRUE | T_NULL
deriving DecidableEq, Repr

/-- A token: kind plus decoded payload string (`t->dec`). -/
structure Tok where
  tok : TokKind
  dec : String
deriving DecidableEq, Repr

/-- RHS value families (`enum vex_rhs_e`). -/
inductive VexType where
  | VEX_INT | VEX_FLOAT | VEX_STRING | VEX_REGEX
deriving DecidableEq, Repr

/-- Model of `struct vex_rhs`.  The float payload comes from the external
`VNUM` and is not inspected by any claim; `val_regex` records whether a
compiled regex handle is attached. -/
structure VexRhs where
  rtype : VexType
  val_int : Int := 0
  val_string : Option String := none
  val_regex : Bool := false
deriving DecidableEq, Repr

/-- Model of `struct vex_lhs`.  The tag bitmap is always allocated together
with the LHS record and its contents are produced by the external
`VSL_Glob2Tags`; only its allocation is accounted.  The C field `prefix`
is named `prefixStr` here (`prefix` is reserved in Lean). -/
structure VexLhs where
  level : Int := -1
  level_pm : Int := 0
  prefixStr : Option String := none
  prefixlen : Nat := 0
  field : Int := 0
  vxid : Nat := 0
  taglist : Nat := 0
deriving DecidableEq, Repr

/-- Model of `struct vex`: operator token, children `a`/`b`, optional LHS
and RHS, and the option bag copied from the parser at allocation. -/
inductive Vex where
  | mk (tok : TokKind) (a : Option Vex) (b : Option Vex)
       (lhs : Option VexLhs) (rhs : Option VexRhs) (options : Nat)

def Vex.tok : Vex → TokKind | .mk t _ _ _ _ _ => t
def Vex.a : Vex → Option Vex | .mk _ a _ _ _ _ => a
def Vex.b : Vex → Option Vex | .mk _ _ b _ _ _ => b
def Vex.lhs : Vex → Option VexLhs | .mk _ _ _ l _ _ => l
def Vex.rhs : Vex → Option VexRhs | .mk _ _ _ _ r _ => r

/-- Allocations owned by an LHS record: the record itself, its tag bitmap,
and the strdup'ed prefix when present — exactly what `vex_Free`
releases. -/
def lhsCount (l : VexLhs) : Nat :=
  2 + (if l.prefixStr.isSome then 1 else 0)

/-- Allocations owned by an RHS record: the record, the strdup'ed value
string when present, the compiled regex when present. -/
def rhsCount (r : VexRhs) : Nat :=
  1 + (if r.val_string.isSome then 1 else 0) + (if r.val_regex then 1 else 0)

/-- Allocations owned by a whole VEX tree (the post-order walk of
`vex_Free`). -/
def vexCount : Vex → Nat
  | .mk _ a b lhs rhs _ =>
    1 + (match lhs with | none => 0 | some l => lhsCount l)
      + (match rhs with | none => 0 | some r => rhsCount r)
      + (match a with | none => 0 | some x => vexCount x)
      + (match b with | none => 0 | some x => vexCount x)

/-- External collaborators of the parser: `VSL_Glob2Tags` (number of tags
matched, or -1, -2, -3 for empty, ambiguous, malformed globs), whether `VNUM`
yields NaN on a payload, and whether `VRE_compile` accepts a pattern. -/
structure VxpEnv where
  glob : String → Int
  vnumNan : String → Bool
  reOk : String → Bool

/-- Parser state: remaining token list (head = `vxp->t`), the error flag,
the number of diagnostics written to the string builder `vxp->sb`, the
number of outstanding allocations made on behalf of the query being
parsed, and the option bag `vxp->vex_options`. -/
structure VxpSt where
  toks : List Tok
  err : Bool
  sbLen : Nat
  live : Nat
  vex_options : Nat
deriving DecidableEq, Repr

/-- Kind of the current token `vxp->t->tok`.  The tokenizer terminates
every stream with EOI, so the empty case is unreachable; it reads as
EOI. -/
def curTok (st : VxpSt) : TokKind :=
  match st.toks with
  | [] => .EOI
  | t :: _ => t.tok

/-- Payload of the current token `vxp->t->dec`. -/
def curDec (st : VxpSt) : String :=
  match st.toks with
  | [] => ""
  | t :: _ => t.dec

/-- `vxp_NextToken`. -/
def vxp_NextToken (st : VxpSt) : VxpSt :=
  { st with toks := st.toks.tail }

/-- Modelled from the spec: the error-reporting helpers (`vxp_ErrWhere`,
`vxp_ErrToken`, living in vxp.c which is not part of the sources) write
one diagnostic with a caret position to the string builder and set the
parser's error flag; every production then unwinds (ERRCHK). -/
def mkErr (st : VxpSt) : VxpSt :=
  { st with err := true, sbLen := st.sbLen + 1 }

/-- Account for `n` fresh allocations. -/
def alloc (st : VxpSt) (n : Nat) : VxpSt :=
  { st with live := st.live + n }

/-- `vex_Free` (vxp_parse.c lines 573-607) releases every allocation owned
by the tree. -/
def vex_Free (st : VxpSt) (v : Vex) : VxpSt :=
  { st with live := st.live - vexCount v }

/-- Decimal-digit run consumed by the `strtol` model. -/
def digitsVal : List Char → Nat → Nat × List Char
  | [], acc => (acc, [])
  | c :: cs, acc =>
    if c.isDigit then digitsVal cs (acc * 10 + (c.toNat - 48))
    else (acc, c :: cs)

/-- Model of `strtol(s, &endptr, 0)`: skip leading whitespace, optional
sign, then a digit run; returns the value and the remainder (`endptr`).
Base prefixes (hex/octal) are not modelled — no claim depends on the
numeric value of such payloads, only on success and sign. -/
def strtolM (s : String) : Int × String :=
  let cs := s.data.dropWhile (fun c => c.isWhitespace)
  let sgn : Bool × List Char :=
    match cs with
    | '-' :: r => (true, r)
    | '+' :: r => (false, r)
    | _ => (false, cs)
  match sgn.2 with
  | c :: _ =>
    if c.isDigit then
      let p := digitsVal sgn.2 0
      ((if sgn.1 then -(p.1 : Int) else (p.1 : Int)), String.mk p.2)
    else (0, s)
  | [] => (0, s)

/-- `vxp_expr_num` (vxp_parse.c lines 196-237): on a VAL token allocate an
RHS; a payload containing `.` is parsed as a float via `VNUM` (NaN is a
diagnostic), otherwise as an integer via `strtoll` whose end pointer may
only be followed by whitespace; a vxid LHS additionally rejects any
non-integer RHS. -/
def vxp_expr_num (e : VxpEnv) (st : VxpSt) (vxid : Nat) : Option VexRhs × VxpSt :=
  if curTok st ≠ .VAL then (none, mkErr st)
  else
    let d := curDec st
    let st := alloc st 1
    if d.data.contains '.' then
      let rhs : VexRhs := { rtype := .VEX_FLOAT }
      if e.vnumNan d then (some rhs, mkErr st)
      else if vxid ≠ 0 then (some rhs, mkErr st)
      else (some rhs, vxp_NextToken st)
    else
      let p := strtolM d
      let rhs : VexRhs := { rtype := .VEX_INT, val_int := p.1 }
      if p.2.data.dropWhile (fun c => c.isWhitespace) ≠ [] then (some rhs, mkErr st)
      else (some rhs, vxp_NextToken st)

/-- `vxp_expr_str` (vxp_parse.c lines 239-258). -/
def vxp_expr_str (st : VxpSt) : Option VexRhs × VxpSt :=
  if curTok st ≠ .VAL then (none, mkErr st)
  else
    let d := curDec st
    let st := alloc st 2
    (some { rtype := .VEX_STRING, val_string := some d }, vxp_NextToken st)

/-- `vxp_expr_regex` (vxp_parse.c lines 260-290): the pattern string is
strdup'ed before the compile; a failed `VRE_compile` leaves the RHS with
the string but no regex and reports a diagnostic. -/
def vxp_expr_regex (e : VxpEnv) (st : VxpSt) : Option VexRhs × VxpSt :=
  if curTok st ≠ .VAL then (none, mkErr st)
  else
    let d := curDec st
    if e.reOk d then
      let st := alloc st 3
      (some { rtype := .VEX_REGEX, val_string := some d, val_regex := true },
       vxp_NextToken st)
    else
      let st := alloc st 2
      (some { rtype := .VEX_REGEX, val_string := some d, val_regex := false },
       mkErr st)

/-- `vxp_vxid_cmp` (vxp_parse.c lines 292-312): with a vxid LHS only the
six numeric comparison operators are accepted. -/
def vxp_vxid_cmp (st : VxpSt) : VxpSt :=
  match curTok st with
  | .T_EQ | .lt | .gt | .T_GEQ | .T_LEQ | .T_NEQ => st
  | _ => mkErr st

/-- The tag-list loop of `vxp_expr_lhs` (vxp_parse.c lines 112-147): one or
more comma-separated tags; VXID bumps the `vxid` counter, a VAL glob bumps
`taglist` and is expanded by `VSL_Glob2Tags` whose negative results are
diagnostics; anything else is a diagnostic. -/
def vxp_lhs_tags_go (e : VxpEnv) : VexLhs → List Tok → VexLhs × List Tok × Bool
  | lhs, [] => (lhs, [], true)
  | lhs, t :: rest =>
    if t.tok = .VXID ∨ t.tok = .VAL then
      let lhs' := if t.tok = .VXID then { lhs with vxid := lhs.vxid + 1 }
                  else { lhs with taglist := lhs.taglist + 1 }
      let i : Int := if t.tok = .VXID then 0 else e.glob t.dec
      if i = -1 ∨ i = -2 ∨ i = -3 then (lhs', t :: rest, true)
      else
        match rest with
        | t2 :: rest2 =>
          if t2.tok = .comma then vxp_lhs_tags_go e lhs' rest2
          else (lhs', rest, false)
        | [] => (lhs', [], false)
    else (lhs, t :: rest, true)

def vxp_lhs_tags (e : VxpEnv) (lhs : VexLhs) (st : VxpSt) : VexLhs × VxpSt :=
  let r := vxp_lhs_tags_go e lhs st.toks
  (r.1, if r.2.2 then mkErr { st with toks := r.2.1 }
        else { st with toks := r.2.1 })

/-- The vxid mutual-exclusion check closing `vxp_expr_lhs` (vxp_parse.c
lines 185-194). -/
def vxp_lhs_vxidchk (lhs : VexLhs) (st : VxpSt) : VexLhs × VxpSt :=
  if lhs.vxid = 0 then (lhs, st)
  else if 1 < lhs.vxid ∨ 0 ≤ lhs.level ∨ 0 < lhs.field ∨ 0 < lhs.prefixlen ∨
          0 < lhs.taglist then (lhs, mkErr st)
  else (lhs, st)

/-- The `[` field section of `vxp_expr_lhs` (vxp_parse.c lines 165-183),
followed by the vxid check. -/
def vxp_lhs_field (lhs : VexLhs) (st : VxpSt) : VexLhs × VxpSt :=
  if curTok st = .lbrack then
    let st1 := vxp_NextToken st
    if curTok st1 ≠ .VAL then (lhs, mkErr st1)
    else
      let p := strtolM (curDec st1)
      let lhs := { lhs with field := p.1 }
      if p.2 ≠ "" ∨ p.1 ≤ 0 then (lhs, mkErr st1)
      else
        let st2 := vxp_NextToken st1
        if curTok st2 ≠ .rbrack then (lhs, mkErr st2)
        else vxp_lhs_vxidchk lhs (vxp_NextToken st2)
  else vxp_lhs_vxidchk lhs st

/-- The `:` record-prefix section of `vxp_expr_lhs` (vxp_parse.c lines
149-163), followed by the field section. -/
def vxp_lhs_pfx (lhs : VexLhs) (st : VxpSt) : VexLhs × VxpSt :=
  if curTok st = .colon then
    let st1 := vxp_NextToken st
    if curTok st1 ≠ .VAL then (lhs, mkErr st1)
    else
      let d := curDec st1
      let lhs := { lhs with prefixStr := some d, prefixlen := d.length }
      vxp_lhs_field lhs (vxp_NextToken (alloc st1 1))
  else vxp_lhs_field lhs st

/-- `vxp_expr_lhs` (vxp_parse.c lines 67-194): allocate the LHS record and
its tag bitmap, parse the optional `{level}` limit with `+`/`-` modifier,
then tags, prefix, field, and run the vxid mutual-exclusion check.  The
partially filled record stays attached on a diagnostic. -/
def vxp_expr_lhs (e : VxpEnv) (st : VxpSt) : VexLhs × VxpSt :=
  let st := alloc st 2
  let lhs : VexLhs := {}
  if curTok st = .lbrace then
    let st1 := vxp_NextToken st
    if curTok st1 ≠ .VAL then (lhs, mkErr st1)
    else
      let p := strtolM (curDec st1)
      let lhs := { lhs with level := p.1 }
      if p.1 < 0 then (lhs, mkErr st1)
      else
        let pm : Int × List Char :=
          match p.2.data with
          | '-' :: r => (-1, r)
          | '+' :: r => (1, r)
          | cs => (0, cs)
        let lhs := { lhs with level_pm := pm.1 }
        if pm.2 ≠ [] then (lhs, mkErr st1)
        else
          let st2 := vxp_NextToken st1
          if curTok st2 ≠ .rbrace then (lhs, mkErr st2)
          else
            let r := vxp_lhs_tags e lhs (vxp_NextToken st2)
            if r.2.err then r else vxp_lhs_pfx r.1 r.2
  else
    let r := vxp_lhs_tags e lhs st
    if r.2.err then r else vxp_lhs_pfx r.1 r.2

/-- `vxp_expr_cmp` (vxp_parse.c lines 321-396): allocate the node, parse
the LHS, run `vxp_vxid_cmp` for a vxid LHS, then dispatch on the operator
(a connective, `)` or EOI turns the node into a bare `T_TRUE` tag test)
and parse the RHS in the operator's family. -/
def vxp_expr_cmp (e : VxpEnv) (st : VxpSt) : Option Vex × VxpSt :=
  let opts := st.vex_options
  let r := vxp_expr_lhs e (alloc st 1)
  let lhs := r.1
  let st1 := r.2
  if st1.err then (some (Vex.mk .T_NULL none none (some lhs) none opts), st1)
  else
    let st2 := if 0 < lhs.vxid then vxp_vxid_cmp st1 else st1
    if st2.err then (some (Vex.mk .T_NULL none none (some lhs) none opts), st2)
    else
      let k := curTok st2
      if k = .EOI ∨ k = .T_AND ∨ k = .T_OR ∨ k = .rparen then
        (some (Vex.mk .T_TRUE none none (some lhs) none opts), st2)
      else if k = .T_EQ ∨ k = .lt ∨ k = .gt ∨ k = .T_GEQ ∨ k = .T_LEQ ∨ k = .T_NEQ then
        let rr := vxp_expr_num e (vxp_NextToken st2) lhs.vxid
        (some (Vex.mk k none none (some lhs) rr.1 opts), rr.2)
      else if k = .T_SEQ ∨ k = .T_SNEQ then
        let rr := vxp_expr_str (vxp_NextToken st2)
        (some (Vex.mk k none none (some lhs) rr.1 opts), rr.2)
      else if k = .tilde ∨ k = .T_NOMATCH then
        let rr := vxp_expr_regex e (vxp_NextToken st2)
        (some (Vex.mk k none none (some lhs) rr.1 opts), rr.2)
      else
        (some (Vex.mk .T_NULL none none (some lhs) none opts), mkErr st2)

mutual

/-- `vxp_expr_group` (vxp_parse.c lines 405-421): a parenthesised
`expr_or` or a comparison.  All grammar productions take fuel; the fuel
decreases on every nested call and any amount at least the recursion
depth of the derivation makes the zero-fuel fallback unreachable. -/
def vxp_expr_group : Nat → VxpEnv → VxpSt → Option Vex × VxpSt
  | 0, _, st => (none, st)
  | f + 1, e, st =>
    if curTok st = .lparen then
      let r := vxp_expr_or f e (vxp_NextToken st)
      if r.2.err then r
      else if curTok r.2 = .rparen then (r.1, vxp_NextToken r.2)
      else (r.1, mkErr r.2)
    else vxp_expr_cmp e st

/-- `vxp_expr_not` (vxp_parse.c lines 430-447). -/
def vxp_expr_not : Nat → VxpEnv → VxpSt → Option Vex × VxpSt
  | 0, _, st => (none, st)
  | f + 1, e, st =>
    if curTok st = .T_NOT then
      let r := vxp_expr_group f e (vxp_NextToken (alloc st 1))
      (some (Vex.mk .T_NOT r.1 none none none st.vex_options), r.2)
    else vxp_expr_group f e st

/-- `vxp_expr_and` (vxp_parse.c lines 455-475). -/
def vxp_expr_and : Nat → VxpEnv → VxpSt → Option Vex × VxpSt
  | 0, _, st => (none, st)
  | f + 1, e, st =>
    let r := vxp_expr_not f e st
    if r.2.err then r
    else
      match r.1 with
      | none => (none, r.2)
      | some v => vxp_expr_and_loop f e v r.2

/-- The `while (tok == T_AND)` rotation of `vxp_expr_and`: the previously
built node becomes the left child `a` of a fresh `T_AND` node. -/
def vxp_expr_and_loop : Nat → VxpEnv → Vex → VxpSt → Option Vex × VxpSt
  | 0, _, acc, st => (some acc, st)
  | f + 1, e, acc, st =>
    if curTok st = .T_AND then
      let r := vxp_expr_not f e (vxp_NextToken (alloc st 1))
      let node := Vex.mk .T_AND (some acc) r.1 none none st.vex_options
      if r.2.err then (some node, r.2)
      else vxp_expr_and_loop f e node r.2
    else (some acc, st)

/-- `vxp_expr_or` (vxp_parse.c lines 483-503). -/
def vxp_expr_or : Nat → VxpEnv → VxpSt → Option Vex × VxpSt
  | 0, _, st => (none, st)
  | f + 1, e, st =>
    let r := vxp_expr_and f e st
    if r.2.err then r
    else
      match r.1 with
      | none => (none, r.2)
      | some v => vxp_expr_or_loop f e v r.2

/-- The `while (tok == T_OR)` rotation of `vxp_expr_or`. -/
def vxp_expr_or_loop : Nat → VxpEnv → Vex → VxpSt → Option Vex × VxpSt
  | 0, _, acc, st => (some acc, st)
  | f + 1, e, acc, st =>
    if curTok st = .T_OR then
      let r := vxp_expr_and f e (vxp_NextToken (alloc st 1))
      let node := Vex.mk .T_OR (some acc) r.1 none none st.vex_options
      if r.2.err then (some node, r.2)
      else vxp_expr_or_loop f e node r.2
    else (some acc, st)

end

/-- `vxp_expr` (vxp_parse.c lines 511-532): a first sub-query is
`expr_or EOI`; with an already accumulated tree, parse the next sub-query
recursively and join it to the accumulated one under a fresh `T_OR` node
(new tree as child `a`, accumulated tree as child `b`).  On a diagnostic
in the recursive call the local partial tree `a` goes out of scope
without being released, exactly as in the C function. -/
def vxp_expr : Nat → VxpEnv → Option Vex → VxpSt → Option Vex × VxpSt
  | 0, _, pvex, st => (pvex, st)
  | f + 1, e, pvex, st =>
    match pvex with
    | none =>
      let r := vxp_expr_or f e st
      if r.2.err then r
      else if curTok r.2 = .EOI then r
      else (r.1, mkErr r.2)
    | some acc =>
      let r := vxp_expr f e none st
      if r.2.err then (some acc, r.2)
      else
        (some (Vex.mk .T_OR r.1 (some acc) none none st.vex_options),
         alloc r.2 1)

/-- The `while (vxp->t->tok == EOI)` skip in `vxp_Parse`: drop the
leading EOI tokens. -/
def skipEOIs (st : VxpSt) : VxpSt :=
  { st with toks := st.toks.dropWhile (fun t => t.tok == .EOI) }

/-- The main loop of `vxp_Parse` (vxp_parse.c lines 546-564): skip empty
queries, stop at the end of the token list, parse one sub-query into the
accumulator, free the accumulated tree and return NULL on a diagnostic,
otherwise step past the sub-query's EOI terminator. -/
def vxp_Parse_loop : Nat → VxpEnv → Option Vex → VxpSt → Option Vex × VxpSt
  | 0, _, vex, st => (vex, st)
  | f + 1, e, vex, st =>
    let st := skipEOIs st
    match st.toks with
    | [] => (vex, st)
    | _ :: _ =>
      let r := vxp_expr f e vex st
      if r.2.err then
        match r.1 with
        | some v => (none, vex_Free r.2 v)
        | none => (none, r.2)
      else vxp_Parse_loop f e r.1 (vxp_NextToken r.2)

/-- `vxp_Parse` (vxp_parse.c lines 538-567).  The precondition
`AZ(vxp->err)` is part of the claims' hypotheses. -/
def vxp_Parse (f : Nat) (e : VxpEnv) (st : VxpSt) : Option Vex × VxpSt :=
  vxp_Parse_loop f e none st

end VXP

namespace VBH

variable {α : Type}

/-- The page-parameter facts `VBH_new` establishes and asserts: a
power-of-two page of at least 4 and at most 2^19 slots, with the matching
mask. -/
def PP (bh : Vbh α) : Prop :=
  bh.page_size = 2 ^ bh.page_shift ∧
  bh.page_mask = bh.page_size - 1 ∧
  2 ≤ bh.page_shift ∧
  bh.page_shift ≤ 19

/-- The heap-order property in propositional form (spec §8.1.1): no slot
in `(ROOT_IDX, next)` compares strictly higher-priority than its
parent. -/
def heapOK (bh : Vbh α) : Prop :=
  ∀ u, 1 < u → u < bh.next → cmpA bh u (parent bh u) = false

/-- Everything about a heap state except slot contents: the trickle
operations only permute slot values. -/
def spineEq (bh bh' : Vbh α) : Prop :=
  bh'.cmp = bh.cmp ∧ bh'.hasUpdate = bh.hasUpdate ∧ bh'.rows = bh.rows ∧
  bh'.length = bh.length ∧ bh'.next = bh.next ∧
  bh'.page_size = bh.page_size ∧ bh'.page_mask = bh.page_mask ∧
  bh'.page_shift = bh.page_shift ∧
  ∀ k, (bh'.array k).isSome = (bh.array k).isSome

/-- Sift-up precondition at `u`: every heap edge holds except possibly
the edge from `u` to its parent, and (when `u` is not the root) every
child of `u` already compares no higher than the parent of `u`. -/
def upOK (bh : Vbh α) (u : Nat) : Prop :=
  (∀ w, 1 < w → w < bh.next → w ≠ u → cmpA bh w (parent bh w) = false) ∧
  (1 < u → ∀ w, 1 < w → w < bh.next → parent bh w = u →
    cmpA bh w (parent bh u) = false)

/-- Sift-down precondition at `u`: every heap edge holds except possibly
the edges from children of `u`, and (when `u` is not the root) every
child of `u` compares no higher than the parent of `u`. -/
def downOK (bh : Vbh α) (u : Nat) : Prop :=
  (∀ w, 1 < w → w < bh.next → parent bh w ≠ u → cmpA bh w (parent bh w) = false) ∧
  (1 < u → ∀ w, 1 < w → w < bh.next → parent bh w = u →
    cmpA bh w (parent bh u) = false)

/-- Precondition after overwriting slot `u` with an arbitrary handle in an
otherwise ordered heap (`VBH_delete` moving the tail into `idx`,
`VBH_reorder` after the caller changed a key): every edge not incident to
`u` holds, and (when `u` is not the root) every child of `u` compares no
higher than the parent of `u`. -/
def touchOK (bh : Vbh α) (u : Nat) : Prop :=
  (∀ w, 1 < w → w < bh.next → w ≠ u → parent bh w ≠ u →
    cmpA bh w (parent bh w) = false) ∧
  (1 < u → ∀ w, 1 < w → w < bh.next → parent bh w = u →
    cmpA bh w (parent bh u) = false)

/-- A concrete two-element state on a 4-slot page whose comparison
callback is constantly false (every pair of elements is tied, which a
strict weak ordering allows): slots 1 and 2 hold the handles 10 and 20. -/
def tieHeap : Vbh Nat :=
  { cmp := fun _ _ => false, hasUpdate := true,
    array := fun k =>
      if k = 0 then
        some (fun j => if j = 1 then some 10 else if j = 2 then some 20 else none)
      else none,
    rows := 16, length := ROW_WIDTH, next := 3,
    page_size := 4, page_mask := 3, page_shift := 2 }

/-- A concrete two-element state whose `length` spans three rows, sitting
exactly at the row-release hysteresis threshold once one element is
deleted. -/
def threeRowHeap : Vbh Nat :=
  { cmp := fun _ _ => false, hasUpdate := true,
    array := fun k =>
      if k = 0 then
        some (fun j => if j = 1 then some 10 else if j = 2 then some 5 else none)
      else if k = 1 then some (fun _ => none)
      else if k = 2 then some (fun _ => none)
      else none,
    rows := 16, length := 3 * ROW_WIDTH, next := 3,
    page_size := 4, page_mask := 3, page_shift := 2 }

/-- The intermediate state of `VBH_delete threeRowHeap 1` after the tail
element is moved into slot 1 and `next` is decremented (the trickle
passes leave it unchanged: slot 1 is the root and has no child below
`next`). -/
def threeRowHeapDel : Vbh Nat :=
  { setSlot (setSlot threeRowHeap 1 (Aof threeRowHeap (threeRowHeap.next - 1)))
      (threeRowHeap.next - 1) none with next := threeRowHeap.next - 1 }

/-- The final state of `VBH_delete threeRowHeap 1`: the hysteresis test
passes and the tail row is freed. -/
def threeRowHeapShrunk : Vbh Nat :=
  { threeRowHeapDel with
    array := fun k =>
      if k = (threeRowHeapDel.length - 1) >>> ROW_SHIFT then none
      else threeRowHeapDel.array k,
    length := threeRowHeapDel.length - ROW_WIDTH }

end VBH

namespace VXP

/-- Token kinds at which a bare LHS comparison stops and becomes a
`T_TRUE` node (the lookahead set of `vxp_expr_cmp`). -/
def stopTok (k : TokKind) : Prop :=
  k = .EOI ∨ k = .T_AND ∨ k = .T_OR ∨ k = .rparen

/-- `ts` is a comparison sub-expression parsing to the node `v` (whose
option bag is `opts`): in any non-error state carrying `ts` followed by a
connective, a closing parenthesis or EOI, `vxp_expr_cmp` consumes exactly
`ts`, succeeds with `v`, and accounts exactly the allocations owned by
`v`. -/
def CmpAtom (e : VxpEnv) (opts : Nat) (ts : List Tok) (v : Vex) : Prop :=
  (∃ t ts', ts = t :: ts' ∧ t.tok ≠ .lparen ∧ t.tok ≠ .T_NOT ∧ t.tok ≠ .EOI) ∧
  ∀ st rest, st.err = false → st.vex_options = opts → st.toks = ts ++ rest →
    stopTok (curTok { st with toks := rest }) →
    vxp_expr_cmp e st = (some v, { st with toks := rest, live := st.live + vexCount v })

/-- `ts` is a complete `expr_or` sub-query parsing to `v` under any fuel
of at least `N`, when followed by EOI.  A sub-query does not begin with
EOI (that would be an empty query). -/
def OrAtom (e : VxpEnv) (opts : Nat) (N : Nat) (ts : List Tok) (v : Vex) : Prop :=
  (∃ t ts', ts = t :: ts' ∧ t.tok ≠ .EOI) ∧
  ∀ f, N ≤ f → ∀ st rest, st.err = false → st.vex_options = opts →
    st.toks = ts ++ rest → curTok { st with toks := rest } = .EOI →
    vxp_expr_or f e st = (some v, { st with toks := rest, live := st.live + vexCount v })

/-- A fixed collaborator environment for concrete runs: every glob matches
exactly one tag, no payload is NaN, every pattern compiles. -/
def env0 : VxpEnv :=
  { glob := fun _ => 1, vnumNan := fun _ => false, reOk := fun _ => true }

/-- A fresh parser state over a given token list, as `vxp_Parse` receives
it (`AZ(vxp->err)`). -/
def st0 (ts : List Tok) : VxpSt :=
  { toks := ts, err := false, sbLen := 0, live := 0, vex_options := 0 }

end VXP


/-! Arithmetic facts about the bit operations used by the VM-aware index
computations: conversions between masking, shifting, or-ing and
division and remainder by powers of two. -/

namespace VBH

theorem pow2_le_pow2 {a b : Nat} (h : a ≤ b) : (2 : Nat) ^ a ≤ 2 ^ b :=
  Nat.pow_le_pow_right (by norm_num) h

theorem testBit_mul_pow_add (a b S i : Nat) (hb : b < 2 ^ S) :
    Nat.testBit (a * 2 ^ S + b) i =
      if i < S then Nat.testBit b i else Nat.testBit a (i - S) := by
  rcases Nat.lt_or_ge i S with h | h
  · rw [if_pos h, Nat.testBit_to_div_mod, Nat.testBit_to_div_mod]
    have hsplit : a * 2 ^ S = 2 ^ i * (a * 2 ^ (S - i)) := by
      rw [← mul_assoc, mul_comm (2 ^ i), mul_assoc, ← pow_add]
      congr 2
      omega
    rw [hsplit, Nat.mul_add_div (Nat.two_pow_pos i)]
    have hp : (2 : Nat) ^ (S - i) = 2 * 2 ^ (S - i - 1) := by
      rw [← pow_succ']
      congr 1
      omega
    rw [hp, show a * (2 * 2 ^ (S - i - 1)) + b / 2 ^ i
          = 2 * (a * 2 ^ (S - i - 1)) + b / 2 ^ i by ring,
      Nat.mul_add_mod]
  · rw [if_neg (Nat.not_lt.mpr h), Nat.testBit_to_div_mod, Nat.testBit_to_div_mod]
    have hdiv : (a * 2 ^ S + b) / 2 ^ i = a / 2 ^ (i - S) := by
      have hi : (2 : Nat) ^ i = 2 ^ S * 2 ^ (i - S) := by
        rw [← pow_add]
        congr 1
        omega
      rw [hi, ← Nat.div_div_eq_div_mul]
      congr 1
      rw [mul_comm a, Nat.mul_add_div (Nat.two_pow_pos S), Nat.div_eq_of_lt hb,
        Nat.add_zero]
    rw [hdiv]

theorem land_high (u S N : Nat) (hu : u < 2 ^ N) (hS : S ≤ N) :
    u &&& (2 ^ N - 2 ^ S) = u / 2 ^ S * 2 ^ S := by
  apply Nat.eq_of_testBit_eq
  intro i
  have hmask : (2 : Nat) ^ N - 2 ^ S = (2 ^ (N - S) - 1) <<< S := by
    rw [Nat.shiftLeft_eq, Nat.sub_mul, one_mul, ← pow_add]
    congr 2
    omega
  have hrhs : u / 2 ^ S * 2 ^ S = (u >>> S) <<< S := by
    rw [Nat.shiftLeft_eq, Nat.shiftRight_eq_div_pow]
  rw [Nat.testBit_and, hmask, hrhs, Nat.testBit_shiftLeft, Nat.testBit_shiftLeft,
    Nat.testBit_two_pow_sub_one, Nat.testBit_shiftRight]
  simp only [ge_iff_le]
  rcases Nat.lt_or_ge i S with h1 | h1
  · rw [decide_eq_false (by omega : ¬ S ≤ i)]
    simp
  · rw [decide_eq_true h1, Bool.true_and, Bool.true_and,
      show S + (i - S) = i by omega]
    rcases Nat.lt_or_ge i N with h2 | h2
    · rw [decide_eq_true (by omega : i - S < N - S), Bool.and_true]
    · have hz : Nat.testBit u i = false :=
        Nat.testBit_lt_two_pow (lt_of_lt_of_le hu (pow2_le_pow2 h2))
      simp [hz]

theorem lor_mul_pow (q r S : Nat) (hr : r < 2 ^ S) :
    (q * 2 ^ S) ||| r = q * 2 ^ S + r := by
  apply Nat.eq_of_testBit_eq
  intro i
  have hq : Nat.testBit (q * 2 ^ S) i = (decide (S ≤ i) && Nat.testBit q (i - S)) := by
    rw [show q * 2 ^ S = q <<< S from (Nat.shiftLeft_eq q S).symm, Nat.testBit_shiftLeft]
  rw [Nat.testBit_or, testBit_mul_pow_add q r S i hr, hq]
  rcases Nat.lt_or_ge i S with h | h
  · rw [if_pos h, decide_eq_false (by omega : ¬ S ≤ i), Bool.false_and, Bool.false_or]
  · have hz : Nat.testBit r i = false :=
      Nat.testBit_lt_two_pow (lt_of_lt_of_le hr (pow2_le_pow2 h))
    rw [if_neg (Nat.not_lt.mpr h), decide_eq_true h, Bool.true_and, hz, Bool.or_false]

theorem lor_mid (m s S : Nat) (hS : 1 ≤ S) (hs : s < 2 ^ (S - 1)) :
    (2 * m * 2 ^ (S - 1) + s) ||| 2 ^ (S - 1) = (2 * m + 1) * 2 ^ (S - 1) + s := by
  apply Nat.eq_of_testBit_eq
  intro i
  rw [Nat.testBit_or, testBit_mul_pow_add (2 * m) s (S - 1) i hs,
    testBit_mul_pow_add (2 * m + 1) s (S - 1) i hs, Nat.testBit_two_pow]
  rcases Nat.lt_or_ge i (S - 1) with h | h
  · rw [if_pos h, if_pos h, decide_eq_false (by omega : ¬ S - 1 = i), Bool.or_false]
  · rw [if_neg (Nat.not_lt.mpr h), if_neg (Nat.not_lt.mpr h)]
    rcases Nat.eq_or_lt_of_le h with h2 | h2
    · rw [decide_eq_true h2, show i - (S - 1) = 0 by omega]
      have h0 : Nat.testBit (2 * m) 0 = false := by
        rw [Nat.testBit_zero]
        exact decide_eq_false (by omega)
      have h1 : Nat.testBit (2 * m + 1) 0 = true := by
        rw [Nat.testBit_zero]
        exact decide_eq_true (by omega)
      rw [h0, h1, Bool.false_or]
    · rw [decide_eq_false (by omega : ¬ S - 1 = i), Bool.or_false]
      obtain ⟨j, hj⟩ : ∃ j, i - (S - 1) = j + 1 := ⟨i - (S - 1) - 1, by omega⟩
      rw [hj, Nat.testBit_add_one, Nat.testBit_add_one,
        show 2 * m / 2 = m by omega, show (2 * m + 1) / 2 = m by omega]

theorem land_bit_high (u S : Nat) (hS : 1 ≤ S) :
    u &&& 2 ^ (S - 1) = 0 ↔ u % 2 ^ S < 2 ^ (S - 1) := by
  rw [Nat.and_two_pow]
  have hmt : Nat.testBit u (S - 1) = Nat.testBit (u % 2 ^ S) (S - 1) := by
    rw [Nat.testBit_mod_two_pow, decide_eq_true (by omega : S - 1 < S), Bool.true_and]
  constructor
  · intro h
    have hbit : Nat.testBit u (S - 1) = false := by
      rcases hb : Nat.testBit u (S - 1) with _ | _
      · rfl
      · rw [hb] at h
        simp at h

    apply Nat.lt_pow_two_of_testBit
    intro i hi
    rcases Nat.lt_or_ge i S with h2 | h2
    · rw [show i = S - 1 by omega, ← hmt]
      exact hbit
    · exact Nat.testBit_lt_two_pow
        (lt_of_lt_of_le (Nat.mod_lt u (Nat.two_pow_pos S)) (pow2_le_pow2 h2))
  · intro h
    have hz : Nat.testBit (u % 2 ^ S) (S - 1) = false := Nat.testBit_lt_two_pow h
    rw [← hmt] at hz
    rw [hz]
    simp

theorem land_low_two (u S : Nat) (hS : 1 ≤ S) :
    (u &&& (2 ^ S - 2) = 0) ↔ u % 2 ^ S < 2 := by
  have hm2 : ∀ i, Nat.testBit (2 ^ S - 2) i = decide (1 ≤ i ∧ i < S) := by
    intro i
    have hsh : (2 : Nat) ^ S - 2 = (2 ^ (S - 1) - 1) <<< 1 := by
      rw [Nat.shiftLeft_eq, pow_one]
      have hp : (2 : Nat) ^ S = 2 ^ (S - 1) * 2 := by
        rw [← pow_succ]
        congr 1
        omega
      omega
    rw [hsh, Nat.testBit_shiftLeft, Nat.testBit_two_pow_sub_one]
    simp only [ge_iff_le]
    rcases Nat.lt_or_ge i 1 with h | h
    · rw [decide_eq_false (by omega : ¬ 1 ≤ i), Bool.false_and,
        Eq.symm (decide_eq_false (by omega : ¬ (1 ≤ i ∧ i < S)))]
    · rw [decide_eq_true h, Bool.true_and]
      rcases Nat.lt_or_ge i S with h2 | h2
      · rw [decide_eq_true (by omega : i - 1 < S - 1),
          decide_eq_true (by omega : 1 ≤ i ∧ i < S)]
      · rw [decide_eq_false (by omega : ¬ i - 1 < S - 1),
          decide_eq_false (by omega : ¬ (1 ≤ i ∧ i < S))]
  constructor
  · intro h
    have hb : ∀ i, i ≥ 1 → Nat.testBit (u % 2 ^ S) i = false := by
      intro i hi
      rcases Nat.lt_or_ge i S with h2 | h2
      · have hz : Nat.testBit (u &&& (2 ^ S - 2)) i = false := by
          rw [h]
          simp
        rw [Nat.testBit_and, hm2 i,
          decide_eq_true (by omega : 1 ≤ i ∧ i < S), Bool.and_true] at hz
        rw [Nat.testBit_mod_two_pow, decide_eq_true h2, Bool.true_and]
        exact hz
      · exact Nat.testBit_lt_two_pow
          (lt_of_lt_of_le (Nat.mod_lt u (Nat.two_pow_pos S)) (pow2_le_pow2 h2))
    have h2 := Nat.lt_pow_two_of_testBit _ hb
    simpa using h2
  · intro h
    apply Nat.eq_of_testBit_eq
    intro i
    rw [Nat.testBit_and, hm2 i, Nat.zero_testBit]
    by_cases hd : 1 ≤ i ∧ i < S
    · rw [decide_eq_true hd, Bool.and_true]
      have hui : Nat.testBit u i = Nat.testBit (u % 2 ^ S) i := by
        rw [Nat.testBit_mod_two_pow, decide_eq_true hd.2, Bool.true_and]
      rw [hui]
      exact Nat.testBit_lt_two_pow (lt_of_lt_of_le h (pow2_le_pow2 hd.1))
    · rw [decide_eq_false hd, Bool.and_false]

end VBH

/-! Normal forms of the VM-aware index computations in terms of division
and remainder by the page size, and the tree facts that follow. -/

namespace VBH

variable {α : Type} {bh : Vbh α}

theorem div_sub_one (a b : Nat) (hb : 0 < b) (h : b ≤ a) :
    (a - b) / b = a / b - 1 := by
  have h2 : a / b = (a - b) / b + 1 := by
    conv_lhs => rw [show a = (a - b) + b by omega]
    rw [Nat.add_div_right _ hb]
  rw [h2, Nat.add_sub_cancel]

theorem PP.size_eq (h : PP bh) : bh.page_size = 2 ^ bh.page_shift := h.1

theorem PP.size_ge (h : PP bh) : 4 ≤ bh.page_size := by
  rw [h.1]
  calc (4 : Nat) = 2 ^ 2 := by norm_num
    _ ≤ 2 ^ bh.page_shift := pow2_le_pow2 h.2.2.1

theorem PP.half_pos (h : PP bh) : 2 ≤ bh.page_size / 2 := by
  have := h.size_ge
  omega

theorem PP.size_double (h : PP bh) : bh.page_size = 2 * (2 ^ (bh.page_shift - 1)) := by
  rw [h.1, ← pow_succ']
  congr 1
  have := h.2.2.1
  omega

theorem PP.half_eq (h : PP bh) : bh.page_size / 2 = 2 ^ (bh.page_shift - 1) := by
  have := h.size_double
  omega

theorem PP.mask_eq (h : PP bh) : bh.page_mask = 2 ^ bh.page_shift - 1 := by
  rw [h.2.1, h.1]

theorem PP.mod_lt (h : PP bh) (u : Nat) : u % bh.page_size < bh.page_size :=
  Nat.mod_lt u (by have := h.size_ge; omega)

theorem PP.land_mask (h : PP bh) (u : Nat) :
    u &&& bh.page_mask = u % bh.page_size := by
  rw [h.mask_eq, h.1, Nat.and_pow_two_sub_one_eq_mod]

theorem PP.land_himask (h : PP bh) {u : Nat} (hu : u < UINT_SIZE) :
    u &&& (UINT_MAX - bh.page_mask) = u / bh.page_size * bh.page_size := by
  have hle : (2 : Nat) ^ bh.page_shift ≤ 2 ^ 32 := pow2_le_pow2 (by have := h.2.2.2; omega)
  have hpos : 0 < (2 : Nat) ^ bh.page_shift := Nat.two_pow_pos _
  have hHM : UINT_MAX - bh.page_mask = 2 ^ 32 - 2 ^ bh.page_shift := by
    rw [h.mask_eq]
    simp only [UINT_MAX, UINT_SIZE]
    omega
  rw [hHM, h.1]
  exact land_high u bh.page_shift 32 hu (by have := h.2.2.2; omega)

theorem PP.halfmask_eq (h : PP bh) : bh.page_mask >>> 1 = 2 ^ (bh.page_shift - 1) - 1 := by
  rw [h.mask_eq, Nat.shiftRight_eq_div_pow, pow_one]
  have := h.size_double
  have h1 := h.1
  omega

theorem PP.halfsize_eq (h : PP bh) : bh.page_size >>> 1 = 2 ^ (bh.page_shift - 1) := by
  rw [Nat.shiftRight_eq_div_pow, pow_one]
  exact h.half_eq

theorem PP.land_halfmask (h : PP bh) (u : Nat) :
    u &&& (bh.page_mask >>> 1) = u % (bh.page_size / 2) := by
  rw [h.halfmask_eq, Nat.and_pow_two_sub_one_eq_mod, h.half_eq]

theorem PP.land_halfhimask (h : PP bh) {v : Nat} (hv : v < UINT_SIZE) :
    v &&& (UINT_MAX - (bh.page_mask >>> 1))
      = v / (bh.page_size / 2) * (bh.page_size / 2) := by
  have hS1 : bh.page_shift - 1 ≤ 32 := by have := h.2.2.2; omega
  have hle : (2 : Nat) ^ (bh.page_shift - 1) ≤ 2 ^ 32 := pow2_le_pow2 hS1
  have hpos : 0 < (2 : Nat) ^ (bh.page_shift - 1) := Nat.two_pow_pos _
  have hHM : UINT_MAX - (bh.page_mask >>> 1) = 2 ^ 32 - 2 ^ (bh.page_shift - 1) := by
    rw [h.halfmask_eq]
    simp only [UINT_MAX, UINT_SIZE]
    omega
  rw [hHM, h.half_eq]
  exact land_high v (bh.page_shift - 1) 32 hv hS1

/-- Division-and-remainder normal form of `parent`. -/
theorem parent_eq (hpp : PP bh) (u : Nat) (hu : u < UINT_SIZE) :
    parent bh u =
      if u < bh.page_size ∨ 3 < u % bh.page_size then
        u / bh.page_size * bh.page_size + u % bh.page_size / 2
      else if u % bh.page_size < 2 then
        (u / bh.page_size - 1) / (bh.page_size / 2) * bh.page_size
          + bh.page_size / 2 + (u / bh.page_size - 1) % (bh.page_size / 2)
      else u - 2 := by
  have hPpos : 0 < bh.page_size := by have := hpp.size_ge; omega
  simp only [parent, hpp.land_mask]
  by_cases hc1 : u < bh.page_size ∨ 3 < u % bh.page_size
  · rw [if_pos hc1, if_pos hc1, hpp.land_himask hu, Nat.shiftRight_eq_div_pow, pow_one,
      hpp.size_eq]
    exact lor_mul_pow _ _ _ (by
      have := hpp.mod_lt u
      rw [hpp.size_eq] at this
      omega)
  · rw [if_neg hc1, if_neg hc1]
    by_cases hc2 : u % bh.page_size < 2
    · rw [if_pos hc2, if_pos hc2]
      have hPu : bh.page_size ≤ u := by omega
      have hv0 : (u - bh.page_size) >>> bh.page_shift = u / bh.page_size - 1 := by
        rw [Nat.shiftRight_eq_div_pow, ← hpp.size_eq]
        exact div_sub_one u bh.page_size hPpos hPu
      rw [hv0]
      set q1 := u / bh.page_size - 1 with hq1
      have hq1lt : q1 < UINT_SIZE := by
        have : u / bh.page_size ≤ u := Nat.div_le_self u bh.page_size
        omega
      rw [hpp.land_halfhimask hq1lt]
      set H := 2 ^ (bh.page_shift - 1) with hH
      have hHhalf : bh.page_size / 2 = H := hpp.half_eq
      have hHpos : 0 < H := Nat.two_pow_pos _
      have hsplit : q1 + q1 / (bh.page_size / 2) * (bh.page_size / 2)
          = 2 * (q1 / H) * H + q1 % H := by
        rw [hHhalf]
        have hdm := Nat.div_add_mod q1 H
        set x := q1 / H
        set r := q1 % H
        calc q1 + x * H = (H * x + r) + x * H := by rw [hdm]
          _ = 2 * x * H + r := by ring
      rw [hsplit, hHhalf, lor_mid (q1 / H) (q1 % H) bh.page_shift
        (by have := hpp.2.2.1; omega) (by rw [hH]; exact Nat.mod_lt _ hHpos)]
      have hPH : bh.page_size = 2 * H := hpp.size_double
      calc (2 * (q1 / H) + 1) * H + q1 % H
          = q1 / H * (2 * H) + H + q1 % H := by ring
        _ = q1 / H * bh.page_size + H + q1 % H := by rw [← hPH]
    · rw [if_neg hc2, if_neg hc2]

end VBH

namespace VBH

variable {α : Type} {bh : Vbh α}

/-- Division-and-remainder normal form of `child`. -/
theorem child_eq (hpp : PP bh) (u : Nat) (hu : u < UINT_SIZE) :
    child bh u =
      if bh.page_size ≤ u ∧ u % bh.page_size < 2 then (u + 2, u + 2)
      else if bh.page_size / 2 ≤ u % bh.page_size then
        if (u / bh.page_size * (bh.page_size / 2) + u % (bh.page_size / 2) + 1) * bh.page_size
            < UINT_SIZE then
          ((u / bh.page_size * (bh.page_size / 2) + u % (bh.page_size / 2) + 1) * bh.page_size,
           (u / bh.page_size * (bh.page_size / 2) + u % (bh.page_size / 2) + 1) * bh.page_size + 1)
        else (UINT_MAX, UINT_MAX)
      else (u + u % bh.page_size, u + u % bh.page_size + 1) := by
  have hS2 : 2 ≤ bh.page_shift := hpp.2.2.1
  have hPpos : 0 < bh.page_size := by have := hpp.size_ge; omega
  have hppos : 0 < (2 : Nat) ^ bh.page_shift := Nat.two_pow_pos _
  have hc1iff : (bh.page_mask < u ∧ (u &&& (bh.page_mask - 1)) = 0)
      ↔ (bh.page_size ≤ u ∧ u % bh.page_size < 2) := by
    have hm1 : bh.page_mask - 1 = 2 ^ bh.page_shift - 2 := by
      rw [hpp.mask_eq]
      omega
    have hmlt : bh.page_mask < u ↔ bh.page_size ≤ u := by
      rw [hpp.mask_eq, hpp.size_eq]
      omega
    have hlow := land_low_two u bh.page_shift (by omega)
    rw [hm1, hmlt, hlow, hpp.size_eq]
  simp only [child]
  by_cases hc1 : bh.page_size ≤ u ∧ u % bh.page_size < 2
  · rw [if_pos (hc1iff.mpr hc1), if_pos hc1]
  · rw [if_neg (fun hh => hc1 (hc1iff.mp hh)), if_neg hc1]
    have hbit := land_bit_high u bh.page_shift (by omega)
    have hc2iff : (u &&& (bh.page_size >>> 1) ≠ 0) ↔ bh.page_size / 2 ≤ u % bh.page_size := by
      rw [hpp.halfsize_eq]
      rw [hpp.half_eq, hpp.size_eq] at *
      constructor
      · intro hne
        by_contra hlt
        exact hne (hbit.mpr (by omega))
      · intro hge hz
        have := hbit.mp hz
        omega
    by_cases hc2 : bh.page_size / 2 ≤ u % bh.page_size
    · rw [if_pos (hc2iff.mpr hc2), if_pos hc2]
      have hsh : (u &&& (UINT_MAX - bh.page_mask)) >>> 1
          = u / bh.page_size * (bh.page_size / 2) := by
        rw [hpp.land_himask hu, Nat.shiftRight_eq_div_pow, pow_one, hpp.size_double]
        rw [show 2 * 2 ^ (bh.page_shift - 1) / 2 = 2 ^ (bh.page_shift - 1) from
              Nat.mul_div_cancel_left _ (by norm_num)]
        rw [show u / (2 * 2 ^ (bh.page_shift - 1)) * (2 * 2 ^ (bh.page_shift - 1))
              = 2 * (u / (2 * 2 ^ (bh.page_shift - 1)) * 2 ^ (bh.page_shift - 1)) by ring]
        rw [Nat.mul_div_cancel_left _ (by norm_num : (0:Nat) < 2)]
      have ha1 : ((u &&& (UINT_MAX - bh.page_mask)) >>> 1) ||| (u &&& (bh.page_mask >>> 1))
          = u / bh.page_size * (bh.page_size / 2) + u % (bh.page_size / 2) := by
        rw [hsh, hpp.land_halfmask, hpp.half_eq]
        exact lor_mul_pow _ _ _ (Nat.mod_lt _ (Nat.two_pow_pos _))
      rw [ha1]
      set a2 := u / bh.page_size * (bh.page_size / 2) + u % (bh.page_size / 2) + 1 with ha2
      have huu : a2 <<< bh.page_shift = a2 * bh.page_size := by
        rw [Nat.shiftLeft_eq, ← hpp.size_eq]
      rw [huu]
      by_cases hcl : a2 * bh.page_size < UINT_SIZE
      · have hmod : a2 * bh.page_size % UINT_SIZE = a2 * bh.page_size :=
          Nat.mod_eq_of_lt hcl
        rw [if_pos hcl, if_pos hmod, hmod]
      · have hne : a2 * bh.page_size % UINT_SIZE ≠ a2 * bh.page_size := by
          intro he
          have := Nat.mod_lt (a2 * bh.page_size)
            (show 0 < UINT_SIZE by norm_num [UINT_SIZE])
          omega
        rw [if_neg hcl, if_neg hne]
    · rw [if_neg (fun hh => hc2 (hc2iff.mp hh)), if_neg hc2, hpp.land_mask]

end VBH

namespace VBH

variable {α : Type} {bh : Vbh α}

/-- The parent of any non-root slot lies strictly above it (the source
assertion `assert(v < u)` in `vbh_trickleup`). -/
theorem parent_lt (hpp : PP bh) {u : Nat} (hu32 : u < UINT_SIZE) (hu : 2 ≤ u) :
    parent bh u < u := by
  rw [parent_eq hpp u hu32]
  have hP4 := hpp.size_ge
  have hmod := hpp.mod_lt u
  by_cases hc1 : u < bh.page_size ∨ 3 < u % bh.page_size
  · rw [if_pos hc1]
    rcases Nat.lt_or_ge u bh.page_size with hlt | hge
    · rw [Nat.div_eq_of_lt hlt, Nat.mod_eq_of_lt hlt]
      omega
    · have hr4 : 3 < u % bh.page_size := by
        rcases hc1 with h | h
        · omega
        · exact h
      have hdm := Nat.div_add_mod' u bh.page_size
      generalize u / bh.page_size * bh.page_size = T at hdm ⊢
      omega
  · rw [if_neg hc1]
    have hge : bh.page_size ≤ u := by
      by_contra hlt
      exact hc1 (Or.inl (by omega))
    by_cases hc2 : u % bh.page_size < 2
    · rw [if_pos hc2]
      have hq1 : 1 ≤ u / bh.page_size := (Nat.one_le_div_iff (by omega)).mpr hge
      set q1 := u / bh.page_size - 1 with hq1d
      set H := bh.page_size / 2 with hHd
      have hHpos : 2 ≤ H := hpp.half_pos
      have hq1dm := Nat.div_add_mod' q1 H
      set w := q1 / H with hwd
      set s := q1 % H with hsd
      have hslt : s < H := Nat.mod_lt _ (by omega)
      have hqP : u / bh.page_size * bh.page_size
          = w * H * bh.page_size + s * bh.page_size + bh.page_size := by
        have hq : u / bh.page_size = w * H + s + 1 := by omega
        rw [hq]
        ring
      have hudm := Nat.div_add_mod' u bh.page_size
      rw [hqP] at hudm
      have hwP : w * bh.page_size ≤ w * H * bh.page_size := by
        calc w * bh.page_size = w * 1 * bh.page_size := by ring
          _ ≤ w * H * bh.page_size :=
            Nat.mul_le_mul_right _ (Nat.mul_le_mul_left _ (by omega))
      have hsP : s ≤ s * bh.page_size := Nat.le_mul_of_pos_right s (by omega)
      generalize w * H * bh.page_size = A at hudm hwP ⊢
      generalize w * bh.page_size = B at hwP ⊢
      generalize s * bh.page_size = C at hudm hsP ⊢
      omega
    · rw [if_neg hc2]
      omega

/-- The parent of any non-root slot is a valid slot (at least `ROOT_IDX`). -/
theorem parent_pos (hpp : PP bh) {u : Nat} (hu32 : u < UINT_SIZE) (hu : 2 ≤ u) :
    1 ≤ parent bh u := by
  rw [parent_eq hpp u hu32]
  have hP4 := hpp.size_ge
  have hmod := hpp.mod_lt u
  by_cases hc1 : u < bh.page_size ∨ 3 < u % bh.page_size
  · rw [if_pos hc1]
    rcases Nat.lt_or_ge u bh.page_size with hlt | hge
    · rw [Nat.div_eq_of_lt hlt, Nat.mod_eq_of_lt hlt]
      omega
    · have hq1 : 1 ≤ u / bh.page_size := (Nat.one_le_div_iff (by omega)).mpr hge
      have hle : bh.page_size ≤ u / bh.page_size * bh.page_size := by
        calc bh.page_size = 1 * bh.page_size := by ring
          _ ≤ u / bh.page_size * bh.page_size := Nat.mul_le_mul_right _ hq1
      omega
  · rw [if_neg hc1]
    have hge : bh.page_size ≤ u := by
      by_contra hlt
      exact hc1 (Or.inl (by omega))
    by_cases hc2 : u % bh.page_size < 2
    · rw [if_pos hc2]
      have := hpp.half_pos
      omega
    · rw [if_neg hc2]
      omega

end VBH

namespace VBH

variable {α : Type} {bh : Vbh α}

/-- Children lie strictly below their parent, the first child is the
smaller, and the second is at most one past the first (the source
assertions `v1 > 0`, `v1 <= v2` in `vbh_trickledown`). -/
theorem child_gt (hpp : PP bh) {u : Nat} (hu32 : u < UINT_MAX) (hu : 1 ≤ u) :
    u < (child bh u).1 ∧ (child bh u).1 ≤ (child bh u).2 ∧
      (child bh u).2 ≤ (child bh u).1 + 1 := by
  have huS : u < UINT_SIZE := by
    have : UINT_MAX < UINT_SIZE := by norm_num [UINT_MAX, UINT_SIZE]
    omega
  rw [child_eq hpp u huS]
  have hP4 := hpp.size_ge
  have hH2 := hpp.half_pos
  have hmod := hpp.mod_lt u
  by_cases hc1 : bh.page_size ≤ u ∧ u % bh.page_size < 2
  · rw [if_pos hc1]
    exact ⟨by omega, Nat.le_refl _, by omega⟩
  · rw [if_neg hc1]
    by_cases hc2 : bh.page_size / 2 ≤ u % bh.page_size
    · rw [if_pos hc2]
      set a2 := u / bh.page_size * (bh.page_size / 2) + u % (bh.page_size / 2) + 1
        with ha2
      by_cases hcl : a2 * bh.page_size < UINT_SIZE
      · rw [if_pos hcl]
        refine ⟨?_, by omega, by omega⟩
        show u < a2 * bh.page_size
        have hdm := Nat.div_add_mod' u bh.page_size
        have hexp : a2 * bh.page_size
            = u / bh.page_size * (bh.page_size / 2) * bh.page_size
              + u % (bh.page_size / 2) * bh.page_size + bh.page_size := by
          rw [ha2]
          ring
        have hmono : u / bh.page_size * bh.page_size
            ≤ u / bh.page_size * (bh.page_size / 2) * bh.page_size := by
          calc u / bh.page_size * bh.page_size
              = u / bh.page_size * 1 * bh.page_size := by ring
            _ ≤ u / bh.page_size * (bh.page_size / 2) * bh.page_size :=
              Nat.mul_le_mul_right _ (Nat.mul_le_mul_left _ (by omega))
        generalize u / bh.page_size * (bh.page_size / 2) * bh.page_size = A
          at hexp hmono
        generalize u / bh.page_size * bh.page_size = T at hdm hmono
        generalize u % (bh.page_size / 2) * bh.page_size = C at hexp
        omega
      · rw [if_neg hcl]
        exact ⟨hu32, Nat.le_refl _, by omega⟩
    · rw [if_neg hc2]
      have hr1 : 1 ≤ u % bh.page_size := by
        by_contra h0
        have hr0 : u % bh.page_size = 0 := by omega
        rcases Nat.lt_or_ge u bh.page_size with hlt | hge
        · rw [Nat.mod_eq_of_lt hlt] at hr0
          omega
        · exact hc1 ⟨hge, by omega⟩
      exact ⟨by omega, by omega, by omega⟩

end VBH

namespace VBH

variable {α : Type} {bh : Vbh α}

theorem usize_eq (hpp : PP bh) :
    UINT_SIZE = 2 ^ (32 - bh.page_shift) * bh.page_size := by
  rw [hpp.size_eq, ← pow_add]
  have := hpp.2.2.2
  simp only [UINT_SIZE]
  congr 1
  omega

/-- A multiple of the page size below 2^32 stays below 2^32 with a whole
page of headroom. -/
theorem mul_size_bound (hpp : PP bh) {a : Nat} (h : a * bh.page_size < UINT_SIZE) :
    a * bh.page_size + bh.page_size ≤ UINT_SIZE := by
  have hP : 0 < bh.page_size := by have := hpp.size_ge; omega
  have hK := usize_eq hpp
  rw [hK] at h ⊢
  have ha : a < 2 ^ (32 - bh.page_shift) := Nat.lt_of_mul_lt_mul_right h
  calc a * bh.page_size + bh.page_size = (a + 1) * bh.page_size := by ring
    _ ≤ 2 ^ (32 - bh.page_shift) * bh.page_size := Nat.mul_le_mul_right _ ha

/-- The division headroom bound: `u / P * P + P ≤ 2^32` for `u < 2^32`. -/
theorem div_mul_size_bound (hpp : PP bh) {u : Nat} (hu : u < UINT_SIZE) :
    u / bh.page_size * bh.page_size + bh.page_size ≤ UINT_SIZE := by
  have hP : 0 < bh.page_size := by have := hpp.size_ge; omega
  apply mul_size_bound hpp
  have hle : u / bh.page_size * bh.page_size ≤ u := Nat.div_mul_le_self u _
  omega

end VBH

namespace VBH

variable {α : Type} {bh : Vbh α}

/-- The parent and child computations are mutually inverse: whenever the
child computation does not clamp to the `UINT_MAX` sentinel, the parent of
each child is the original index (the PARANOIA assertions in `child`). -/
theorem child_parent (hpp : PP bh) {u : Nat} (hu32 : u < UINT_MAX) (hu : 1 ≤ u)
    (hnc : (child bh u).1 ≠ UINT_MAX) :
    parent bh (child bh u).1 = u ∧ parent bh (child bh u).2 = u := by
  have hS2 : 2 ≤ bh.page_shift := hpp.2.2.1
  have hP4 := hpp.size_ge
  have hH2 := hpp.half_pos
  have hPH : bh.page_size = 2 * (bh.page_size / 2) := by
    rw [hpp.half_eq]
    exact hpp.size_double
  have hPpos : 0 < bh.page_size := by omega
  have huS : u < UINT_SIZE := by
    have : UINT_MAX < UINT_SIZE := by norm_num [UINT_MAX, UINT_SIZE]
    omega
  have hmod := hpp.mod_lt u
  have hdm := Nat.div_add_mod u bh.page_size
  have hdm2 := Nat.div_add_mod' u bh.page_size
  rw [child_eq hpp u huS] at hnc ⊢
  by_cases hc1 : bh.page_size ≤ u ∧ u % bh.page_size < 2
  · rw [if_pos hc1] at hnc ⊢
    have hu2S : u + 2 < UINT_SIZE := by
      have := div_mul_size_bound hpp huS
      omega
    have hm2 : (u + 2) % bh.page_size = u % bh.page_size + 2 := by
      have he : u + 2 = bh.page_size * (u / bh.page_size) + (u % bh.page_size + 2) := by
        omega
      rw [he, Nat.mul_add_mod, Nat.mod_eq_of_lt (by omega)]
    constructor <;>
    · show parent bh (u + 2) = u
      rw [parent_eq hpp (u + 2) hu2S, hm2,
        if_neg (by omega : ¬ (u + 2 < bh.page_size ∨ 3 < u % bh.page_size + 2)),
        if_neg (by omega : ¬ u % bh.page_size + 2 < 2)]
      omega
  · rw [if_neg hc1] at hnc ⊢
    by_cases hc2 : bh.page_size / 2 ≤ u % bh.page_size
    · rw [if_pos hc2] at hnc ⊢
      set a2 := u / bh.page_size * (bh.page_size / 2) + u % (bh.page_size / 2) + 1
        with ha2
      by_cases hcl : a2 * bh.page_size < UINT_SIZE
      · rw [if_pos hcl] at hnc ⊢
        have hmodH : u % (bh.page_size / 2)
            = u % bh.page_size - bh.page_size / 2 := by
          have hdvd : (bh.page_size / 2) ∣ bh.page_size := ⟨2, by omega⟩
          have h1 : u % bh.page_size % (bh.page_size / 2) = u % (bh.page_size / 2) :=
            Nat.mod_mod_of_dvd u hdvd
          rw [← h1, Nat.mod_eq_sub_mod hc2,
            Nat.mod_eq_of_lt (by omega : u % bh.page_size - bh.page_size / 2
              < bh.page_size / 2)]
        have hC2 : a2 * bh.page_size + 1 < UINT_SIZE := by
          have := mul_size_bound hpp hcl
          omega
        have hdiv1 : a2 * bh.page_size / bh.page_size = a2 :=
          Nat.mul_div_cancel a2 hPpos
        have hmod1 : a2 * bh.page_size % bh.page_size = 0 := Nat.mul_mod_left _ _
        have hdiv2 : (a2 * bh.page_size + 1) / bh.page_size = a2 := by
          rw [mul_comm, Nat.mul_add_div hPpos, Nat.div_eq_of_lt (by omega), Nat.add_zero]
        have hmod2 : (a2 * bh.page_size + 1) % bh.page_size = 1 := by
          rw [mul_comm, Nat.mul_add_mod, Nat.mod_eq_of_lt (by omega)]
        have hPa2 : bh.page_size ≤ a2 * bh.page_size := by
          calc bh.page_size = 1 * bh.page_size := by ring
            _ ≤ a2 * bh.page_size := Nat.mul_le_mul_right _ (by omega)
        have hsub : a2 - 1 = u / bh.page_size * (bh.page_size / 2)
            + (u % bh.page_size - bh.page_size / 2) := by
          rw [ha2, hmodH]
          omega
        have hx : u % bh.page_size - bh.page_size / 2 < bh.page_size / 2 := by
          omega
        have hdivH : (a2 - 1) / (bh.page_size / 2) = u / bh.page_size := by
          rw [hsub, mul_comm, Nat.mul_add_div (show 0 < bh.page_size / 2 by omega),
            Nat.div_eq_of_lt hx, Nat.add_zero]
        have hmodHH : (a2 - 1) % (bh.page_size / 2)
            = u % bh.page_size - bh.page_size / 2 := by
          rw [hsub, mul_comm, Nat.mul_add_mod, Nat.mod_eq_of_lt hx]
        constructor
        · show parent bh (a2 * bh.page_size) = u
          rw [parent_eq hpp _ (by omega), hmod1,
            if_neg (by omega : ¬ (a2 * bh.page_size < bh.page_size ∨ 3 < (0:Nat))),
            if_pos (by omega : (0:Nat) < 2), hdiv1, hdivH, hmodHH]
          omega
        · show parent bh (a2 * bh.page_size + 1) = u
          rw [parent_eq hpp _ hC2, hmod2,
            if_neg (by omega : ¬ (a2 * bh.page_size + 1 < bh.page_size ∨ 3 < (1:Nat))),
            if_pos (by omega : (1:Nat) < 2), hdiv2, hdivH, hmodHH]
          omega
      · rw [if_neg hcl] at hnc
        exact absurd rfl hnc
    · rw [if_neg hc2] at hnc ⊢
      have hcS : u + u % bh.page_size + 1 < UINT_SIZE := by
        have := div_mul_size_bound hpp huS
        omega
      have hm1 : (u + u % bh.page_size) % bh.page_size = 2 * (u % bh.page_size) := by
        have he : u + u % bh.page_size
            = bh.page_size * (u / bh.page_size) + 2 * (u % bh.page_size) := by omega
        rw [he, Nat.mul_add_mod, Nat.mod_eq_of_lt (by omega)]
      have hd1 : (u + u % bh.page_size) / bh.page_size = u / bh.page_size := by
        have he : u + u % bh.page_size
            = bh.page_size * (u / bh.page_size) + 2 * (u % bh.page_size) := by omega
        rw [he, Nat.mul_add_div hPpos,
          Nat.div_eq_of_lt (show 2 * (u % bh.page_size) < bh.page_size by omega),
          Nat.add_zero]
      have hm2 : (u + u % bh.page_size + 1) % bh.page_size
          = 2 * (u % bh.page_size) + 1 := by
        have he : u + u % bh.page_size + 1
            = bh.page_size * (u / bh.page_size) + (2 * (u % bh.page_size) + 1) := by
          omega
        rw [he, Nat.mul_add_mod, Nat.mod_eq_of_lt (by omega)]
      have hd2 : (u + u % bh.page_size + 1) / bh.page_size = u / bh.page_size := by
        have he : u + u % bh.page_size + 1
            = bh.page_size * (u / bh.page_size) + (2 * (u % bh.page_size) + 1) := by
          omega
        rw [he, Nat.mul_add_div hPpos,
          Nat.div_eq_of_lt (show 2 * (u % bh.page_size) + 1 < bh.page_size by omega),
          Nat.add_zero]
      have hq0 : u < bh.page_size → u / bh.page_size = 0 := fun hlt =>
        Nat.div_eq_of_lt hlt
      have hr2 : bh.page_size ≤ u → 2 ≤ u % bh.page_size := by
        intro hge
        by_contra h0
        exact hc1 ⟨hge, by omega⟩
      have hbig1 : u + u % bh.page_size < bh.page_size
          ∨ 3 < 2 * (u % bh.page_size) := by
        rcases Nat.lt_or_ge u bh.page_size with hlt | hge
        · left
          have hmu : u % bh.page_size = u := Nat.mod_eq_of_lt hlt
          omega
        · right
          have := hr2 hge
          omega
      have hbig2 : u + u % bh.page_size + 1 < bh.page_size
          ∨ 3 < 2 * (u % bh.page_size) + 1 := by
        rcases Nat.lt_or_ge u bh.page_size with hlt | hge
        · left
          have hmu : u % bh.page_size = u := Nat.mod_eq_of_lt hlt
          omega
        · right
          have := hr2 hge
          omega
      constructor
      · show parent bh (u + u % bh.page_size) = u
        rw [parent_eq hpp _ (by omega), hm1, hd1, if_pos hbig1]
        omega
      · show parent bh (u + u % bh.page_size + 1) = u
        rw [parent_eq hpp _ hcS, hm2, hd2, if_pos hbig2]
        omega

end VBH

namespace VBH

variable {α : Type} {bh : Vbh α}

/-- Every non-root slot is one of the two children of its parent. -/
theorem parent_child (hpp : PP bh) {v : Nat} (hv32 : v < UINT_SIZE) (hv : 2 ≤ v) :
    v = (child bh (parent bh v)).1 ∨ v = (child bh (parent bh v)).2 := by
  have hS2 : 2 ≤ bh.page_shift := hpp.2.2.1
  have hP4 := hpp.size_ge
  have hH2 := hpp.half_pos
  have hPH : bh.page_size = 2 * (bh.page_size / 2) := by
    rw [hpp.half_eq]
    exact hpp.size_double
  have hPpos : 0 < bh.page_size := by omega
  have hmod := hpp.mod_lt v
  have hdm := Nat.div_add_mod v bh.page_size
  have hdm2 := Nat.div_add_mod' v bh.page_size
  have hbound := div_mul_size_bound hpp hv32
  rw [parent_eq hpp v hv32]
  by_cases hc1 : v < bh.page_size ∨ 3 < v % bh.page_size
  · rw [if_pos hc1]
    have hr2 : v % bh.page_size / 2 < bh.page_size := by omega
    have hpmod : (v / bh.page_size * bh.page_size + v % bh.page_size / 2)
        % bh.page_size = v % bh.page_size / 2 := by
      rw [mul_comm, Nat.mul_add_mod, Nat.mod_eq_of_lt hr2]
    have hpdiv : (v / bh.page_size * bh.page_size + v % bh.page_size / 2)
        / bh.page_size = v / bh.page_size := by
      rw [mul_comm, Nat.mul_add_div hPpos, Nat.div_eq_of_lt hr2, Nat.add_zero]
    have hpS : v / bh.page_size * bh.page_size + v % bh.page_size / 2 < UINT_SIZE := by
      omega
    rw [child_eq hpp _ hpS]
    have hAfalse : ¬ (bh.page_size ≤ v / bh.page_size * bh.page_size
        + v % bh.page_size / 2 ∧ (v / bh.page_size * bh.page_size
        + v % bh.page_size / 2) % bh.page_size < 2) := by
      rintro ⟨hA1, hA2⟩
      rw [hpmod] at hA2
      rcases hc1 with hlt | hgt
      · have hq0 : v / bh.page_size = 0 := Nat.div_eq_of_lt hlt
        have hmu : v % bh.page_size = v := Nat.mod_eq_of_lt hlt
        rw [hq0, hmu] at hA1
        simp at hA1
        omega
      · omega
    rw [if_neg hAfalse]
    have hBfalse : ¬ (bh.page_size / 2 ≤ (v / bh.page_size * bh.page_size
        + v % bh.page_size / 2) % bh.page_size) := by
      rw [hpmod]
      omega
    rw [if_neg hBfalse, hpmod]
    rcases Nat.mod_two_eq_zero_or_one (v % bh.page_size) with hpar | hpar
    · left
      show v = v / bh.page_size * bh.page_size + v % bh.page_size / 2
        + v % bh.page_size / 2
      omega
    · right
      show v = v / bh.page_size * bh.page_size + v % bh.page_size / 2
        + v % bh.page_size / 2 + 1
      omega
  · rw [if_neg hc1]
    have hvP : bh.page_size ≤ v := by
      by_contra hlt
      exact hc1 (Or.inl (by omega))
    have hr3 : v % bh.page_size ≤ 3 := by omega
    by_cases hc2 : v % bh.page_size < 2
    · rw [if_pos hc2]
      have hq1 : 1 ≤ v / bh.page_size := (Nat.one_le_div_iff hPpos).mpr hvP
      set q1 := v / bh.page_size - 1 with hq1d
      have hq1dm := Nat.div_add_mod q1 (bh.page_size / 2)
      set w := q1 / (bh.page_size / 2) with hwd
      set s := q1 % (bh.page_size / 2) with hsd
      have hslt : s < bh.page_size / 2 := Nat.mod_lt _ (by omega)
      set p := w * bh.page_size + bh.page_size / 2 + s with hpd
      have hpmod : p % bh.page_size = bh.page_size / 2 + s := by
        rw [hpd, show w * bh.page_size + bh.page_size / 2 + s
            = bh.page_size * w + (bh.page_size / 2 + s) by ring,
          Nat.mul_add_mod, Nat.mod_eq_of_lt (by omega)]
      have hpdiv : p / bh.page_size = w := by
        rw [hpd, show w * bh.page_size + bh.page_size / 2 + s
            = bh.page_size * w + (bh.page_size / 2 + s) by ring,
          Nat.mul_add_div hPpos, Nat.div_eq_of_lt (by omega), Nat.add_zero]
      have hwq : w * bh.page_size ≤ v / bh.page_size * bh.page_size := by
        apply Nat.mul_le_mul_right
        calc w ≤ q1 := Nat.div_le_self _ _
          _ ≤ v / bh.page_size := by omega
      have hpS : p < UINT_SIZE := by
        rw [hpd]
        omega
      rw [child_eq hpp _ hpS]
      rw [if_neg (by
        rintro ⟨hA1, hA2⟩
        rw [hpmod] at hA2
        omega)]
      rw [if_pos (by rw [hpmod]; omega :
        bh.page_size / 2 ≤ p % bh.page_size)]
      have hpmodH : p % (bh.page_size / 2) = s := by
        have hdvd : (bh.page_size / 2) ∣ bh.page_size := ⟨2, by omega⟩
        rw [← Nat.mod_mod_of_dvd p hdvd, hpmod, Nat.add_mod_left,
          Nat.mod_eq_of_lt hslt]
      have ha2q : p / bh.page_size * (bh.page_size / 2) + p % (bh.page_size / 2) + 1
          = v / bh.page_size := by
        rw [hpdiv, hpmodH]
        have hcomm : w * (bh.page_size / 2) = bh.page_size / 2 * w :=
          Nat.mul_comm _ _
        omega
      rw [ha2q]
      have hclamp : v / bh.page_size * bh.page_size < UINT_SIZE := by
        omega
      rw [if_pos hclamp]
      show v = v / bh.page_size * bh.page_size
        ∨ v = v / bh.page_size * bh.page_size + 1
      omega
    · rw [if_neg hc2]
      have hr23 : 2 ≤ v % bh.page_size := by omega
      have hpge : bh.page_size ≤ v - 2 := by
        have : bh.page_size + 2 ≤ v := by
          have hq1 : 1 ≤ v / bh.page_size := (Nat.one_le_div_iff hPpos).mpr hvP
          have h1 : bh.page_size ≤ v / bh.page_size * bh.page_size := by
            calc bh.page_size = 1 * bh.page_size := by ring
              _ ≤ v / bh.page_size * bh.page_size := Nat.mul_le_mul_right _ hq1
          omega
        omega
      have hpmod : (v - 2) % bh.page_size = v % bh.page_size - 2 := by
        have he : v - 2 = bh.page_size * (v / bh.page_size)
            + (v % bh.page_size - 2) := by omega
        rw [he, Nat.mul_add_mod, Nat.mod_eq_of_lt (by omega)]
      rw [child_eq hpp _ (by omega)]
      rw [if_pos ⟨hpge, by rw [hpmod]; omega⟩]
      left
      show v = v - 2 + 2
      omega

end VBH

/-! Slot access and update lemmas, and preservation of the heap spine by
the trickle operations. -/

namespace VBH

variable {α : Type} {bh : Vbh α}

theorem rowcol_inj {m n : Nat} (h1 : m >>> ROW_SHIFT = n >>> ROW_SHIFT)
    (h2 : m &&& (ROW_WIDTH - 1) = n &&& (ROW_WIDTH - 1)) : m = n := by
  rw [Nat.shiftRight_eq_div_pow, Nat.shiftRight_eq_div_pow] at h1
  rw [show ROW_WIDTH - 1 = 2 ^ 16 - 1 from rfl, Nat.and_pow_two_sub_one_eq_mod,
    Nat.and_pow_two_sub_one_eq_mod] at h2
  have hm := Nat.div_add_mod m (2 ^ 16)
  have hn := Nat.div_add_mod n (2 ^ 16)
  simp only [ROW_SHIFT] at h1
  omega

theorem setSlot_array_isSome (bh : Vbh α) (n : Nat) (x : Option α) (k : Nat) :
    ((setSlot bh n x).array k).isSome = (bh.array k).isSome := by
  simp only [setSlot]
  split
  · cases bh.array k <;> rfl
  · rfl

theorem Aof_setSlot_self (bh : Vbh α) {n : Nat} (x : Option α)
    (h : (bh.array (n >>> ROW_SHIFT)).isSome) :
    Aof (setSlot bh n x) n = x := by
  simp only [Aof, setSlot, if_pos rfl]
  rcases ho : bh.array (n >>> ROW_SHIFT) with _ | r
  · rw [ho] at h
    simp at h
  · simp [Option.map]

theorem Aof_setSlot_other (bh : Vbh α) {m n : Nat} (x : Option α) (h : m ≠ n) :
    Aof (setSlot bh n x) m = Aof bh m := by
  simp only [Aof, setSlot]
  by_cases hk : m >>> ROW_SHIFT = n >>> ROW_SHIFT
  · rw [if_pos hk]
    have hoff : m &&& (ROW_WIDTH - 1) ≠ n &&& (ROW_WIDTH - 1) := fun he =>
      h (rowcol_inj hk he)
    rcases ho : bh.array (m >>> ROW_SHIFT) with _ | r
    · rfl
    · simp only [Option.map]
      rw [if_neg hoff]
  · rw [if_neg hk]

theorem swap_next (bh : Vbh α) (u v : Nat) : (binhead_swap bh u v).next = bh.next := rfl

theorem swap_parent (bh : Vbh α) (u v w : Nat) :
    parent (binhead_swap bh u v) w = parent bh w := rfl

theorem swap_child (bh : Vbh α) (u v w : Nat) :
    child (binhead_swap bh u v) w = child bh w := rfl

theorem swap_cmp (bh : Vbh α) (u v : Nat) : (binhead_swap bh u v).cmp = bh.cmp := rfl

theorem swap_array_isSome (bh : Vbh α) (u v k : Nat) :
    ((binhead_swap bh u v).array k).isSome = (bh.array k).isSome := by
  simp only [binhead_swap, setSlot_array_isSome]

theorem swap_spine (bh : Vbh α) (u v : Nat) : spineEq bh (binhead_swap bh u v) :=
  ⟨rfl, rfl, rfl, rfl, rfl, rfl, rfl, rfl, fun k => swap_array_isSome bh u v k⟩

theorem spineEq_refl (bh : Vbh α) : spineEq bh bh :=
  ⟨rfl, rfl, rfl, rfl, rfl, rfl, rfl, rfl, fun _ => rfl⟩

theorem spineEq_trans {a b c : Vbh α} (h1 : spineEq a b) (h2 : spineEq b c) :
    spineEq a c := by
  obtain ⟨x1, x2, x3, x4, x5, x6, x7, x8, x9⟩ := h1
  obtain ⟨y1, y2, y3, y4, y5, y6, y7, y8, y9⟩ := h2
  exact ⟨y1.trans x1, y2.trans x2, y3.trans x3, y4.trans x4, y5.trans x5,
    y6.trans x6, y7.trans x7, y8.trans x8, fun k => (y9 k).trans (x9 k)⟩

theorem Aof_swap_other (bh : Vbh α) {u v w : Nat} (hu : w ≠ u) (hv : w ≠ v) :
    Aof (binhead_swap bh u v) w = Aof bh w := by
  rw [binhead_swap, Aof_setSlot_other _ _ hv, Aof_setSlot_other _ _ hu]

theorem Aof_swap_right (bh : Vbh α) {u v : Nat}
    (h : (bh.array (v >>> ROW_SHIFT)).isSome) :
    Aof (binhead_swap bh u v) v = Aof bh u := by
  rw [binhead_swap, Aof_setSlot_self]
  rw [setSlot_array_isSome]
  exact h

theorem Aof_swap_left (bh : Vbh α) {u v : Nat} (hne : u ≠ v)
    (h : (bh.array (u >>> ROW_SHIFT)).isSome) :
    Aof (binhead_swap bh u v) u = Aof bh v := by
  rw [binhead_swap, Aof_setSlot_other _ _ hne, Aof_setSlot_self _ _ h]

/-- Rows covering `[0, length)` are present, so slot reads below `length`
go through a live row. -/
theorem WF.row_isSome (hwf : WF bh) {n : Nat} (h : n < bh.length) :
    (bh.array (n >>> ROW_SHIFT)).isSome := by
  obtain ⟨_, _, _, _, _, _, _, hrows, _, hmul⟩ := hwf
  apply hrows
  rw [Nat.shiftRight_eq_div_pow, Nat.shiftRight_eq_div_pow]
  have hdvd : (2 ^ 16 : Nat) ∣ bh.length :=
    Nat.dvd_of_mod_eq_zero (by rw [show (2:Nat) ^ 16 = ROW_WIDTH from rfl]; exact hmul)
  simp only [ROW_SHIFT]
  exact Nat.div_lt_div_of_lt_of_dvd hdvd h

end VBH

namespace VBH

variable {α : Type} {bh : Vbh α}

/-- A live slot read implies the containing row is present. -/
theorem row_isSome_of_Aof {w : Nat} (h : (Aof bh w).isSome = true) :
    (bh.array (w >>> ROW_SHIFT)).isSome = true := by
  rcases ho : bh.array (w >>> ROW_SHIFT) with _ | r
  · simp only [Aof, ho, Option.isSome_none] at h
    exact Bool.noConfusion h
  · rfl

/-- `cmpA` only depends on the two slot values and the comparison
callback. -/
theorem cmpA_congr {bh' : Vbh α} {a b c d : Nat} (hc : bh'.cmp = bh.cmp)
    (h1 : Aof bh' a = Aof bh c) (h2 : Aof bh' b = Aof bh d) :
    cmpA bh' a b = cmpA bh c d := by
  simp only [cmpA, h1, h2, hc]

/-- Asymmetry of the callback contract, lifted to slots. -/
theorem cmpA_asym (hswo : SWO bh.cmp) {u v : Nat} (h : cmpA bh u v = true) :
    cmpA bh v u = false := by
  simp only [cmpA] at h ⊢
  revert h
  rcases Aof bh u with _ | x <;> rcases Aof bh v with _ | y <;> intro h
  · exact rfl
  · exact rfl
  · exact rfl
  · exact hswo.1 x y h

/-- Transitivity of the callback contract, lifted to slots. -/
theorem cmpA_trans (hswo : SWO bh.cmp) {u v w : Nat} (h1 : cmpA bh u v = true)
    (h2 : cmpA bh v w = true) : cmpA bh u w = true := by
  simp only [cmpA] at h1 h2 ⊢
  revert h1 h2
  rcases Aof bh u with _ | x <;> rcases Aof bh v with _ | y <;>
    rcases Aof bh w with _ | z <;> intro h1 h2 <;>
    first
    | exact Bool.noConfusion h1
    | exact Bool.noConfusion h2
    | exact hswo.2.1 x y z h1 h2

/-- Negative transitivity (through a live middle slot), from the
interpolation property of the strict weak ordering. -/
theorem cmpA_interp (hswo : SWO bh.cmp) {w m p : Nat}
    (hm : (Aof bh m).isSome = true)
    (h1 : cmpA bh w m = false) (h2 : cmpA bh m p = false) :
    cmpA bh w p = false := by
  obtain ⟨x, hx⟩ := Option.isSome_iff_exists.mp hm
  simp only [cmpA, hx] at h1 h2 ⊢
  rcases hw' : Aof bh w with _ | zw
  · rfl
  · rw [hw'] at h1
    rcases hp' : Aof bh p with _ | zp
    · rfl
    · rw [hp'] at h2
      have h1' : bh.cmp zw x = false := h1
      have h2' : bh.cmp x zp = false := h2
      show bh.cmp zw zp = false
      rcases hc : bh.cmp zw zp with _ | _
      · rfl
      · rcases hswo.2.2 zw x zp hc with hl | hr
        · rw [h1'] at hl
          exact Bool.noConfusion hl
        · rw [h2'] at hr
          exact Bool.noConfusion hr

/-- Interpolation in positive form, through a live middle slot. -/
theorem cmpA_interp_true (hswo : SWO bh.cmp) {u w p : Nat}
    (hw : (Aof bh w).isSome = true) (h : cmpA bh u p = true) :
    cmpA bh u w = true ∨ cmpA bh w p = true := by
  obtain ⟨x, hx⟩ := Option.isSome_iff_exists.mp hw
  simp only [cmpA, hx] at h ⊢
  rcases hu' : Aof bh u with _ | zu
  · rw [hu'] at h
    exact Bool.noConfusion h
  · rw [hu'] at h
    rcases hp' : Aof bh p with _ | zp
    · rw [hp'] at h
      exact Bool.noConfusion h
    · rw [hp'] at h
      have h' : bh.cmp zu zp = true := h
      rcases hswo.2.2 zu x zp h' with hl | hr
      · exact Or.inl hl
      · exact Or.inr hr

/-- A heap that satisfies the order invariant everywhere satisfies the
sift-down precondition at any slot. -/
theorem heapOK_downOK (hpp : PP bh) (hswo : SWO bh.cmp) (hn : bh.next < UINT_SIZE)
    (hliv : ∀ w, 1 ≤ w → w < bh.next → (Aof bh w).isSome = true)
    (hok : heapOK bh) (u : Nat) : downOK bh u := by
  constructor
  · intro w hw1 hw2 _
    exact hok w hw1 hw2
  · intro hu2 w hw1 hw2 hpw
    have hun : u < bh.next := by
      have := parent_lt hpp (Nat.lt_trans hw2 hn) hw1
      omega
    exact cmpA_interp hswo (hliv u (by omega) hun) (hpw ▸ hok w hw1 hw2)
      (hok u hu2 hun)

end VBH

namespace VBH

variable {α : Type}

/-- Fuel-indexed invariant transfer for `vbh_trickleup`: from the sift-up
precondition at `u`, the loop establishes the full heap order, touching
only slot contents, preserving liveness, and returning an index in
`[ROOT_IDX, u]`. -/
theorem vbh_trickleup_ok_fuel : ∀ (n : Nat) (bh : Vbh α) (u : Nat), u ≤ n →
    PP bh → SWO bh.cmp → bh.next < UINT_SIZE →
    (∀ w, 1 ≤ w → w < bh.next → (Aof bh w).isSome = true) →
    1 ≤ u → u < bh.next → upOK bh u →
    heapOK (vbh_trickleup bh u).1 ∧ spineEq bh (vbh_trickleup bh u).1 ∧
    (∀ w, 1 ≤ w → w < bh.next → (Aof (vbh_trickleup bh u).1 w).isSome = true) ∧
    1 ≤ (vbh_trickleup bh u).2 ∧ (vbh_trickleup bh u).2 ≤ u := by
  intro n
  induction n with
  | zero =>
    intro bh u hle _ _ _ _ hu1 _ _
    exact absurd (Nat.le_trans hu1 hle) (by decide)
  | succ n IH =>
    intro bh u hle hpp hswo hn hliv hu1 hu hup
    by_cases h1 : ROOT_IDX < u
    · have hu32 : u < UINT_SIZE := Nat.lt_trans hu hn
      have hv_lt : parent bh u < u := parent_lt hpp hu32 h1
      have hv1 : 1 ≤ parent bh u := parent_pos hpp hu32 h1
      have hvn : parent bh u < bh.next := Nat.lt_trans hv_lt hu
      by_cases hcmp : cmpA bh u (parent bh u) = true
      · -- swap with the parent and continue from there
        have hstep : vbh_trickleup bh u
            = vbh_trickleup (binhead_swap bh u (parent bh u)) (parent bh u) := by
          rw [vbh_trickleup]
          simp only [dif_pos h1, dif_pos hv_lt, hcmp, if_true]
        rw [hstep]
        have hune : u ≠ parent bh u := (Nat.ne_of_lt hv_lt).symm
        have hrowu : (bh.array (u >>> ROW_SHIFT)).isSome = true :=
          row_isSome_of_Aof (hliv u hu1 hu)
        have hrowv : (bh.array (parent bh u >>> ROW_SHIFT)).isSome = true :=
          row_isSome_of_Aof (hliv (parent bh u) hv1 hvn)
        have hAu : Aof (binhead_swap bh u (parent bh u)) u = Aof bh (parent bh u) :=
          Aof_swap_left bh hune hrowu
        have hAv : Aof (binhead_swap bh u (parent bh u)) (parent bh u) = Aof bh u :=
          Aof_swap_right bh hrowv
        have hAo : ∀ w, w ≠ u → w ≠ parent bh u →
            Aof (binhead_swap bh u (parent bh u)) w = Aof bh w :=
          fun w ha hb => Aof_swap_other bh ha hb
        have hlivn : ∀ w, 1 ≤ w → w < bh.next →
            (Aof (binhead_swap bh u (parent bh u)) w).isSome = true := by
          intro w hw1 hw2
          by_cases hwu : w = u
          · subst hwu
            rw [hAu]
            exact hliv _ hv1 hvn
          · by_cases hwv : w = parent bh u
            · subst hwv
              rw [hAv]
              exact hliv u hu1 hu
            · rw [hAo w hwu hwv]
              exact hliv w hw1 hw2
        have hupn : upOK (binhead_swap bh u (parent bh u)) (parent bh u) := by
          constructor
          · intro w hw1 hw2 hwv
            have hw2' : w < bh.next := hw2
            show cmpA (binhead_swap bh u (parent bh u)) w (parent bh w) = false
            by_cases hwu : w = u
            · rw [hwu]
              have heq : cmpA (binhead_swap bh u (parent bh u)) u (parent bh u)
                  = cmpA bh (parent bh u) u := cmpA_congr rfl hAu hAv
              rw [heq]
              exact cmpA_asym hswo hcmp
            · by_cases hpwu : parent bh w = u
              · rw [hpwu]
                have heq : cmpA (binhead_swap bh u (parent bh u)) w u
                    = cmpA bh w (parent bh u) := cmpA_congr rfl (hAo w hwu hwv) hAu
                rw [heq]
                exact hup.2 h1 w hw1 hw2' hpwu
              · by_cases hpwv : parent bh w = parent bh u
                · rw [hpwv]
                  have heq : cmpA (binhead_swap bh u (parent bh u)) w (parent bh u)
                      = cmpA bh w u := cmpA_congr rfl (hAo w hwu hwv) hAv
                  rw [heq]
                  rcases hx : cmpA bh w u with _ | _
                  · rfl
                  · have ht := cmpA_trans hswo hx hcmp
                    have hfalse := hup.1 w hw1 hw2' hwu
                    rw [hpwv] at hfalse
                    rw [ht] at hfalse
                    exact Bool.noConfusion hfalse
                · have heq : cmpA (binhead_swap bh u (parent bh u)) w (parent bh w)
                      = cmpA bh w (parent bh w) :=
                    cmpA_congr rfl (hAo w hwu hwv) (hAo _ hpwu hpwv)
                  rw [heq]
                  exact hup.1 w hw1 hw2' hwu
          · intro hv2 w hw1 hw2 hpw
            have hw2' : w < bh.next := hw2
            have hpw' : parent bh w = parent bh u := hpw
            have hpv32 : parent bh u < UINT_SIZE := Nat.lt_trans hvn hn
            have hp_lt : parent bh (parent bh u) < parent bh u :=
              parent_lt hpp hpv32 hv2
            have hpnu : parent bh (parent bh u) ≠ u :=
              Nat.ne_of_lt (Nat.lt_trans hp_lt hv_lt)
            have hpnv : parent bh (parent bh u) ≠ parent bh u := Nat.ne_of_lt hp_lt
            have hApp : Aof (binhead_swap bh u (parent bh u)) (parent bh (parent bh u))
                = Aof bh (parent bh (parent bh u)) := hAo _ hpnu hpnv
            show cmpA (binhead_swap bh u (parent bh u)) w (parent bh (parent bh u)) = false
            by_cases hwu : w = u
            · rw [hwu]
              have heq : cmpA (binhead_swap bh u (parent bh u)) u (parent bh (parent bh u))
                  = cmpA bh (parent bh u) (parent bh (parent bh u)) :=
                cmpA_congr rfl hAu hApp
              rw [heq]
              exact hup.1 (parent bh u) hv2 hvn (Nat.ne_of_lt hv_lt)
            · have hwv : w ≠ parent bh u := by
                intro he
                rw [he] at hpw'
                exact absurd hpw' (Nat.ne_of_lt hp_lt)
              have heq : cmpA (binhead_swap bh u (parent bh u)) w (parent bh (parent bh u))
                  = cmpA bh w (parent bh (parent bh u)) :=
                cmpA_congr rfl (hAo w hwu hwv) hApp
              rw [heq]
              apply cmpA_interp hswo (hliv (parent bh u) hv1 hvn)
              · have := hup.1 w hw1 hw2' hwu
                rw [hpw'] at this
                exact this
              · exact hup.1 (parent bh u) hv2 hvn (Nat.ne_of_lt hv_lt)
        obtain ⟨ih1, ih2, ih3, ih4, ih5⟩ :=
          IH (binhead_swap bh u (parent bh u)) (parent bh u) (by omega)
            hpp hswo hn hlivn hv1 hvn hupn
        exact ⟨ih1, spineEq_trans (swap_spine bh u (parent bh u)) ih2, ih3, ih4,
          Nat.le_trans ih5 (Nat.le_of_lt hv_lt)⟩
      · -- the slot no longer beats its parent: stop here
        have hc' : cmpA bh u (parent bh u) = false := by
          rcases hx : cmpA bh u (parent bh u) with _ | _
          · rfl
          · exact absurd hx hcmp
        have hstep : vbh_trickleup bh u = (bh, u) := by
          rw [vbh_trickleup]
          simp only [dif_pos h1, dif_pos hv_lt, hc', Bool.false_eq_true, if_false]
        rw [hstep]
        refine ⟨?_, spineEq_refl bh, hliv, hu1, Nat.le_refl u⟩
        intro w hw1 hw2
        by_cases hwu : w = u
        · subst hwu
          exact hc'
        · exact hup.1 w hw1 hw2 hwu
    · -- at the root
      have hstep : vbh_trickleup bh u = (bh, u) := by
        rw [vbh_trickleup]
        rw [dif_neg h1]
      rw [hstep]
      refine ⟨?_, spineEq_refl bh, hliv, hu1, Nat.le_refl u⟩
      intro w hw1 hw2
      have hwu : w ≠ u := by
        simp only [ROOT_IDX] at h1
        omega
      exact hup.1 w hw1 hw2 hwu

end VBH

namespace VBH

variable {α : Type} {bh : Vbh α}

/-- Swapping two live slots keeps all slots in `[ROOT_IDX, next)` live. -/
theorem swap_liveness
    (hliv : ∀ z, 1 ≤ z → z < bh.next → (Aof bh z).isSome = true)
    {u w : Nat} (hune : u ≠ w) (hu1 : 1 ≤ u) (hu : u < bh.next)
    (hw1 : 1 ≤ w) (hwn : w < bh.next) :
    ∀ z, 1 ≤ z → z < bh.next → (Aof (binhead_swap bh u w) z).isSome = true := by
  intro z hz1 hz2
  by_cases hzu : z = u
  · rw [hzu, Aof_swap_left bh hune (row_isSome_of_Aof (hliv u hu1 hu))]
    exact hliv w hw1 hwn
  · by_cases hzw : z = w
    · rw [hzw, Aof_swap_right bh (row_isSome_of_Aof (hliv w hw1 hwn))]
      exact hliv u hu1 hu
    · rw [Aof_swap_other bh hzu hzw]
      exact hliv z hz1 hz2

/-- If the slot at `u` beats its best child `w`, the sift-down
precondition collapses to the full heap order. -/
theorem stop_heapOK (hswo : SWO bh.cmp)
    (hliv : ∀ z, 1 ≤ z → z < bh.next → (Aof bh z).isSome = true)
    {u w : Nat} (hu1 : 1 ≤ u) (hw : u < w) (hwn : w < bh.next)
    (hbest : cmpA bh u w = true)
    (hsib : ∀ z, 1 < z → z < bh.next → z ≠ w → parent bh z = u →
      cmpA bh z w = false)
    (hdown : downOK bh u) : heapOK bh := by
  intro z hz1 hz2
  by_cases hpz : parent bh z = u
  · rw [hpz]
    by_cases hzw : z = w
    · rw [hzw]
      exact cmpA_asym hswo hbest
    · exact cmpA_interp hswo (hliv w (by omega) hwn)
        (hsib z hz1 hz2 hzw hpz) (cmpA_asym hswo hbest)
  · exact hdown.1 z hz1 hz2 hpz

/-- With no child below `next`, the sift-down precondition collapses to
the full heap order. -/
theorem nochild_heapOK (hpp : PP bh) (hn : bh.next < UINT_SIZE) {u : Nat}
    (hu1 : 1 ≤ u) (huM : u < UINT_MAX)
    (hnc : bh.next ≤ (child bh u).1) (hdown : downOK bh u) : heapOK bh := by
  intro z hz1 hz2
  by_cases hpz : parent bh z = u
  · exfalso
    have hzc := parent_child hpp (Nat.lt_trans hz2 hn) hz1
    rw [hpz] at hzc
    have hcg := child_gt hpp huM hu1
    rcases hzc with h | h <;> omega
  · exact hdown.1 z hz1 hz2 hpz

/-- One sift-down swap step transfers the precondition from `u` to the
best child `w`. -/
theorem downOK_swap (hpp : PP bh) (hswo : SWO bh.cmp) (hn : bh.next < UINT_SIZE)
    (hliv : ∀ z, 1 ≤ z → z < bh.next → (Aof bh z).isSome = true)
    {u w : Nat} (hu1 : 1 ≤ u) (hw : u < w) (hwn : w < bh.next)
    (hpw : parent bh w = u)
    (hstop : cmpA bh u w = false)
    (hsib : ∀ z, 1 < z → z < bh.next → z ≠ w → parent bh z = u →
      cmpA bh z w = false)
    (hdown : downOK bh u) :
    downOK (binhead_swap bh u w) w := by
  have hu' : u < bh.next := Nat.lt_trans hw hwn
  have hune : u ≠ w := Nat.ne_of_lt hw
  have hw1 : 1 ≤ w := by omega
  have hrowu := row_isSome_of_Aof (hliv u hu1 hu')
  have hroww := row_isSome_of_Aof (hliv w hw1 hwn)
  have hAu : Aof (binhead_swap bh u w) u = Aof bh w := Aof_swap_left bh hune hrowu
  have hAw : Aof (binhead_swap bh u w) w = Aof bh u := Aof_swap_right bh hroww
  have hAo : ∀ z, z ≠ u → z ≠ w → Aof (binhead_swap bh u w) z = Aof bh z :=
    fun z h1 h2 => Aof_swap_other bh h1 h2
  constructor
  · intro z hz1 hz2 hpz
    have hz2' : z < bh.next := hz2
    have hpz' : parent bh z ≠ w := hpz
    show cmpA (binhead_swap bh u w) z (parent bh z) = false
    by_cases hzw : z = w
    · rw [hzw, hpw]
      have heq : cmpA (binhead_swap bh u w) w u = cmpA bh u w :=
        cmpA_congr rfl hAw hAu
      rw [heq]
      exact hstop
    · by_cases hzu : z = u
      · rw [hzu]
        have hz1' : 1 < u := by rw [hzu] at hz1; exact hz1
        have hplt : parent bh u < u := parent_lt hpp (Nat.lt_trans hu' hn) hz1'
        have hApu : Aof (binhead_swap bh u w) (parent bh u) = Aof bh (parent bh u) :=
          hAo _ (Nat.ne_of_lt hplt) (Nat.ne_of_lt (Nat.lt_trans hplt hw))
        have heq : cmpA (binhead_swap bh u w) u (parent bh u)
            = cmpA bh w (parent bh u) := cmpA_congr rfl hAu hApu
        rw [heq]
        exact hdown.2 hz1' w (by omega) hwn hpw
      · by_cases hpzu : parent bh z = u
        · rw [hpzu]
          have heq : cmpA (binhead_swap bh u w) z u = cmpA bh z w :=
            cmpA_congr rfl (hAo z hzu hzw) hAu
          rw [heq]
          exact hsib z hz1 hz2' hzw hpzu
        · have heq : cmpA (binhead_swap bh u w) z (parent bh z)
              = cmpA bh z (parent bh z) :=
            cmpA_congr rfl (hAo z hzu hzw) (hAo _ hpzu hpz')
          rw [heq]
          exact hdown.1 z hz1 hz2' hpzu
  · intro hw2 z hz1 hz2 hpz
    have hz2' : z < bh.next := hz2
    have hpz' : parent bh z = w := hpz
    show cmpA (binhead_swap bh u w) z (parent bh w) = false
    rw [hpw]
    have hzgt : w < z := by
      have := parent_lt hpp (Nat.lt_trans hz2' hn) hz1
      rw [hpz'] at this
      exact this
    have hzu : z ≠ u := by omega
    have hzw : z ≠ w := by omega
    have heq : cmpA (binhead_swap bh u w) z u = cmpA bh z w :=
      cmpA_congr rfl (hAo z hzu hzw) hAu
    rw [heq]
    have hold := hdown.1 z hz1 hz2' (by rw [hpz']; omega)
    rw [hpz'] at hold
    exact hold

end VBH

namespace VBH

variable {α : Type}

/-- Fuel-indexed invariant transfer for `vbh_trickledown`: from the
sift-down precondition at `u`, the loop establishes the full heap order,
touching only slot contents and preserving liveness. -/
theorem vbh_trickledown_ok_fuel : ∀ (n : Nat) (bh : Vbh α) (u : Nat),
    bh.next - u ≤ n →
    PP bh → SWO bh.cmp → bh.next < UINT_SIZE →
    (∀ w, 1 ≤ w → w < bh.next → (Aof bh w).isSome = true) →
    1 ≤ u → u < bh.next → downOK bh u →
    heapOK (vbh_trickledown bh u).1 ∧ spineEq bh (vbh_trickledown bh u).1 ∧
    (∀ w, 1 ≤ w → w < bh.next → (Aof (vbh_trickledown bh u).1 w).isSome = true) := by
  intro n
  induction n with
  | zero =>
    intro bh u hle _ _ _ _ _ hu _
    omega
  | succ n IH =>
    intro bh u hle hpp hswo hn hliv hu1 hu hdown
    have hmx : UINT_MAX + 1 = UINT_SIZE := by decide
    have huM : u < UINT_MAX := by omega
    have hcg := child_gt hpp huM hu1
    by_cases hc : (child bh u).1 < bh.next
    · have hc1ne : (child bh u).1 ≠ UINT_MAX := by omega
      have hcp := child_parent hpp huM hu1 hc1ne
      by_cases hsel : ((child bh u).1 ≠ (child bh u).2 ∧ (child bh u).2 < bh.next ∧
          cmpA bh (child bh u).2 (child bh u).1 = true)
      · -- the second child is strictly better: it is the swap candidate
        have hw_gt : u < (child bh u).2 := Nat.lt_of_lt_of_le hcg.1 hcg.2.1
        have hwn : (child bh u).2 < bh.next := hsel.2.1
        have hsib : ∀ z, 1 < z → z < bh.next → z ≠ (child bh u).2 →
            parent bh z = u → cmpA bh z (child bh u).2 = false := by
          intro z hz1 hz2 hzw hpz
          have hzc := parent_child hpp (Nat.lt_trans hz2 hn) hz1
          rw [hpz] at hzc
          rcases hzc with h | h
          · rw [h]
            exact cmpA_asym hswo hsel.2.2
          · exact absurd h hzw
        by_cases hbest : cmpA bh u (child bh u).2 = true
        · have hstep : vbh_trickledown bh u = (bh, u) := by
            rw [vbh_trickledown]
            simp only [dif_pos hc, if_pos hsel, hbest, if_true]
          rw [hstep]
          exact ⟨stop_heapOK hswo hliv hu1 hw_gt hwn hbest hsib hdown,
            spineEq_refl bh, hliv⟩
        · have hstop : cmpA bh u (child bh u).2 = false := by
            rcases hx : cmpA bh u (child bh u).2 with _ | _
            · rfl
            · exact absurd hx hbest
          have hstep : vbh_trickledown bh u
              = vbh_trickledown (binhead_swap bh u (child bh u).2) (child bh u).2 := by
            rw [vbh_trickledown]
            simp only [dif_pos hc, if_pos hsel, hstop, Bool.false_eq_true, if_false]
            exact dif_pos ⟨hw_gt, hwn⟩
          rw [hstep]
          have hdn := downOK_swap hpp hswo hn hliv hu1 hw_gt hwn hcp.2 hstop hsib hdown
          have hlivn := swap_liveness hliv (Nat.ne_of_lt hw_gt) hu1 hu
            (by omega) hwn
          obtain ⟨ih1, ih2, ih3⟩ :=
            IH (binhead_swap bh u (child bh u).2) (child bh u).2 (by
              show bh.next - (child bh u).2 ≤ n
              omega)
              hpp hswo hn hlivn (by omega) hwn hdn
          exact ⟨ih1, spineEq_trans (swap_spine bh u (child bh u).2) ih2, ih3⟩
      · -- the first child is the swap candidate
        have hw_gt : u < (child bh u).1 := hcg.1
        have hsib : ∀ z, 1 < z → z < bh.next → z ≠ (child bh u).1 →
            parent bh z = u → cmpA bh z (child bh u).1 = false := by
          intro z hz1 hz2 hzw hpz
          have hzc := parent_child hpp (Nat.lt_trans hz2 hn) hz1
          rw [hpz] at hzc
          rcases hzc with h | h
          · exact absurd h hzw
          · -- z is the second child, distinct from the first and in range
            have hne : (child bh u).1 ≠ (child bh u).2 := by omega
            have h2n : (child bh u).2 < bh.next := by omega
            have hfalse : cmpA bh (child bh u).2 (child bh u).1 = false := by
              rcases hx : cmpA bh (child bh u).2 (child bh u).1 with _ | _
              · rfl
              · exact absurd ⟨hne, h2n, hx⟩ hsel
            rw [h]
            exact hfalse
        by_cases hbest : cmpA bh u (child bh u).1 = true
        · have hstep : vbh_trickledown bh u = (bh, u) := by
            rw [vbh_trickledown]
            simp only [dif_pos hc, if_neg hsel, hbest, if_true]
          rw [hstep]
          exact ⟨stop_heapOK hswo hliv hu1 hw_gt hc hbest hsib hdown,
            spineEq_refl bh, hliv⟩
        · have hstop : cmpA bh u (child bh u).1 = false := by
            rcases hx : cmpA bh u (child bh u).1 with _ | _
            · rfl
            · exact absurd hx hbest
          have hstep : vbh_trickledown bh u
              = vbh_trickledown (binhead_swap bh u (child bh u).1) (child bh u).1 := by
            rw [vbh_trickledown]
            simp only [dif_pos hc, if_neg hsel, hstop, Bool.false_eq_true, if_false]
            exact dif_pos ⟨hw_gt, hc⟩
          rw [hstep]
          have hdn := downOK_swap hpp hswo hn hliv hu1 hw_gt hc hcp.1 hstop hsib hdown
          have hlivn := swap_liveness hliv (Nat.ne_of_lt hw_gt) hu1 hu
            (by omega) hc
          obtain ⟨ih1, ih2, ih3⟩ :=
            IH (binhead_swap bh u (child bh u).1) (child bh u).1 (by
              show bh.next - (child bh u).1 ≤ n
              omega)
              hpp hswo hn hlivn (by omega) hc hdn
          exact ⟨ih1, spineEq_trans (swap_spine bh u (child bh u).1) ih2, ih3⟩
    · -- no child below `next`
      have hstep : vbh_trickledown bh u = (bh, u) := by
        rw [vbh_trickledown]
        rw [dif_neg hc]
      rw [hstep]
      refine ⟨?_, spineEq_refl bh, hliv⟩
      show heapOK bh
      exact nochild_heapOK hpp hn hu1 huM (by omega) hdown

end VBH

namespace VBH

variable {α : Type} {bh bh' : Vbh α}

/-- The page parameters transfer across spine equality. -/
theorem spineEq_PP (hsp : spineEq bh bh') (hpp : PP bh) : PP bh' := by
  obtain ⟨_, _, _, _, _, e6, e7, e8, _⟩ := hsp
  refine ⟨?_, ?_, ?_, ?_⟩
  · rw [e6, e8]
    exact hpp.1
  · rw [e7, e6]
    exact hpp.2.1
  · rw [e8]
    exact hpp.2.2.1
  · rw [e8]
    exact hpp.2.2.2

/-- Well-formedness transfers across spine equality given liveness of the
occupied slots. -/
theorem spineEq_WF (hwf : WF bh) (hsp : spineEq bh bh')
    (hliv : ∀ w, 1 ≤ w → w < bh.next → (Aof bh' w).isSome = true) : WF bh' := by
  obtain ⟨_, _, _, e4, e5, e6, e7, e8, e9⟩ := hsp
  obtain ⟨w1, w2, w3, w4, w5, w6, w7, w8, _, w10⟩ := hwf
  refine ⟨?_, ?_, ?_, ?_, ?_, ?_, ?_, ?_, ?_, ?_⟩
  · rw [e6, e8]
    exact w1
  · rw [e7, e6]
    exact w2
  · rw [e8]
    exact w3
  · rw [e8]
    exact w4
  · rw [e5]
    exact w5
  · rw [e5, e4]
    exact w6
  · rw [e4]
    exact w7
  · intro k hk
    rw [e9 k]
    exact w8 k (by rw [e4] at hk; exact hk)
  · intro z hz1 hz2
    exact hliv z hz1 (by rw [e5] at hz2; exact hz2)
  · rw [e4]
    exact w10

/-- The page-parameter facts contained in well-formedness. -/
theorem WF.pp (h : WF bh) : PP bh :=
  ⟨h.1, h.2.1, h.2.2.1, h.2.2.2.1⟩

/-- Occupied-slot liveness contained in well-formedness. -/
theorem WF.live (h : WF bh) :
    ∀ w, 1 ≤ w → w < bh.next → (Aof bh w).isSome = true :=
  h.2.2.2.2.2.2.2.2.1

/-- `next` stays within the 32-bit range on a well-formed heap. -/
theorem WF.next_lt (h : WF bh) : bh.next < UINT_SIZE :=
  Nat.lt_of_le_of_lt h.2.2.2.2.2.1 h.2.2.2.2.2.2.1

end VBH

namespace VBH

variable {α : Type} {bh : Vbh α}

/-- The sift-up-then-sift-down fixup performed by `VBH_reorder` (and by
the interior of `VBH_delete`) restores the full heap order from the
single-touched-slot precondition. -/
theorem fixup_ok (hpp : PP bh) (hswo : SWO bh.cmp) (hn : bh.next < UINT_SIZE)
    (hliv : ∀ w, 1 ≤ w → w < bh.next → (Aof bh w).isSome = true)
    {u : Nat} (hu1 : 1 ≤ u) (hu : u < bh.next) (ht : touchOK bh u) :
    heapOK (VBH_reorder bh u) ∧ spineEq bh (VBH_reorder bh u) ∧
    (∀ w, 1 ≤ w → w < bh.next → (Aof (VBH_reorder bh u) w).isSome = true) := by
  simp only [VBH_reorder]
  by_cases hcase : 1 < u ∧ cmpA bh u (parent bh u) = true
  · obtain ⟨hu2, hedge⟩ := hcase
    have hup : upOK bh u := by
      constructor
      · intro w hw1 hw2 hwu
        by_cases hpw : parent bh w = u
        · rw [hpw]
          rcases cmpA_interp_true hswo (hliv w (by omega) hw2) hedge with hl | hr
          · exact cmpA_asym hswo hl
          · have hfalse := ht.2 hu2 w hw1 hw2 hpw
            rw [hr] at hfalse
            exact Bool.noConfusion hfalse
        · exact ht.1 w hw1 hw2 hwu hpw
      · exact ht.2
    obtain ⟨h1, h2, h3, h4, h5⟩ :=
      vbh_trickleup_ok_fuel u bh u (Nat.le_refl u) hpp hswo hn hliv hu1 hu hup
    have hnext_eq : (vbh_trickleup bh u).1.next = bh.next := h2.2.2.2.2.1
    have hppn : PP (vbh_trickleup bh u).1 := spineEq_PP h2 hpp
    have hswon : SWO (vbh_trickleup bh u).1.cmp := by
      rw [h2.1]
      exact hswo
    have hnn : (vbh_trickleup bh u).1.next < UINT_SIZE := by
      rw [hnext_eq]
      exact hn
    have hlivn : ∀ w, 1 ≤ w → w < (vbh_trickleup bh u).1.next →
        (Aof (vbh_trickleup bh u).1 w).isSome = true := by
      intro w hw1 hw2
      exact h3 w hw1 (by rw [hnext_eq] at hw2; exact hw2)
    have hdwn : downOK (vbh_trickleup bh u).1 (vbh_trickleup bh u).2 :=
      heapOK_downOK hppn hswon hnn hlivn h1 _
    obtain ⟨d1, d2, d3⟩ :=
      vbh_trickledown_ok_fuel (vbh_trickleup bh u).1.next
        (vbh_trickleup bh u).1 (vbh_trickleup bh u).2 (Nat.sub_le _ _)
        hppn hswon hnn hlivn h4 (by rw [hnext_eq]; omega) hdwn
    refine ⟨d1, spineEq_trans h2 d2, ?_⟩
    intro w hw1 hw2
    exact d3 w hw1 (by rw [hnext_eq]; exact hw2)
  · have hid : vbh_trickleup bh u = (bh, u) := by
      by_cases hu2 : ROOT_IDX < u
      · have hedge : cmpA bh u (parent bh u) = false := by
          rcases hx : cmpA bh u (parent bh u) with _ | _
          · rfl
          · exact absurd ⟨hu2, hx⟩ hcase
        have hvlt : parent bh u < u := parent_lt hpp (Nat.lt_trans hu hn) hu2
        rw [vbh_trickleup]
        simp only [dif_pos hu2, dif_pos hvlt, hedge, Bool.false_eq_true, if_false]
      · rw [vbh_trickleup]
        rw [dif_neg hu2]
    rw [hid]
    show heapOK (vbh_trickledown bh u).1 ∧ spineEq bh (vbh_trickledown bh u).1 ∧
      (∀ w, 1 ≤ w → w < bh.next → (Aof (vbh_trickledown bh u).1 w).isSome = true)
    have hdwn : downOK bh u := by
      constructor
      · intro w hw1 hw2 hpw
        by_cases hwu : w = u
        · rw [hwu]
          have hu2 : 1 < u := by rw [hwu] at hw1; exact hw1
          rcases hx : cmpA bh u (parent bh u) with _ | _
          · rfl
          · exact absurd ⟨hu2, hx⟩ hcase
        · exact ht.1 w hw1 hw2 hwu hpw
      · exact ht.2
    exact vbh_trickledown_ok_fuel bh.next bh u (Nat.sub_le _ _) hpp hswo hn hliv
      hu1 hu hdwn

end VBH

namespace VBH

variable {α : Type} {bh bh' : Vbh α}

/-- `parent` only depends on the page parameters. -/
theorem parent_congr (h1 : bh'.page_size = bh.page_size)
    (h2 : bh'.page_mask = bh.page_mask) (h3 : bh'.page_shift = bh.page_shift)
    (w : Nat) : parent bh' w = parent bh w := by
  simp only [parent, h1, h2, h3]

/-- `child` only depends on the page parameters. -/
theorem child_congr (h1 : bh'.page_size = bh.page_size)
    (h2 : bh'.page_mask = bh.page_mask) (h3 : bh'.page_shift = bh.page_shift)
    (w : Nat) : child bh' w = child bh w := by
  simp only [child, h1, h2, h3]

/-- Row index monotonicity for a whole number of rows. -/
theorem row_lt_of_lt {n L : Nat} (h : n < L) (hm : L % ROW_WIDTH = 0) :
    n >>> ROW_SHIFT < L >>> ROW_SHIFT := by
  rw [Nat.shiftRight_eq_div_pow, Nat.shiftRight_eq_div_pow]
  have hdvd : (2 ^ 16 : Nat) ∣ L :=
    Nat.dvd_of_mod_eq_zero (by rw [show (2:Nat) ^ 16 = ROW_WIDTH from rfl]; exact hm)
  simp only [ROW_SHIFT]
  exact Nat.div_lt_div_of_lt_of_dvd hdvd h

/-- The scalar fields `vbh_addrow` leaves alone, and the row it grows. -/
theorem addrow_next : (vbh_addrow bh).next = bh.next := by
  simp only [vbh_addrow]
  split <;> rfl

theorem addrow_length : (vbh_addrow bh).length = bh.length + ROW_WIDTH := by
  simp only [vbh_addrow]
  split <;> rfl

theorem addrow_page_size : (vbh_addrow bh).page_size = bh.page_size := by
  simp only [vbh_addrow]
  split <;> rfl

theorem addrow_page_mask : (vbh_addrow bh).page_mask = bh.page_mask := by
  simp only [vbh_addrow]
  split <;> rfl

theorem addrow_page_shift : (vbh_addrow bh).page_shift = bh.page_shift := by
  simp only [vbh_addrow]
  split <;> rfl

theorem addrow_cmp : (vbh_addrow bh).cmp = bh.cmp := by
  simp only [vbh_addrow]
  split <;> rfl

theorem addrow_hasUpdate : (vbh_addrow bh).hasUpdate = bh.hasUpdate := by
  simp only [vbh_addrow]
  split <;> rfl

theorem addrow_array (k : Nat) :
    (vbh_addrow bh).array k
      = if k = bh.length >>> ROW_SHIFT then some (fun _ => none) else bh.array k := by
  simp only [vbh_addrow]
  split <;> rfl

/-- Reads below the fresh row are unchanged by `vbh_addrow`. -/
theorem Aof_addrow {n : Nat} (h : n >>> ROW_SHIFT ≠ bh.length >>> ROW_SHIFT) :
    Aof (vbh_addrow bh) n = Aof bh n := by
  simp only [Aof, addrow_array, if_neg h]

end VBH

namespace VBH

variable {α : Type} {bh : Vbh α}

/-- Core of `VBH_insert` after the optional row growth: writing the new
element into slot `next`, bumping `next`, and sifting it up preserves
well-formedness and the heap order. -/
theorem insert_core (bh1 : Vbh α) (p : α)
    (hpp : PP bh1) (hswo : SWO bh1.cmp)
    (hn1 : 1 ≤ bh1.next) (hnl : bh1.next + 1 ≤ bh1.length)
    (hlen : bh1.length < UINT_SIZE) (hmod : bh1.length % ROW_WIDTH = 0)
    (hrows : ∀ k, k < bh1.length >>> ROW_SHIFT → (bh1.array k).isSome = true)
    (hliv : ∀ w, 1 ≤ w → w < bh1.next → (Aof bh1 w).isSome = true)
    (hok : heapOK bh1) :
    WF (vbh_trickleup { setSlot bh1 bh1.next (some p) with next := bh1.next + 1 } bh1.next).1 ∧
    heapOK (vbh_trickleup { setSlot bh1 bh1.next (some p) with next := bh1.next + 1 } bh1.next).1 ∧
    (vbh_trickleup { setSlot bh1 bh1.next (some p) with next := bh1.next + 1 } bh1.next).1.next = bh1.next + 1 ∧
    (vbh_trickleup { setSlot bh1 bh1.next (some p) with next := bh1.next + 1 } bh1.next).1.cmp = bh1.cmp := by
  have hrowu : (bh1.array (bh1.next >>> ROW_SHIFT)).isSome = true :=
    hrows _ (row_lt_of_lt (by omega) hmod)
  set B := { setSlot bh1 bh1.next (some p) with next := bh1.next + 1 } with hB
  have hBnext : B.next = bh1.next + 1 := by rw [hB]
  have hBlength : B.length = bh1.length := by rw [hB]; rfl
  have hBcmp : B.cmp = bh1.cmp := by rw [hB]; rfl
  have hBsize : B.page_size = bh1.page_size := by rw [hB]; rfl
  have hBmask : B.page_mask = bh1.page_mask := by rw [hB]; rfl
  have hBshift : B.page_shift = bh1.page_shift := by rw [hB]; rfl
  have hAB_u : Aof B bh1.next = some p := by
    rw [hB]
    show Aof (setSlot bh1 bh1.next (some p)) bh1.next = some p
    exact Aof_setSlot_self bh1 _ hrowu
  have hAB_o : ∀ w, w ≠ bh1.next → Aof B w = Aof bh1 w := by
    intro w hw
    rw [hB]
    show Aof (setSlot bh1 bh1.next (some p)) w = Aof bh1 w
    exact Aof_setSlot_other bh1 _ hw
  have hparB : ∀ w, parent B w = parent bh1 w :=
    parent_congr hBsize hBmask hBshift
  have hppB : PP B := by
    refine ⟨?_, ?_, ?_, ?_⟩
    · rw [hBsize, hBshift]
      exact hpp.1
    · rw [hBmask, hBsize]
      exact hpp.2.1
    · rw [hBshift]
      exact hpp.2.2.1
    · rw [hBshift]
      exact hpp.2.2.2
  have hlivB : ∀ w, 1 ≤ w → w < B.next → (Aof B w).isSome = true := by
    intro w hw1 hw2
    rw [hBnext] at hw2
    by_cases hwu : w = bh1.next
    · rw [hwu, hAB_u]
      rfl
    · rw [hAB_o w hwu]
      exact hliv w hw1 (by omega)
  have hnB : B.next < UINT_SIZE := by
    rw [hBnext]
    omega
  have hupB : upOK B bh1.next := by
    constructor
    · intro w hw1 hw2 hwu
      rw [hBnext] at hw2
      have hwlt : w < bh1.next := by omega
      have hplt : parent bh1 w < w := parent_lt hpp (by omega) hw1
      have heq : cmpA B w (parent B w) = cmpA bh1 w (parent bh1 w) := by
        rw [hparB w]
        exact cmpA_congr hBcmp (hAB_o w hwu) (hAB_o _ (by omega))
      rw [heq]
      exact hok w hw1 hwlt
    · intro _ w hw1 hw2 hpw
      exfalso
      rw [hBnext] at hw2
      rw [hparB w] at hpw
      have hplt : parent bh1 w < w := parent_lt hpp (by omega) hw1
      omega
  obtain ⟨t1, t2, t3, _, _⟩ :=
    vbh_trickleup_ok_fuel bh1.next B bh1.next (Nat.le_refl _) hppB
      (by rw [hBcmp]; exact hswo) hnB hlivB hn1 (by rw [hBnext]; omega) hupB
  have hwfB : WF B := by
    refine ⟨hppB.1, hppB.2.1, hppB.2.2.1, hppB.2.2.2, ?_, ?_, ?_, ?_, hlivB, ?_⟩
    · rw [hBnext]
      show 1 ≤ bh1.next + 1
      omega
    · rw [hBnext, hBlength]
      exact hnl
    · rw [hBlength]
      exact hlen
    · intro k hk
      have harr : (B.array k).isSome = (bh1.array k).isSome := by
        rw [hB]
        show ((setSlot bh1 bh1.next (some p)).array k).isSome = (bh1.array k).isSome
        exact setSlot_array_isSome bh1 _ _ k
      rw [harr]
      rw [hBlength] at hk
      exact hrows k hk
    · rw [hBlength]
      exact hmod
  exact ⟨spineEq_WF hwfB t2 t3, t1, t2.2.2.2.2.1.trans hBnext, t2.1.trans hBcmp⟩

end VBH

namespace VBH

variable {α : Type} {bh : Vbh α}

/-- `VBH_insert` preserves well-formedness and the heap order, and grows
the occupancy by one. -/
theorem VBH_insert_inv (hwf : WF bh) (hok : heapOK bh) (hswo : SWO bh.cmp) (p : α)
    (hlen : bh.length + ROW_WIDTH < UINT_SIZE) :
    WF (VBH_insert bh p) ∧ heapOK (VBH_insert bh p) ∧
    (VBH_insert bh p).next = bh.next + 1 ∧ (VBH_insert bh p).cmp = bh.cmp := by
  have hRW : (0:Nat) < ROW_WIDTH := by decide
  by_cases hgrow : bh.length = bh.next
  · have hstep : VBH_insert bh p
        = (vbh_trickleup { setSlot (vbh_addrow bh) (vbh_addrow bh).next (some p) with
            next := (vbh_addrow bh).next + 1 } (vbh_addrow bh).next).1 := by
      simp only [VBH_insert, if_pos hgrow]
    rw [hstep]
    have hppA : PP (vbh_addrow bh) := by
      refine ⟨?_, ?_, ?_, ?_⟩
      · rw [addrow_page_size, addrow_page_shift]
        exact hwf.1
      · rw [addrow_page_mask, addrow_page_size]
        exact hwf.2.1
      · rw [addrow_page_shift]
        exact hwf.2.2.1
      · rw [addrow_page_shift]
        exact hwf.2.2.2.1
    have hswoA : SWO (vbh_addrow bh).cmp := by
      rw [addrow_cmp]
      exact hswo
    have hnle : bh.next ≤ bh.length := hwf.2.2.2.2.2.1
    have hAof : ∀ w, w < bh.next → Aof (vbh_addrow bh) w = Aof bh w := by
      intro w hw
      exact Aof_addrow (Nat.ne_of_lt (row_lt_of_lt (by omega)
        hwf.2.2.2.2.2.2.2.2.2))
    have hsucc : (bh.length + ROW_WIDTH) >>> ROW_SHIFT
        = bh.length >>> ROW_SHIFT + 1 := by
      rw [Nat.shiftRight_eq_div_pow, Nat.shiftRight_eq_div_pow]
      rw [show ROW_WIDTH = 2 ^ 16 by decide]
      simp only [ROW_SHIFT]
      exact Nat.add_div_right _ (by norm_num)
    obtain ⟨c1, c2, c3, c4⟩ := insert_core (vbh_addrow bh) p hppA hswoA
      (by rw [addrow_next]; exact hwf.2.2.2.2.1)
      (by rw [addrow_next, addrow_length]; omega)
      (by rw [addrow_length]; exact hlen)
      (by rw [addrow_length, Nat.add_mod_right]; exact hwf.2.2.2.2.2.2.2.2.2)
      (by
        intro k hk
        rw [addrow_array]
        by_cases hkL : k = bh.length >>> ROW_SHIFT
        · rw [if_pos hkL]
          rfl
        · rw [if_neg hkL]
          rw [addrow_length, hsucc] at hk
          exact hwf.2.2.2.2.2.2.2.1 k (by omega))
      (by
        intro w hw1 hw2
        rw [addrow_next] at hw2
        rw [hAof w hw2]
        exact hwf.live w hw1 hw2)
      (by
        intro w hw1 hw2
        rw [addrow_next] at hw2
        have hplt : parent bh w < w := parent_lt hwf.pp
          (Nat.lt_trans hw2 hwf.next_lt) hw1
        have heq : cmpA (vbh_addrow bh) w (parent (vbh_addrow bh) w)
            = cmpA bh w (parent bh w) := by
          rw [parent_congr addrow_page_size addrow_page_mask addrow_page_shift w]
          exact cmpA_congr addrow_cmp (hAof w hw2) (hAof _ (by omega))
        rw [heq]
        exact hok w hw1 hw2)
    exact ⟨c1, c2, by rw [c3, addrow_next], c4.trans addrow_cmp⟩
  · have hstep : VBH_insert bh p
        = (vbh_trickleup { setSlot bh bh.next (some p) with
            next := bh.next + 1 } bh.next).1 := by
      simp only [VBH_insert, if_neg hgrow]
    rw [hstep]
    have hnle : bh.next ≤ bh.length := hwf.2.2.2.2.2.1
    exact insert_core bh p hwf.pp hswo hwf.2.2.2.2.1 (by omega)
      hwf.2.2.2.2.2.2.1 hwf.2.2.2.2.2.2.2.2.2 hwf.2.2.2.2.2.2.2.1 hwf.live hok

end VBH

namespace VBH

variable {α : Type} {bh : Vbh α}

/-- The `VBH_reorder` contract: after the caller replaces the key of the
element at `idx` (modelled by overwriting the slot), re-fixing from `idx`
restores well-formedness and the heap order. -/
theorem VBH_reorder_inv (hwf : WF bh) (hok : heapOK bh) (hswo : SWO bh.cmp)
    {idx : Nat} (p : α) (h1 : 0 < idx) (h2 : idx < bh.next) :
    WF (VBH_reorder (setSlot bh idx (some p)) idx) ∧
    heapOK (VBH_reorder (setSlot bh idx (some p)) idx) ∧
    (VBH_reorder (setSlot bh idx (some p)) idx).next = bh.next ∧
    (VBH_reorder (setSlot bh idx (some p)) idx).cmp = bh.cmp := by
  have hrow : (bh.array (idx >>> ROW_SHIFT)).isSome = true :=
    hwf.row_isSome (Nat.lt_of_lt_of_le h2 hwf.2.2.2.2.2.1)
  have hAsu : Aof (setSlot bh idx (some p)) idx = some p :=
    Aof_setSlot_self bh _ hrow
  have hAso : ∀ w, w ≠ idx → Aof (setSlot bh idx (some p)) w = Aof bh w :=
    fun w hw => Aof_setSlot_other bh _ hw
  have hparS : ∀ w, parent (setSlot bh idx (some p)) w = parent bh w :=
    parent_congr rfl rfl rfl
  have hppS : PP (setSlot bh idx (some p)) := hwf.pp
  have hswoS : SWO (setSlot bh idx (some p)).cmp := hswo
  have hnS : (setSlot bh idx (some p)).next < UINT_SIZE := hwf.next_lt
  have hlivS : ∀ w, 1 ≤ w → w < (setSlot bh idx (some p)).next →
      (Aof (setSlot bh idx (some p)) w).isSome = true := by
    intro w hw1 hw2
    by_cases hwu : w = idx
    · rw [hwu, hAsu]
      rfl
    · rw [hAso w hwu]
      exact hwf.live w hw1 hw2
  have htS : touchOK (setSlot bh idx (some p)) idx := by
    constructor
    · intro w hw1 hw2 hwu hpw
      have hw2' : w < bh.next := hw2
      rw [hparS w] at hpw ⊢
      rw [cmpA_congr (show (setSlot bh idx (some p)).cmp = bh.cmp from rfl)
        (hAso w hwu) (hAso _ hpw)]
      exact hok w hw1 hw2'
    · intro hidx2 w hw1 hw2 hpw
      have hw2' : w < bh.next := hw2
      rw [hparS w] at hpw
      rw [hparS idx]
      have hplt : parent bh w < w := parent_lt hwf.pp
        (Nat.lt_trans hw2' hwf.next_lt) hw1
      have hqlt : parent bh idx < idx := parent_lt hwf.pp
        (Nat.lt_trans h2 hwf.next_lt) hidx2
      have hwid : w ≠ idx := by omega
      have hqid : parent bh idx ≠ idx := by omega
      rw [cmpA_congr (show (setSlot bh idx (some p)).cmp = bh.cmp from rfl)
        (hAso w hwid) (hAso _ hqid)]
      apply cmpA_interp hswo (hwf.live idx (by omega) h2)
      · have := hok w hw1 hw2' 
        rw [hpw] at this
        exact this
      · exact hok idx hidx2 h2
  have hwfS : WF (setSlot bh idx (some p)) := by
    refine ⟨hwf.1, hwf.2.1, hwf.2.2.1, hwf.2.2.2.1, hwf.2.2.2.2.1,
      hwf.2.2.2.2.2.1, hwf.2.2.2.2.2.2.1, ?_, hlivS, hwf.2.2.2.2.2.2.2.2.2⟩
    intro k hk
    rw [setSlot_array_isSome]
    exact hwf.2.2.2.2.2.2.2.1 k hk
  obtain ⟨f1, f2, f3⟩ := fixup_ok hppS hswoS hnS hlivS (by omega) h2 htS
  refine ⟨spineEq_WF hwfS f2 f3, f1, f2.2.2.2.2.1, f2.1⟩

end VBH

namespace VBH

variable {α : Type} {bh : Vbh α}

theorem mod_sub_row {L : Nat} (hm : L % ROW_WIDTH = 0) :
    (L - ROW_WIDTH) % ROW_WIDTH = 0 := by
  rw [show ROW_WIDTH = 65536 by decide] at hm ⊢
  omega

theorem row_sub_one {L : Nat} (hm : L % ROW_WIDTH = 0) (hL : ROW_WIDTH ≤ L) :
    (L - 1) >>> ROW_SHIFT = L >>> ROW_SHIFT - 1 := by
  rw [Nat.shiftRight_eq_div_pow, Nat.shiftRight_eq_div_pow]
  simp only [ROW_SHIFT]
  rw [show (2:Nat) ^ 16 = 65536 by norm_num]
  rw [show ROW_WIDTH = 65536 by decide] at hm hL
  omega

theorem row_sub_row {L : Nat} (hm : L % ROW_WIDTH = 0) :
    (L - ROW_WIDTH) >>> ROW_SHIFT = L >>> ROW_SHIFT - 1 := by
  rw [Nat.shiftRight_eq_div_pow, Nat.shiftRight_eq_div_pow]
  simp only [ROW_SHIFT]
  rw [show (2:Nat) ^ 16 = 65536 by norm_num]
  rw [show ROW_WIDTH = 65536 by decide] at hm ⊢
  omega

end VBH

namespace VBH

variable {α : Type} {bh : Vbh α}

/-- `VBH_delete` (when it returns a state) preserves well-formedness and
the heap order. -/
theorem VBH_delete_inv (hwf : WF bh) (hok : heapOK bh) (hswo : SWO bh.cmp)
    {idx : Nat} {bh2 : Vbh α} (h0 : 1 < bh.next) (h1 : 0 < idx) (h2 : idx < bh.next)
    (hdel : VBH_delete bh idx = some bh2) :
    WF bh2 ∧ heapOK bh2 ∧ bh2.cmp = bh.cmp := by
  have hnle : bh.next ≤ bh.length := hwf.2.2.2.2.2.1
  have hnus : bh.next < UINT_SIZE := hwf.next_lt
  rcases hU : bh.hasUpdate with _ | _
  · simp only [VBH_delete, hU, Bool.false_eq_true, if_false] at hdel
    exact Option.noConfusion hdel
  · simp only [VBH_delete] at hdel
    rw [if_pos hU] at hdel
    replace hdel := Option.some.inj hdel
    subst hdel
    by_cases hlast : idx = bh.next - 1
    · rw [if_pos hlast]
      have hE_o : ∀ w, w ≠ bh.next - 1 →
          Aof ({ setSlot bh (bh.next - 1) none with next := bh.next - 1 } : Vbh α) w
            = Aof bh w := by
        intro w hw
        show Aof (setSlot bh (bh.next - 1) none) w = Aof bh w
        exact Aof_setSlot_other bh _ hw
      refine ⟨⟨hwf.1, hwf.2.1, hwf.2.2.1, hwf.2.2.2.1, ?_, ?_, hwf.2.2.2.2.2.2.1,
        ?_, ?_, hwf.2.2.2.2.2.2.2.2.2⟩, ?_, rfl⟩
      · show 1 ≤ bh.next - 1
        omega
      · show bh.next - 1 ≤ bh.length
        omega
      · intro k hk
        show ((setSlot bh (bh.next - 1) none).array k).isSome = true
        rw [setSlot_array_isSome]
        exact hwf.2.2.2.2.2.2.2.1 k hk
      · intro w hw1 hw2
        have hw2' : w < bh.next - 1 := hw2
        rw [hE_o w (by omega)]
        exact hwf.live w hw1 (by omega)
      · intro w hw1 hw2
        have hw2' : w < bh.next - 1 := hw2
        have hplt : parent bh w < w := parent_lt hwf.pp (by omega) hw1
        show cmpA ({ setSlot bh (bh.next - 1) none with next := bh.next - 1 } : Vbh α)
          w (parent bh w) = false
        rw [cmpA_congr (show ({ setSlot bh (bh.next - 1) none with
            next := bh.next - 1 } : Vbh α).cmp = bh.cmp from rfl)
          (hE_o w (by omega)) (hE_o _ (by omega))]
        exact hok w hw1 (by omega)
    · rw [if_neg hlast]
      have hrow_idx : (bh.array (idx >>> ROW_SHIFT)).isSome = true :=
        hwf.row_isSome (by omega)
      have hidxlt : idx < bh.next - 1 := by omega
      set D := ({ setSlot (setSlot bh idx (Aof bh (bh.next - 1))) (bh.next - 1) none
        with next := bh.next - 1 } : Vbh α) with hD
      have hre : (vbh_trickledown (vbh_trickleup D idx).1 (vbh_trickleup D idx).2).1
          = VBH_reorder D idx := rfl
      rw [hre]
      have hDnext : D.next = bh.next - 1 := by rw [hD]
      have hDlength : D.length = bh.length := by rw [hD]; rfl
      have hDcmp : D.cmp = bh.cmp := by rw [hD]; rfl
      have hDsize : D.page_size = bh.page_size := by rw [hD]; rfl
      have hDmask : D.page_mask = bh.page_mask := by rw [hD]; rfl
      have hDshift : D.page_shift = bh.page_shift := by rw [hD]; rfl
      have hAD_idx : Aof D idx = Aof bh (bh.next - 1) := by
        rw [hD]
        show Aof (setSlot (setSlot bh idx (Aof bh (bh.next - 1))) (bh.next - 1) none)
          idx = Aof bh (bh.next - 1)
        rw [Aof_setSlot_other _ _ hlast]
        exact Aof_setSlot_self bh _ hrow_idx
      have hAD_o : ∀ w, w ≠ idx → w ≠ bh.next - 1 → Aof D w = Aof bh w := by
        intro w hwi hwn
        rw [hD]
        show Aof (setSlot (setSlot bh idx (Aof bh (bh.next - 1))) (bh.next - 1) none)
          w = Aof bh w
        rw [Aof_setSlot_other _ _ hwn, Aof_setSlot_other _ _ hwi]
      have hparD : ∀ w, parent D w = parent bh w :=
        parent_congr hDsize hDmask hDshift
      have hppD : PP D := by
        rw [hD]
        exact hwf.pp
      have hswoD : SWO D.cmp := by
        rw [hDcmp]
        exact hswo
      have hnD : D.next < UINT_SIZE := by
        rw [hDnext]
        omega
      have hlivD : ∀ w, 1 ≤ w → w < D.next → (Aof D w).isSome = true := by
        intro w hw1 hw2
        rw [hDnext] at hw2
        by_cases hwi : w = idx
        · rw [hwi, hAD_idx]
          exact hwf.live (bh.next - 1) (by omega) (by omega)
        · rw [hAD_o w hwi (by omega)]
          exact hwf.live w hw1 (by omega)
      have htD : touchOK D idx := by
        constructor
        · intro w hw1 hw2 hwi hpw
          rw [hDnext] at hw2
          rw [hparD w] at hpw ⊢
          have hplt : parent bh w < w := parent_lt hwf.pp (by omega) hw1
          rw [cmpA_congr hDcmp (hAD_o w hwi (by omega)) (hAD_o _ hpw (by omega))]
          exact hok w hw1 (by omega)
        · intro hidx2 w hw1 hw2 hpw
          rw [hDnext] at hw2
          rw [hparD w] at hpw
          rw [hparD idx]
          have hplt : parent bh w < w := parent_lt hwf.pp (by omega) hw1
          have hqlt : parent bh idx < idx := parent_lt hwf.pp (by omega) hidx2
          have hwid : w ≠ idx := by omega
          rw [cmpA_congr hDcmp (hAD_o w hwid (by omega))
            (hAD_o _ (by omega) (by omega))]
          apply cmpA_interp hswo (hwf.live idx (by omega) h2)
          · have hedge := hok w hw1 (by omega)
            rw [hpw] at hedge
            exact hedge
          · exact hok idx hidx2 h2
      have hwfD : WF D := by
        refine ⟨?_, ?_, ?_, ?_, ?_, ?_, ?_, ?_, hlivD, ?_⟩
        · rw [hDsize, hDshift]
          exact hwf.1
        · rw [hDmask, hDsize]
          exact hwf.2.1
        · rw [hDshift]
          exact hwf.2.2.1
        · rw [hDshift]
          exact hwf.2.2.2.1
        · rw [hDnext]
          show 1 ≤ bh.next - 1
          omega
        · rw [hDnext, hDlength]
          omega
        · rw [hDlength]
          exact hwf.2.2.2.2.2.2.1
        · intro k hk
          rw [hDlength] at hk
          have harr : (D.array k).isSome = (bh.array k).isSome := by
            rw [hD]
            show (((setSlot (setSlot bh idx (Aof bh (bh.next - 1))) (bh.next - 1)
              none)).array k).isSome = (bh.array k).isSome
            rw [setSlot_array_isSome, setSlot_array_isSome]
          rw [harr]
          exact hwf.2.2.2.2.2.2.2.1 k hk
        · rw [hDlength]
          exact hwf.2.2.2.2.2.2.2.2.2
      obtain ⟨f1, f2, f3⟩ := fixup_ok hppD hswoD hnD hlivD (by omega)
        (by rw [hDnext]; omega) htD
      have hwfR : WF (VBH_reorder D idx) := spineEq_WF hwfD f2 f3
      have hRnext : (VBH_reorder D idx).next = D.next := f2.2.2.2.2.1
      have hRlength : (VBH_reorder D idx).length = D.length := f2.2.2.2.1
      have hRcmp : (VBH_reorder D idx).cmp = D.cmp := f2.1
      have hmodR : (VBH_reorder D idx).length % ROW_WIDTH = 0 :=
        hwfR.2.2.2.2.2.2.2.2.2
      by_cases hshr : (VBH_reorder D idx).next + 2 * ROW_WIDTH
          ≤ (VBH_reorder D idx).length
      · rw [if_pos hshr]
        have hRW : (0:Nat) < ROW_WIDTH := by decide
        have hRWle : ROW_WIDTH ≤ (VBH_reorder D idx).length := by omega
        have hAof_Shr : ∀ w, w < (VBH_reorder D idx).next →
            Aof ({ VBH_reorder D idx with
              array := fun k =>
                if k = ((VBH_reorder D idx).length - 1) >>> ROW_SHIFT then none
                else (VBH_reorder D idx).array k,
              length := (VBH_reorder D idx).length - ROW_WIDTH } : Vbh α) w
            = Aof (VBH_reorder D idx) w := by
          intro w hw
          have hwlt : w < (VBH_reorder D idx).length - ROW_WIDTH := by omega
          have hrow_lt : w >>> ROW_SHIFT
              < ((VBH_reorder D idx).length - ROW_WIDTH) >>> ROW_SHIFT :=
            row_lt_of_lt hwlt (mod_sub_row hmodR)
          rw [row_sub_row hmodR] at hrow_lt
          have hne : w >>> ROW_SHIFT ≠ ((VBH_reorder D idx).length - 1) >>> ROW_SHIFT := by
            rw [row_sub_one hmodR hRWle]
            omega
          simp only [Aof]
          rw [if_neg hne]
        have hlivS : ∀ w, 1 ≤ w → w < (VBH_reorder D idx).next →
            (Aof ({ VBH_reorder D idx with
              array := fun k =>
                if k = ((VBH_reorder D idx).length - 1) >>> ROW_SHIFT then none
                else (VBH_reorder D idx).array k,
              length := (VBH_reorder D idx).length - ROW_WIDTH } : Vbh α) w).isSome
              = true := by
          intro w hw1 hw2
          rw [hAof_Shr w hw2]
          exact hwfR.live w hw1 hw2
        refine ⟨⟨hwfR.1, hwfR.2.1, hwfR.2.2.1, hwfR.2.2.2.1, hwfR.2.2.2.2.1,
          ?_, ?_, ?_, hlivS, mod_sub_row hmodR⟩, ?_, hRcmp.trans hDcmp⟩
        · show (VBH_reorder D idx).next ≤ (VBH_reorder D idx).length - ROW_WIDTH
          omega
        · show (VBH_reorder D idx).length - ROW_WIDTH < UINT_SIZE
          have := hwfR.2.2.2.2.2.2.1
          omega
        · intro k hk
          have hk' : k < ((VBH_reorder D idx).length - ROW_WIDTH) >>> ROW_SHIFT := hk
          rw [row_sub_row hmodR] at hk'
          show ((if k = ((VBH_reorder D idx).length - 1) >>> ROW_SHIFT then none
            else (VBH_reorder D idx).array k)).isSome = true
          rw [if_neg (by rw [row_sub_one hmodR hRWle]; omega)]
          exact hwfR.2.2.2.2.2.2.2.1 k (by omega)
        · intro w hw1 hw2
          have hw2' : w < (VBH_reorder D idx).next := hw2
          have hplt : parent (VBH_reorder D idx) w < w :=
            parent_lt hwfR.pp (Nat.lt_trans hw2' hwfR.next_lt) hw1
          show cmpA ({ VBH_reorder D idx with
              array := fun k =>
                if k = ((VBH_reorder D idx).length - 1) >>> ROW_SHIFT then none
                else (VBH_reorder D idx).array k,
              length := (VBH_reorder D idx).length - ROW_WIDTH } : Vbh α) w
            (parent (VBH_reorder D idx) w) = false
          rw [cmpA_congr (show ({ VBH_reorder D idx with
              array := fun k =>
                if k = ((VBH_reorder D idx).length - 1) >>> ROW_SHIFT then none
                else (VBH_reorder D idx).array k,
              length := (VBH_reorder D idx).length - ROW_WIDTH } : Vbh α).cmp
              = (VBH_reorder D idx).cmp from rfl)
            (hAof_Shr w hw2') (hAof_Shr _ (by omega))]
          exact f1 w hw1 hw2'
      · rw [if_neg hshr]
        exact ⟨hwfR, f1, hRcmp.trans hDcmp⟩

end VBH

namespace VBH

variable {α : Type}

/-- A fresh heap is well-formed, empty, and carries its callbacks. -/
theorem VBH_new_inv (cmp : α → α → Bool) (hasU : Bool) {ps : Nat}
    (h2 : 2 ≤ ps) (h19 : ps ≤ 19) :
    WF (VBH_new cmp hasU ps) ∧ heapOK (VBH_new cmp hasU ps) ∧
    (VBH_new cmp hasU ps).cmp = cmp := by
  have hsize : (VBH_new cmp hasU ps).page_size = 2 ^ ps := by
    simp +decide only [VBH_new, vbh_addrow, setSlot, if_false, if_true]
  have hmask : (VBH_new cmp hasU ps).page_mask = 2 ^ ps - 1 := by
    simp +decide only [VBH_new, vbh_addrow, setSlot, if_false, if_true]
  have hshift : (VBH_new cmp hasU ps).page_shift = ps := by
    simp +decide only [VBH_new, vbh_addrow, setSlot, if_false, if_true]
  have hnext : (VBH_new cmp hasU ps).next = 1 := by
    simp +decide only [VBH_new, vbh_addrow, setSlot, ROOT_IDX, if_false, if_true]
  have hlength : (VBH_new cmp hasU ps).length = ROW_WIDTH := by
    simp +decide only [VBH_new, vbh_addrow, setSlot, Nat.zero_add, if_false, if_true]
  have hcmpf : (VBH_new cmp hasU ps).cmp = cmp := by
    simp +decide only [VBH_new, vbh_addrow, setSlot, if_false, if_true]
  have harr0 : ((VBH_new cmp hasU ps).array 0).isSome = true := by
    simp +decide [VBH_new, vbh_addrow, setSlot]
  refine ⟨⟨?_, ?_, ?_, ?_, ?_, ?_, ?_, ?_, ?_, ?_⟩, ?_, hcmpf⟩
  · rw [hsize, hshift]
  · rw [hmask, hsize]
  · rw [hshift]
    exact h2
  · rw [hshift]
    exact h19
  · rw [hnext]
    decide
  · rw [hnext, hlength]
    decide
  · rw [hlength]
    decide
  · intro k hk
    rw [hlength, show ROW_WIDTH >>> ROW_SHIFT = 1 by decide] at hk
    have hk0 : k = 0 := by omega
    rw [hk0]
    exact harr0
  · intro w hw1 hw2
    rw [hnext] at hw2
    omega
  · rw [hlength]
    decide
  · intro u hu1 hu2
    rw [hnext] at hu2
    omega

/-- The combined invariant along any reachable sequence of operations:
well-formedness, the heap order, and the stored comparison callback. -/
theorem Reach_inv {cmp : α → α → Bool} {hasU : Bool} {ps : Nat} {bh : Vbh α}
    (hswo : SWO cmp) (hr : Reach cmp hasU ps bh) :
    WF bh ∧ heapOK bh ∧ bh.cmp = cmp := by
  induction hr with
  | new h2 h19 => exact VBH_new_inv cmp hasU h2 h19
  | insert p hr hlen IH =>
    obtain ⟨hwf, hok, hcmp⟩ := IH
    obtain ⟨c1, c2, _, c4⟩ := VBH_insert_inv hwf hok (by rw [hcmp]; exact hswo)
      p hlen
    exact ⟨c1, c2, c4.trans hcmp⟩
  | delete idx hr h0 h1 h2 hdel IH =>
    obtain ⟨hwf, hok, hcmp⟩ := IH
    obtain ⟨c1, c2, c3⟩ := VBH_delete_inv hwf hok (by rw [hcmp]; exact hswo)
      h0 h1 h2 hdel
    exact ⟨c1, c2, c3.trans hcmp⟩
  | reorder idx p hr h0 h1 h2 IH =>
    obtain ⟨hwf, hok, hcmp⟩ := IH
    obtain ⟨c1, c2, _, c4⟩ := VBH_reorder_inv hwf hok (by rw [hcmp]; exact hswo)
      p h1 h2
    exact ⟨c1, c2, c4.trans hcmp⟩

end VBH

/-- C1: for every heap reached by any sequence of `insert`, `delete` and
`reorder` operations called within their preconditions (under the
documented strict-weak-ordering contract for the comparison callback),
the heap property holds when the operation returns: for every slot index
`u` in `(ROOT_IDX, next)`, `cmp(A[u], A[parent(u)])` is false. -/
theorem claim_C1 {α : Type} {cmp : α → α → Bool} {hasU : Bool} {ps : Nat}
    {bh : VBH.Vbh α} (hswo : VBH.SWO cmp) (hr : VBH.Reach cmp hasU ps bh) :
    ∀ u, 1 < u → u < bh.next → VBH.cmpA bh u (VBH.parent bh u) = false :=
  (VBH.Reach_inv hswo hr).2.1

/-- Witness for C1 at a concrete comparison callback and a reachable
two-state history (`VBH_new` followed by one `VBH_insert`). -/
theorem claim_C1_witness :
    VBH.SWO (fun _ _ : Unit => false) ∧
    (∀ u, 1 < u →
      u < (VBH.VBH_insert (VBH.VBH_new (fun _ _ : Unit => false) true 2) ()).next →
      VBH.cmpA (VBH.VBH_insert (VBH.VBH_new (fun _ _ : Unit => false) true 2) ()) u
        (VBH.parent (VBH.VBH_insert (VBH.VBH_new (fun _ _ : Unit => false) true 2) ()) u)
        = false) := by
  have hswo : VBH.SWO (fun _ _ : Unit => false) :=
    ⟨fun x y h => Bool.noConfusion h, fun x y z h1 _ => Bool.noConfusion h1,
     fun x y z h => Bool.noConfusion h⟩
  refine ⟨hswo, claim_C1 hswo (VBH.Reach.insert () (VBH.Reach.new (by decide)
    (by decide)) ?_)⟩
  show (VBH.VBH_new (fun _ _ : Unit => false) true 2).length + VBH.ROW_WIDTH
    < VBH.UINT_SIZE
  decide

/-- C3: in the VM-aware layout, for every reachable index `u` (at least
`ROOT_IDX` and within the 32-bit range) such that the child computation
does not clamp to the `UINT_MAX` sentinel, `parent(child_left(u)) = u`
and `parent(child_right(u)) = u`, for the page-based `parent` and `child`
of vbh.c (lines 101-162). -/
theorem claim_C3 {α : Type} {bh : VBH.Vbh α} (hpp : VBH.PP bh) {u : Nat}
    (hu : VBH.ROOT_IDX ≤ u) (hu32 : u < VBH.UINT_MAX)
    (hnc : (VBH.child bh u).1 ≠ VBH.UINT_MAX) :
    VBH.parent bh (VBH.child bh u).1 = u ∧ VBH.parent bh (VBH.child bh u).2 = u :=
  VBH.child_parent hpp hu32 hu hnc

/-- Witness for C3 on a 16-slot page at the in-page index 5. -/
theorem claim_C3_witness :
    VBH.PP ({ cmp := fun _ _ => false,
              hasUpdate := false,
              array := fun _ => none,
              rows := 0, length := 0, next := 0, page_size := 16, page_mask := 15,
              page_shift := 4 } : VBH.Vbh Unit) ∧
    VBH.ROOT_IDX ≤ 5 ∧ 5 < VBH.UINT_MAX ∧
    (VBH.child ({ cmp := fun _ _ => false,
                  hasUpdate := false,
                  array := fun _ => none,
                  rows := 0, length := 0, next := 0, page_size := 16,
                  page_mask := 15,
                  page_shift := 4 } : VBH.Vbh Unit) 5).1 ≠ VBH.UINT_MAX ∧
    VBH.parent ({ cmp := fun _ _ => false,
                  hasUpdate := false,
                  array := fun _ => none,
                  rows := 0, length := 0, next := 0, page_size := 16,
                  page_mask := 15,
                  page_shift := 4 } : VBH.Vbh Unit)
      (VBH.child ({ cmp := fun _ _ => false,
                    hasUpdate := false,
                    array := fun _ => none,
                    rows := 0, length := 0, next := 0, page_size := 16,
                    page_mask := 15,
                    page_shift := 4 } : VBH.Vbh Unit) 5).1 = 5 ∧
    VBH.parent ({ cmp := fun _ _ => false,
                  hasUpdate := false,
                  array := fun _ => none,
                  rows := 0, length := 0, next := 0, page_size := 16,
                  page_mask := 15,
                  page_shift := 4 } : VBH.Vbh Unit)
      (VBH.child ({ cmp := fun _ _ => false,
                    hasUpdate := false,
                    array := fun _ => none,
                    rows := 0, length := 0, next := 0, page_size := 16,
                    page_mask := 15,
                    page_shift := 4 } : VBH.Vbh Unit) 5).2 = 5 := by
  have hpp : VBH.PP ({ cmp := fun _ _ => false,
                       hasUpdate := false,
                       array := fun _ => none,
                       rows := 0, length := 0, next := 0, page_size := 16,
                       page_mask := 15,
                       page_shift := 4 } : VBH.Vbh Unit) := by
    refine ⟨?_, ?_, ?_, ?_⟩ <;> decide
  have h1 : VBH.ROOT_IDX ≤ 5 := by decide
  have h2 : 5 < VBH.UINT_MAX := by decide
  have hnc : (VBH.child ({ cmp := fun _ _ => false,
                           hasUpdate := false,
                           array := fun _ => none,
                           rows := 0, length := 0, next := 0, page_size := 16,
                           page_mask := 15,
                           page_shift := 4 } : VBH.Vbh Unit) 5).1
      ≠ VBH.UINT_MAX := by decide
  exact ⟨hpp, h1, h2, hnc, claim_C3 hpp h1 h2 hnc⟩

/-- C9 (implicit): `VBH_delete` is the one operation whose `bh->update`
invocation is not guarded by a NULL test, so it is defined exactly when an
update callback was supplied: the model returns `none` precisely when
`hasUpdate` is false, for every heap state and index. -/
theorem claim_C9 {α : Type} (bh : VBH.Vbh α) (idx : Nat) :
    VBH.VBH_delete bh idx = none ↔ bh.hasUpdate = false := by
  constructor
  · intro h
    rcases hU : bh.hasUpdate with _ | _
    · rfl
    · simp only [VBH.VBH_delete] at h
      rw [if_pos hU] at h
      exact Option.noConfusion h
  · intro h
    simp only [VBH.VBH_delete, h, Bool.false_eq_true, if_false]

namespace VBH

variable {α : Type}

/-- `vbh_trickleup` only permutes slot contents: `next` and `length` are
untouched, whatever the comparison callback does. -/
theorem trickleup_next_length : ∀ (n : Nat) (bh : Vbh α) (u : Nat), u ≤ n →
    (vbh_trickleup bh u).1.next = bh.next ∧
    (vbh_trickleup bh u).1.length = bh.length := by
  intro n
  induction n with
  | zero =>
    intro bh u hle
    have hu0 : u = 0 := by omega
    subst hu0
    rw [vbh_trickleup]
    rw [dif_neg (by decide : ¬ ROOT_IDX < 0)]
    exact ⟨rfl, rfl⟩
  | succ n IH =>
    intro bh u hle
    by_cases h1 : ROOT_IDX < u
    · by_cases hv : parent bh u < u
      · by_cases hc : cmpA bh u (parent bh u) = true
        · have hstep : vbh_trickleup bh u
              = vbh_trickleup (binhead_swap bh u (parent bh u)) (parent bh u) := by
            rw [vbh_trickleup]
            simp only [dif_pos h1, dif_pos hv, hc, if_true]
          rw [hstep]
          obtain ⟨a, b⟩ := IH (binhead_swap bh u (parent bh u)) (parent bh u)
            (by omega)
          exact ⟨a, b⟩
        · have hc' : cmpA bh u (parent bh u) = false := by
            rcases hx : cmpA bh u (parent bh u) with _ | _
            · rfl
            · exact absurd hx hc
          have hstep : vbh_trickleup bh u = (bh, u) := by
            rw [vbh_trickleup]
            simp only [dif_pos h1, dif_pos hv, hc', Bool.false_eq_true, if_false]
          rw [hstep]
          exact ⟨rfl, rfl⟩
      · have hstep : vbh_trickleup bh u = (bh, u) := by
          rw [vbh_trickleup]
          simp only [dif_pos h1, dif_neg hv]
        rw [hstep]
        exact ⟨rfl, rfl⟩
    · have hstep : vbh_trickleup bh u = (bh, u) := by
        rw [vbh_trickleup]
        rw [dif_neg h1]
      rw [hstep]
      exact ⟨rfl, rfl⟩

/-- `vbh_trickledown` only permutes slot contents: `next` and `length`
are untouched, whatever the comparison callback does. -/
theorem trickledown_next_length : ∀ (n : Nat) (bh : Vbh α) (u : Nat),
    bh.next - u ≤ n →
    (vbh_trickledown bh u).1.next = bh.next ∧
    (vbh_trickledown bh u).1.length = bh.length := by
  intro n
  induction n with
  | zero =>
    intro bh u hle
    by_cases hc : (child bh u).1 < bh.next
    · by_cases hsel : ((child bh u).1 ≠ (child bh u).2 ∧ (child bh u).2 < bh.next ∧
          cmpA bh (child bh u).2 (child bh u).1 = true)
      · by_cases hb : cmpA bh u (child bh u).2 = true
        · have hstep : vbh_trickledown bh u = (bh, u) := by
            rw [vbh_trickledown]
            simp only [dif_pos hc, if_pos hsel, hb, if_true]
          rw [hstep]
          exact ⟨rfl, rfl⟩
        · have hb' : cmpA bh u (child bh u).2 = false := by
            rcases hx : cmpA bh u (child bh u).2 with _ | _
            · rfl
            · exact absurd hx hb
          have hstep : vbh_trickledown bh u = (bh, u) := by
            rw [vbh_trickledown]
            simp only [dif_pos hc, if_pos hsel, hb', Bool.false_eq_true, if_false]
            exact dif_neg (by
              intro hcon
              omega)
          rw [hstep]
          exact ⟨rfl, rfl⟩
      · by_cases hb : cmpA bh u (child bh u).1 = true
        · have hstep : vbh_trickledown bh u = (bh, u) := by
            rw [vbh_trickledown]
            simp only [dif_pos hc, if_neg hsel, hb, if_true]
          rw [hstep]
          exact ⟨rfl, rfl⟩
        · have hb' : cmpA bh u (child bh u).1 = false := by
            rcases hx : cmpA bh u (child bh u).1 with _ | _
            · rfl
            · exact absurd hx hb
          have hstep : vbh_trickledown bh u = (bh, u) := by
            rw [vbh_trickledown]
            simp only [dif_pos hc, if_neg hsel, hb', Bool.false_eq_true, if_false]
            exact dif_neg (by
              intro hcon
              omega)
          rw [hstep]
          exact ⟨rfl, rfl⟩
    · have hstep : vbh_trickledown bh u = (bh, u) := by
        rw [vbh_trickledown]
        rw [dif_neg hc]
      rw [hstep]
      exact ⟨rfl, rfl⟩
  | succ n IH =>
    intro bh u hle
    by_cases hc : (child bh u).1 < bh.next
    · by_cases hsel : ((child bh u).1 ≠ (child bh u).2 ∧ (child bh u).2 < bh.next ∧
          cmpA bh (child bh u).2 (child bh u).1 = true)
      · by_cases hb : cmpA bh u (child bh u).2 = true
        · have hstep : vbh_trickledown bh u = (bh, u) := by
            rw [vbh_trickledown]
            simp only [dif_pos hc, if_pos hsel, hb, if_true]
          rw [hstep]
          exact ⟨rfl, rfl⟩
        · have hb' : cmpA bh u (child bh u).2 = false := by
            rcases hx : cmpA bh u (child bh u).2 with _ | _
            · rfl
            · exact absurd hx hb
          by_cases hg : u < (child bh u).2 ∧ (child bh u).2 < bh.next
          · have hstep : vbh_trickledown bh u
                = vbh_trickledown (binhead_swap bh u (child bh u).2)
                  (child bh u).2 := by
              rw [vbh_trickledown]
              simp only [dif_pos hc, if_pos hsel, hb', Bool.false_eq_true, if_false]
              exact dif_pos hg
            rw [hstep]
            obtain ⟨a, b⟩ := IH (binhead_swap bh u (child bh u).2) (child bh u).2
              (by
                show bh.next - (child bh u).2 ≤ n
                omega)
            exact ⟨a, b⟩
          · have hstep : vbh_trickledown bh u = (bh, u) := by
              rw [vbh_trickledown]
              simp only [dif_pos hc, if_pos hsel, hb', Bool.false_eq_true, if_false]
              exact dif_neg hg
            rw [hstep]
            exact ⟨rfl, rfl⟩
      · by_cases hb : cmpA bh u (child bh u).1 = true
        · have hstep : vbh_trickledown bh u = (bh, u) := by
            rw [vbh_trickledown]
            simp only [dif_pos hc, if_neg hsel, hb, if_true]
          rw [hstep]
          exact ⟨rfl, rfl⟩
        · have hb' : cmpA bh u (child bh u).1 = false := by
            rcases hx : cmpA bh u (child bh u).1 with _ | _
            · rfl
            · exact absurd hx hb
          by_cases hg : u < (child bh u).1 ∧ (child bh u).1 < bh.next
          · have hstep : vbh_trickledown bh u
                = vbh_trickledown (binhead_swap bh u (child bh u).1)
                  (child bh u).1 := by
              rw [vbh_trickledown]
              simp only [dif_pos hc, if_neg hsel, hb', Bool.false_eq_true, if_false]
              exact dif_pos hg
            rw [hstep]
            obtain ⟨a, b⟩ := IH (binhead_swap bh u (child bh u).1) (child bh u).1
              (by
                show bh.next - (child bh u).1 ≤ n
                omega)
            exact ⟨a, b⟩
          · have hstep : vbh_trickledown bh u = (bh, u) := by
              rw [vbh_trickledown]
              simp only [dif_pos hc, if_neg hsel, hb', Bool.false_eq_true, if_false]
              exact dif_neg hg
            rw [hstep]
            exact ⟨rfl, rfl⟩
    · have hstep : vbh_trickledown bh u = (bh, u) := by
        rw [vbh_trickledown]
        rw [dif_neg hc]
      rw [hstep]
      exact ⟨rfl, rfl⟩

end VBH

/-- C4 (amended): on the moved-tail path of `VBH_delete` (deleting any
slot other than the last), the tail row is freed and `length` shrinks by
one row exactly when occupancy falls at least one full row below `length`
(`next + 2*ROW_WIDTH <= length` after the move); the early-return path
for the last slot (`idx = next - 1`) performs no row release, as the
counterexample shows. -/
theorem claim_C4 {α : Type} (bh : VBH.Vbh α) (idx : Nat)
    (hU : bh.hasUpdate = true) (hidx : idx ≠ bh.next - 1) {bh2 : VBH.Vbh α}
    (hdel : VBH.VBH_delete bh idx = some bh2) :
    (bh.next - 1 + 2 * VBH.ROW_WIDTH ≤ bh.length →
      bh2.length = bh.length - VBH.ROW_WIDTH ∧
      bh2.array ((bh.length - 1) >>> VBH.ROW_SHIFT) = none) ∧
    (¬(bh.next - 1 + 2 * VBH.ROW_WIDTH ≤ bh.length) →
      bh2.length = bh.length) := by
  simp only [VBH.VBH_delete] at hdel
  rw [if_pos hU] at hdel
  replace hdel := Option.some.inj hdel
  subst hdel
  rw [if_neg hidx]
  set D := ({ VBH.setSlot (VBH.setSlot bh idx (VBH.Aof bh (bh.next - 1)))
    (bh.next - 1) none with next := bh.next - 1 } : VBH.Vbh α) with hD
  have hDnext : D.next = bh.next - 1 := by rw [hD]
  have hDlength : D.length = bh.length := by rw [hD]; rfl
  obtain ⟨t1, t2⟩ := VBH.trickleup_next_length idx D idx (Nat.le_refl idx)
  obtain ⟨d1, d2⟩ := VBH.trickledown_next_length
    ((VBH.vbh_trickleup D idx).1.next) (VBH.vbh_trickleup D idx).1
    (VBH.vbh_trickleup D idx).2 (Nat.sub_le _ _)
  have hN : (VBH.vbh_trickledown (VBH.vbh_trickleup D idx).1
      (VBH.vbh_trickleup D idx).2).1.next = bh.next - 1 :=
    d1.trans (t1.trans hDnext)
  have hL : (VBH.vbh_trickledown (VBH.vbh_trickleup D idx).1
      (VBH.vbh_trickleup D idx).2).1.length = bh.length :=
    d2.trans (t2.trans hDlength)
  by_cases hcond : bh.next - 1 + 2 * VBH.ROW_WIDTH ≤ bh.length
  · rw [if_pos (show (VBH.vbh_trickledown (VBH.vbh_trickleup D idx).1
        (VBH.vbh_trickleup D idx).2).1.next + 2 * VBH.ROW_WIDTH
        ≤ (VBH.vbh_trickledown (VBH.vbh_trickleup D idx).1
          (VBH.vbh_trickleup D idx).2).1.length by rw [hN, hL]; exact hcond)]
    refine ⟨fun _ => ⟨?_, ?_⟩, fun hnc => absurd hcond hnc⟩
    · show (VBH.vbh_trickledown (VBH.vbh_trickleup D idx).1
        (VBH.vbh_trickleup D idx).2).1.length - VBH.ROW_WIDTH
        = bh.length - VBH.ROW_WIDTH
      rw [hL]
    · show (if (bh.length - 1) >>> VBH.ROW_SHIFT
          = ((VBH.vbh_trickledown (VBH.vbh_trickleup D idx).1
            (VBH.vbh_trickleup D idx).2).1.length - 1) >>> VBH.ROW_SHIFT then none
          else (VBH.vbh_trickledown (VBH.vbh_trickleup D idx).1
            (VBH.vbh_trickleup D idx).2).1.array
            ((bh.length - 1) >>> VBH.ROW_SHIFT)) = none
      rw [if_pos (by rw [hL])]
  · rw [if_neg (show ¬((VBH.vbh_trickledown (VBH.vbh_trickleup D idx).1
        (VBH.vbh_trickleup D idx).2).1.next + 2 * VBH.ROW_WIDTH
        ≤ (VBH.vbh_trickledown (VBH.vbh_trickleup D idx).1
          (VBH.vbh_trickleup D idx).2).1.length) by rw [hN, hL]; exact hcond)]
    exact ⟨fun hc => absurd hc hcond, fun _ => hL⟩

/-- Counterexample for the original reading of C4: on `threeRowHeap`
(well-formed, heap-ordered), deleting the last slot (`idx = next - 1 = 2`)
takes the early-return path of `VBH_delete`: although the resulting
occupancy satisfies the hysteresis condition
`next + 2*ROW_WIDTH <= length`, `length` is unchanged and no tail row is
freed. -/
theorem claim_C4_counterexample :
    VBH.WF VBH.threeRowHeap ∧ VBH.heapOK VBH.threeRowHeap ∧
    (2:Nat) = VBH.threeRowHeap.next - 1 ∧
    VBH.VBH_delete VBH.threeRowHeap 2
      = some ({ VBH.setSlot VBH.threeRowHeap 2 none with next := 2 }) ∧
    ({ VBH.setSlot VBH.threeRowHeap 2 none with next := 2 } : VBH.Vbh Nat).next
      + 2 * VBH.ROW_WIDTH
      ≤ ({ VBH.setSlot VBH.threeRowHeap 2 none with next := 2 } : VBH.Vbh Nat).length ∧
    ({ VBH.setSlot VBH.threeRowHeap 2 none with next := 2 } : VBH.Vbh Nat).length
      = VBH.threeRowHeap.length ∧
    ({ VBH.setSlot VBH.threeRowHeap 2 none with next := 2 } : VBH.Vbh Nat).array 2
      = VBH.threeRowHeap.array 2 := by
  refine ⟨⟨?_, ?_, ?_, ?_, ?_, ?_, ?_, ?_, ?_, ?_⟩, ?_, ?_, ?_, ?_, ?_, ?_⟩
  · decide
  · decide
  · decide
  · decide
  · decide
  · decide
  · decide
  · intro k hk
    rw [show VBH.threeRowHeap.length >>> VBH.ROW_SHIFT = 3 by decide] at hk
    have hk3 : k = 0 ∨ k = 1 ∨ k = 2 := by omega
    rcases hk3 with h | h | h <;> rw [h] <;> decide
  · intro w hw1 hw2
    rw [show VBH.threeRowHeap.next = 3 from rfl] at hw2
    have hw3 : w = 1 ∨ w = 2 := by omega
    rcases hw3 with h | h <;> rw [h] <;> decide
  · decide
  · intro u hu1 hu2
    rw [show VBH.threeRowHeap.next = 3 from rfl] at hu2
    have hu3 : u = 2 := by omega
    rw [hu3]
    decide
  · decide
  · rfl
  · decide
  · rfl
  · rfl

/-- The moved-tail delete on `threeRowHeap` evaluates to
`threeRowHeapShrunk`. -/
theorem threeRowHeap_delete_eval :
    VBH.VBH_delete VBH.threeRowHeap 1 = some VBH.threeRowHeapShrunk := by
  simp only [VBH.VBH_delete, VBH.threeRowHeapShrunk, VBH.threeRowHeapDel]
  rw [if_pos (by decide : VBH.threeRowHeap.hasUpdate = true)]
  rw [if_neg (by decide : ¬((1:Nat) = VBH.threeRowHeap.next - 1))]
  set D := ({ VBH.setSlot (VBH.setSlot VBH.threeRowHeap 1
    (VBH.Aof VBH.threeRowHeap (VBH.threeRowHeap.next - 1)))
    (VBH.threeRowHeap.next - 1) none with
    next := VBH.threeRowHeap.next - 1 } : VBH.Vbh Nat) with hD
  have e1 : VBH.vbh_trickleup D 1 = (D, 1) := by
    rw [VBH.vbh_trickleup]
    rw [dif_neg (by decide : ¬ VBH.ROOT_IDX < 1)]
  rw [e1]
  dsimp only
  have e2 : VBH.vbh_trickledown D 1 = (D, 1) := by
    rw [VBH.vbh_trickledown]
    rw [dif_neg (show ¬((VBH.child D 1).1 < D.next) from by rw [hD]; decide)]
  rw [e2]
  dsimp only
  rw [if_pos (show D.next + 2 * VBH.ROW_WIDTH ≤ D.length from by rw [hD]; decide)]

/-- Witness for the amended C4 on `threeRowHeap`: deleting the non-last
slot 1 moves the tail, and the hysteresis condition releases a row. -/
theorem claim_C4_witness :
    VBH.threeRowHeap.hasUpdate = true ∧
    (1:Nat) ≠ VBH.threeRowHeap.next - 1 ∧
    ((VBH.threeRowHeap.next - 1 + 2 * VBH.ROW_WIDTH ≤ VBH.threeRowHeap.length →
        VBH.threeRowHeapShrunk.length
          = VBH.threeRowHeap.length - VBH.ROW_WIDTH ∧
        VBH.threeRowHeapShrunk.array
          ((VBH.threeRowHeap.length - 1) >>> VBH.ROW_SHIFT) = none) ∧
      (¬(VBH.threeRowHeap.next - 1 + 2 * VBH.ROW_WIDTH ≤ VBH.threeRowHeap.length) →
        VBH.threeRowHeapShrunk.length = VBH.threeRowHeap.length)) :=
  ⟨rfl, by decide, claim_C4 VBH.threeRowHeap 1 rfl (by decide)
    threeRowHeap_delete_eval⟩

/-- C5 (amended): on a well-formed, non-empty heap satisfying the heap
order, under the strict-weak-ordering contract, `root()` returns the live
element at `ROOT_IDX`, and no live element compares strictly
higher-priority than it.  (The original uniqueness claim fails: a strict
weak ordering admits ties, so the maximal element need not be unique —
see the counterexample.) -/
theorem claim_C5 {α : Type} {bh : VBH.Vbh α} (hpp : VBH.PP bh)
    (hswo : VBH.SWO bh.cmp) (hn : bh.next < VBH.UINT_SIZE)
    (hliv : ∀ w, 1 ≤ w → w < bh.next → (VBH.Aof bh w).isSome = true)
    (hok : VBH.heapOK bh) (hne : 1 < bh.next) :
    (∃ x, VBH.VBH_root bh = some x) ∧
    (∀ u, 1 ≤ u → u < bh.next → VBH.cmpA bh u VBH.ROOT_IDX = false) := by
  have key : ∀ n u, u ≤ n → 1 ≤ u → u < bh.next →
      VBH.cmpA bh u VBH.ROOT_IDX = false := by
    intro n
    induction n with
    | zero =>
      intro u h0 h1 _
      omega
    | succ n IH =>
      intro u hle h1 h2
      by_cases hu1 : u = 1
      · rw [hu1]
        rcases hx : VBH.cmpA bh 1 VBH.ROOT_IDX with _ | _
        · rfl
        · have hirr : VBH.cmpA bh 1 VBH.ROOT_IDX = false := VBH.cmpA_asym hswo hx
          rw [hirr] at hx
          exact Bool.noConfusion hx
      · have hu2 : 1 < u := by omega
        have hplt := VBH.parent_lt hpp (Nat.lt_trans h2 hn) hu2
        have hppos := VBH.parent_pos hpp (Nat.lt_trans h2 hn) hu2
        exact VBH.cmpA_interp hswo (hliv (VBH.parent bh u) hppos (by omega))
          (hok u hu2 h2) (IH (VBH.parent bh u) (by omega) hppos (by omega))
  refine ⟨?_, fun u h1 h2 => key bh.next u (Nat.le_of_lt h2) h1 h2⟩
  exact Option.isSome_iff_exists.mp (hliv 1 (Nat.le_refl 1) (by omega))

/-- Counterexample for the uniqueness part of C5: on `tieHeap` (whose
comparison callback reports every pair tied, a legitimate strict weak
ordering) the heap order holds and `root()` returns the handle 10, yet
both live handles 10 and 20 are maximal — there is no unique element `e`
with `cmp(e', e) = false` for every other live `e'`. -/
theorem claim_C5_counterexample :
    VBH.WF VBH.tieHeap ∧ VBH.heapOK VBH.tieHeap ∧
    VBH.SWO VBH.tieHeap.cmp ∧
    VBH.VBH_root VBH.tieHeap = some 10 ∧
    ¬(∃! v : Nat,
      (∃ u, 1 ≤ u ∧ u < VBH.tieHeap.next ∧ VBH.Aof VBH.tieHeap u = some v) ∧
      (∀ u x, 1 ≤ u → u < VBH.tieHeap.next → VBH.Aof VBH.tieHeap u = some x →
        x ≠ v → VBH.tieHeap.cmp x v = false)) := by
  refine ⟨⟨?_, ?_, ?_, ?_, ?_, ?_, ?_, ?_, ?_, ?_⟩, ?_, ?_, ?_, ?_⟩
  · decide
  · decide
  · decide
  · decide
  · decide
  · decide
  · decide
  · intro k hk
    rw [show VBH.tieHeap.length >>> VBH.ROW_SHIFT = 1 by decide] at hk
    have hk0 : k = 0 := by omega
    rw [hk0]
    decide
  · intro w hw1 hw2
    rw [show VBH.tieHeap.next = 3 from rfl] at hw2
    have hw3 : w = 1 ∨ w = 2 := by omega
    rcases hw3 with h | h <;> rw [h] <;> decide
  · decide
  · intro u hu1 hu2
    rw [show VBH.tieHeap.next = 3 from rfl] at hu2
    have hu3 : u = 2 := by omega
    rw [hu3]
    decide
  · exact ⟨fun x y h => Bool.noConfusion h, fun x y z h1 _ => Bool.noConfusion h1,
      fun x y z h => Bool.noConfusion h⟩
  · decide
  · intro hex
    obtain ⟨v, _, huniq⟩ := hex
    have h10 : (10:Nat) = v := huniq 10
      ⟨⟨1, by decide, by decide, by decide⟩, fun u x _ _ _ _ => rfl⟩
    have h20 : (20:Nat) = v := huniq 20
      ⟨⟨2, by decide, by decide, by decide⟩, fun u x _ _ _ _ => rfl⟩
    rw [← h10] at h20
    exact absurd h20 (by decide)

/-- Witness for the amended C5 on `tieHeap`. -/
theorem claim_C5_witness :
    VBH.PP VBH.tieHeap ∧ VBH.SWO VBH.tieHeap.cmp ∧
    VBH.tieHeap.next < VBH.UINT_SIZE ∧
    (∀ w, 1 ≤ w → w < VBH.tieHeap.next → (VBH.Aof VBH.tieHeap w).isSome = true) ∧
    VBH.heapOK VBH.tieHeap ∧ 1 < VBH.tieHeap.next ∧
    ((∃ x, VBH.VBH_root VBH.tieHeap = some x) ∧
      (∀ u, 1 ≤ u → u < VBH.tieHeap.next →
        VBH.cmpA VBH.tieHeap u VBH.ROOT_IDX = false)) := by
  have hpp : VBH.PP VBH.tieHeap := by
    refine ⟨?_, ?_, ?_, ?_⟩ <;> decide
  have hswo : VBH.SWO VBH.tieHeap.cmp :=
    ⟨fun x y h => Bool.noConfusion h, fun x y z h1 _ => Bool.noConfusion h1,
      fun x y z h => Bool.noConfusion h⟩
  have hn : VBH.tieHeap.next < VBH.UINT_SIZE := by decide
  have hliv : ∀ w, 1 ≤ w → w < VBH.tieHeap.next →
      (VBH.Aof VBH.tieHeap w).isSome = true := by
    intro w hw1 hw2
    rw [show VBH.tieHeap.next = 3 from rfl] at hw2
    have hw3 : w = 1 ∨ w = 2 := by omega
    rcases hw3 with h | h <;> rw [h] <;> decide
  have hok : VBH.heapOK VBH.tieHeap := by
    intro u hu1 hu2
    rw [show VBH.tieHeap.next = 3 from rfl] at hu2
    have hu3 : u = 2 := by omega
    rw [hu3]
    decide
  have hne : 1 < VBH.tieHeap.next := by decide
  exact ⟨hpp, hswo, hn, hliv, hok, hne, claim_C5 hpp hswo hn hliv hok hne⟩

namespace VXP

/-- A comparison atom passes unchanged through `vxp_expr_not` and
`vxp_expr_group` (its first token opens neither a parenthesis nor a
negation). -/
theorem expr_not_atom {e : VxpEnv} {opts : Nat} {ts : List Tok} {v : Vex}
    (h : CmpAtom e opts ts v) :
    ∀ f, 2 ≤ f → ∀ st rest, st.err = false → st.vex_options = opts →
    st.toks = ts ++ rest → stopTok (curTok { st with toks := rest }) →
    vxp_expr_not f e st
      = (some v, { st with toks := rest, live := st.live + vexCount v }) := by
  obtain ⟨⟨t, ts', hts, hnl, hnn, _⟩, hcmp⟩ := h
  intro f hf st rest herr hopts htoks hstop
  obtain ⟨f1, rfl⟩ : ∃ f1, f = f1 + 1 + 1 := ⟨f - 2, by omega⟩
  have hcur : curTok st = t.tok := by
    simp only [curTok, htoks, hts, List.cons_append]
  rw [show vxp_expr_not (f1 + 1 + 1) e st = vxp_expr_group (f1 + 1) e st from by
    simp only [vxp_expr_not]
    rw [hcur]
    rw [if_neg hnn]]
  rw [show vxp_expr_group (f1 + 1) e st = vxp_expr_cmp e st from by
    simp only [vxp_expr_group]
    rw [hcur]
    rw [if_neg hnl]]
  exact hcmp st rest herr hopts htoks hstop

end VXP

namespace VXP

/-- A comparison atom is a complete `expr_and` when the lookahead is a
stop token other than `and`. -/
theorem expr_and_atom {e : VxpEnv} {opts : Nat} {ts : List Tok} {v : Vex}
    (h : CmpAtom e opts ts v) :
    ∀ f, 3 ≤ f → ∀ st rest, st.err = false → st.vex_options = opts →
    st.toks = ts ++ rest → stopTok (curTok { st with toks := rest }) →
    curTok { st with toks := rest } ≠ .T_AND →
    vxp_expr_and f e st
      = (some v, { st with toks := rest, live := st.live + vexCount v }) := by
  intro f hf st rest herr hopts htoks hstop hne
  obtain ⟨f1, rfl⟩ : ∃ f1, f = f1 + 2 + 1 := ⟨f - 3, by omega⟩
  have hnot := expr_not_atom h (f1 + 2) (by omega) st rest herr hopts htoks hstop
  rw [show vxp_expr_and (f1 + 2 + 1) e st
      = vxp_expr_and_loop (f1 + 2) e v
        { st with toks := rest, live := st.live + vexCount v } from by
    simp only [vxp_expr_and, hnot, herr, Bool.false_eq_true, if_false]]
  have hne' : curTok { st with toks := rest, live := st.live + vexCount v }
      ≠ TokKind.T_AND := hne
  simp only [vxp_expr_and_loop]
  rw [if_neg hne']

end VXP

namespace VXP

/-- Two comparison atoms joined by `and` parse to a single `T_AND` node
(atom `b` left, atom `c` right) when the lookahead stops the chain. -/
theorem expr_and_pair {e : VxpEnv} {opts : Nat} {tb tc : List Tok} {vb vc : Vex}
    (hb : CmpAtom e opts tb vb) (hc : CmpAtom e opts tc vc) :
    ∀ f, 5 ≤ f → ∀ st t2 rest, st.err = false → st.vex_options = opts →
    st.toks = tb ++ t2 :: (tc ++ rest) → t2.tok = .T_AND →
    stopTok (curTok { st with toks := rest }) →
    curTok { st with toks := rest } ≠ .T_AND →
    vxp_expr_and f e st
      = (some (Vex.mk .T_AND (some vb) (some vc) none none opts),
         { st with toks := rest,
                   live := st.live + vexCount vb + 1 + vexCount vc }) := by
  intro f hf st t2 rest herr hopts htoks ht2 hstop hne
  obtain ⟨f1, rfl⟩ : ∃ f1, f = f1 + 4 + 1 := ⟨f - 5, by omega⟩
  have hstop1 : stopTok (curTok { st with toks := t2 :: (tc ++ rest) }) := by
    simp only [curTok]
    rw [ht2]
    exact Or.inr (Or.inl rfl)
  have hb1 := expr_not_atom hb (f1 + 4) (by omega) st (t2 :: (tc ++ rest)) herr
    hopts htoks hstop1
  rw [show vxp_expr_and (f1 + 4 + 1) e st
      = vxp_expr_and_loop (f1 + 4) e vb
        { st with toks := t2 :: (tc ++ rest), live := st.live + vexCount vb } from by
    simp only [vxp_expr_and, hb1, herr, Bool.false_eq_true, if_false]]
  simp only [vxp_expr_and_loop]
  rw [if_pos (show curTok { st with toks := t2 :: (tc ++ rest), live := st.live + vexCount vb } = TokKind.T_AND from by
    simp only [curTok]
    exact ht2)]
  set S2 := vxp_NextToken (alloc { st with toks := t2 :: (tc ++ rest), live := st.live + vexCount vb } 1) with hS2
  have hc1 := expr_not_atom hc (f1 + 3) (by omega) S2 rest
    (show S2.err = false from herr) (show S2.vex_options = opts from hopts)
    (show S2.toks = tc ++ rest from rfl)
    (show stopTok (curTok { S2 with toks := rest }) from hstop)
  rw [hc1]
  dsimp only
  have herr2 : S2.err = false := herr
  simp only [herr2, Bool.false_eq_true, if_false]
  rw [hopts]
  rw [if_neg (show curTok { toks := rest, err := false, sbLen := S2.sbLen, live := S2.live + vexCount vc, vex_options := S2.vex_options } ≠ TokKind.T_AND from hne)]
  rw [herr]
  rw [hS2]
  rw [← hopts]
  rfl

end VXP

namespace VXP

/-- A comparison atom is a complete `expr_or` sub-query: the whole chain
`or → and → not → group → cmp` passes it through when the lookahead is
EOI. -/
theorem orAtom_of_cmpAtom {e : VxpEnv} {opts : Nat} {ts : List Tok} {v : Vex}
    (h : CmpAtom e opts ts v) : OrAtom e opts 5 ts v := by
  refine ⟨?_, ?_⟩
  · obtain ⟨⟨t, ts', hts, _, _, hne⟩, _⟩ := h
    exact ⟨t, ts', hts, hne⟩
  intro f hf st rest herr hopts htoks heoi
  obtain ⟨f1, rfl⟩ : ∃ f1, f = f1 + 4 + 1 := ⟨f - 5, by omega⟩
  have hand := expr_and_atom h (f1 + 4) (by omega) st rest herr hopts htoks
    (Or.inl heoi) (by rw [heoi]; decide)
  rw [show vxp_expr_or (f1 + 4 + 1) e st
      = vxp_expr_or_loop (f1 + 4) e v
        { st with toks := rest, live := st.live + vexCount v } from by
    simp only [vxp_expr_or, hand, herr, Bool.false_eq_true, if_false]]
  simp only [vxp_expr_or_loop]
  rw [if_neg (show ¬(curTok { st with toks := rest, live := st.live + vexCount v } = TokKind.T_OR) from by
    rw [show curTok { st with toks := rest, live := st.live + vexCount v } = TokKind.EOI from heoi]
    decide)]

end VXP

namespace VXP

/-- `curTok` depends only on the token list. -/
theorem curTok_toks (x y : VxpSt) (h : x.toks = y.toks) : curTok x = curTok y := by
  simp only [curTok, h]

/-- Precedence: `a or b and c` parses as `OR(a, AND(b, c))`. -/
theorem expr_or_prec {e : VxpEnv} {opts : Nat} {ta tb tc : List Tok}
    {va vb vc : Vex} (ha : CmpAtom e opts ta va) (hb : CmpAtom e opts tb vb)
    (hc : CmpAtom e opts tc vc) :
    ∀ f, 7 ≤ f → ∀ st t1 t2 rest, st.err = false → st.vex_options = opts →
    st.toks = ta ++ t1 :: (tb ++ t2 :: (tc ++ rest)) →
    t1.tok = .T_OR → t2.tok = .T_AND →
    curTok { st with toks := rest } = .EOI →
    vxp_expr_or f e st
      = (some (Vex.mk .T_OR (some va)
          (some (Vex.mk .T_AND (some vb) (some vc) none none opts))
          none none opts),
         { st with toks := rest,
                   live := st.live + vexCount va + 1 + vexCount vb + 1 + vexCount vc }) := by
  intro f hf st t1 t2 rest herr hopts htoks h1 h2 heoi
  obtain ⟨f1, rfl⟩ : ∃ f1, f = f1 + 6 + 1 := ⟨f - 7, by omega⟩
  have hstopa : stopTok (curTok { st with toks := t1 :: (tb ++ t2 :: (tc ++ rest)) }) := by
    simp only [curTok]
    rw [h1]
    exact Or.inr (Or.inr (Or.inl rfl))
  have hnea : curTok { st with toks := t1 :: (tb ++ t2 :: (tc ++ rest)) } ≠ TokKind.T_AND := by
    simp only [curTok]
    rw [h1]
    decide
  have hand := expr_and_atom ha (f1 + 6) (by omega) st
    (t1 :: (tb ++ t2 :: (tc ++ rest))) herr hopts htoks hstopa hnea
  rw [show vxp_expr_or (f1 + 6 + 1) e st
      = vxp_expr_or_loop (f1 + 6) e va
        { st with toks := t1 :: (tb ++ t2 :: (tc ++ rest)), live := st.live + vexCount va } from by
    simp only [vxp_expr_or, hand, herr, Bool.false_eq_true, if_false]]
  simp only [vxp_expr_or_loop]
  rw [if_pos (show curTok { st with toks := t1 :: (tb ++ t2 :: (tc ++ rest)), live := st.live + vexCount va } = TokKind.T_OR from by
    simp only [curTok]
    exact h1)]
  set S2 := vxp_NextToken (alloc { st with toks := t1 :: (tb ++ t2 :: (tc ++ rest)), live := st.live + vexCount va } 1) with hS2
  have hpair := expr_and_pair hb hc (f1 + 5) (by omega) S2 t2 rest
    (show S2.err = false from by rw [hS2]; exact herr)
    (show S2.vex_options = opts from by rw [hS2]; exact hopts)
    (show S2.toks = tb ++ t2 :: (tc ++ rest) from by rw [hS2]; rfl)
    h2
    (show stopTok (curTok { S2 with toks := rest }) from by
      rw [curTok_toks { S2 with toks := rest } { st with toks := rest } rfl]
      exact Or.inl heoi)
    (show curTok { S2 with toks := rest } ≠ TokKind.T_AND from by
      rw [curTok_toks { S2 with toks := rest } { st with toks := rest } rfl]
      rw [heoi]
      decide)
  rw [hpair]
  dsimp only
  have herr2 : S2.err = false := by
    rw [hS2]
    exact herr
  simp only [herr2, Bool.false_eq_true, if_false]
  rw [hopts]
  rw [if_neg (show ¬(curTok { toks := rest, err := false, sbLen := S2.sbLen, live := S2.live + vexCount vb + 1 + vexCount vc, vex_options := S2.vex_options } = TokKind.T_OR) from by
    rw [curTok_toks { toks := rest, err := false, sbLen := S2.sbLen, live := S2.live + vexCount vb + 1 + vexCount vc, vex_options := S2.vex_options } { st with toks := rest } rfl]
    rw [heoi]
    decide)]
  rw [herr]
  rw [hS2]
  rw [← hopts]
  rfl

end VXP

namespace VXP

/-- Associativity: `a and b and c` parses as `AND(AND(a, b), c)` — the
earlier-built node becomes the left child of each fresh `T_AND` node. -/
theorem expr_and_triple {e : VxpEnv} {opts : Nat} {ta tb tc : List Tok}
    {va vb vc : Vex} (ha : CmpAtom e opts ta va) (hb : CmpAtom e opts tb vb)
    (hc : CmpAtom e opts tc vc) :
    ∀ f, 7 ≤ f → ∀ st t1 t2 rest, st.err = false → st.vex_options = opts →
    st.toks = ta ++ t1 :: (tb ++ t2 :: (tc ++ rest)) →
    t1.tok = .T_AND → t2.tok = .T_AND →
    stopTok (curTok { st with toks := rest }) →
    curTok { st with toks := rest } ≠ .T_AND →
    vxp_expr_and f e st
      = (some (Vex.mk .T_AND
          (some (Vex.mk .T_AND (some va) (some vb) none none opts))
          (some vc) none none opts),
         { st with toks := rest,
                   live := st.live + vexCount va + 1 + vexCount vb + 1 + vexCount vc }) := by
  intro f hf st t1 t2 rest herr hopts htoks h1 h2 hstop hne
  obtain ⟨f1, rfl⟩ : ∃ f1, f = f1 + 6 + 1 := ⟨f - 7, by omega⟩
  have hstopa : stopTok (curTok { st with toks := t1 :: (tb ++ t2 :: (tc ++ rest)) }) := by
    simp only [curTok]
    rw [h1]
    exact Or.inr (Or.inl rfl)
  have hnot1 := expr_not_atom ha (f1 + 6) (by omega) st
    (t1 :: (tb ++ t2 :: (tc ++ rest))) herr hopts htoks hstopa
  rw [show vxp_expr_and (f1 + 6 + 1) e st
      = vxp_expr_and_loop (f1 + 6) e va
        { st with toks := t1 :: (tb ++ t2 :: (tc ++ rest)), live := st.live + vexCount va } from by
    simp only [vxp_expr_and, hnot1, herr, Bool.false_eq_true, if_false]]
  simp only [vxp_expr_and_loop]
  rw [if_pos (show curTok { st with toks := t1 :: (tb ++ t2 :: (tc ++ rest)), live := st.live + vexCount va } = TokKind.T_AND from by
    simp only [curTok]
    exact h1)]
  set S2 := vxp_NextToken (alloc { st with toks := t1 :: (tb ++ t2 :: (tc ++ rest)), live := st.live + vexCount va } 1) with hS2
  have hstopb : stopTok (curTok { S2 with toks := t2 :: (tc ++ rest) }) := by
    simp only [curTok]
    rw [h2]
    exact Or.inr (Or.inl rfl)
  have hnot2 := expr_not_atom hb (f1 + 5) (by omega) S2 (t2 :: (tc ++ rest))
    (show S2.err = false from by rw [hS2]; exact herr)
    (show S2.vex_options = opts from by rw [hS2]; exact hopts)
    (show S2.toks = tb ++ t2 :: (tc ++ rest) from by rw [hS2]; rfl)
    hstopb
  rw [hnot2]
  dsimp only
  have herr2 : S2.err = false := by
    rw [hS2]
    exact herr
  simp only [herr2, Bool.false_eq_true, if_false]
  rw [if_pos (show curTok { toks := t2 :: (tc ++ rest), err := false, sbLen := S2.sbLen, live := S2.live + vexCount vb, vex_options := S2.vex_options } = TokKind.T_AND from by
    simp only [curTok]
    exact h2)]
  set S4 := vxp_NextToken (alloc { toks := t2 :: (tc ++ rest), err := false, sbLen := S2.sbLen, live := S2.live + vexCount vb, vex_options := S2.vex_options } 1) with hS4
  have hnot3 := expr_not_atom hc (f1 + 4) (by omega) S4 rest
    (show S4.err = false from by rw [hS4]; rfl)
    (show S4.vex_options = opts from by rw [hS4, hS2]; exact hopts)
    (show S4.toks = tc ++ rest from by rw [hS4]; rfl)
    (show stopTok (curTok { S4 with toks := rest }) from by
      rw [curTok_toks { S4 with toks := rest } { st with toks := rest } rfl]
      exact hstop)
  rw [hnot3]
  dsimp only
  have herr4 : S4.err = false := by
    rw [hS4]
    rfl
  simp only [herr4, Bool.false_eq_true, if_false]
  rw [if_neg (show ¬(curTok { toks := rest, err := false, sbLen := S4.sbLen, live := S4.live + vexCount vc, vex_options := S4.vex_options } = TokKind.T_AND) from by
    rw [curTok_toks { toks := rest, err := false, sbLen := S4.sbLen, live := S4.live + vexCount vc, vex_options := S4.vex_options } { st with toks := rest } rfl]
    exact hne)]
  rw [show S2.vex_options = opts from by rw [hS2]; exact hopts]
  rw [herr]
  rw [hS4, hS2]
  rw [← hopts]
  rfl

end VXP

namespace VXP

/-- An `and`-chain of three atoms is a complete `expr_or` sub-query when
the lookahead is EOI. -/
theorem expr_or_assoc {e : VxpEnv} {opts : Nat} {ta tb tc : List Tok}
    {va vb vc : Vex} (ha : CmpAtom e opts ta va) (hb : CmpAtom e opts tb vb)
    (hc : CmpAtom e opts tc vc) :
    ∀ f, 8 ≤ f → ∀ st t1 t2 rest, st.err = false → st.vex_options = opts →
    st.toks = ta ++ t1 :: (tb ++ t2 :: (tc ++ rest)) →
    t1.tok = .T_AND → t2.tok = .T_AND →
    curTok { st with toks := rest } = .EOI →
    vxp_expr_or f e st
      = (some (Vex.mk .T_AND
          (some (Vex.mk .T_AND (some va) (some vb) none none opts))
          (some vc) none none opts),
         { st with toks := rest,
                   live := st.live + vexCount va + 1 + vexCount vb + 1 + vexCount vc }) := by
  intro f hf st t1 t2 rest herr hopts htoks h1 h2 heoi
  obtain ⟨f1, rfl⟩ : ∃ f1, f = f1 + 7 + 1 := ⟨f - 8, by omega⟩
  have htriple := expr_and_triple ha hb hc (f1 + 7) (by omega) st t1 t2 rest herr
    hopts htoks h1 h2 (Or.inl heoi) (by rw [heoi]; decide)
  rw [show vxp_expr_or (f1 + 7 + 1) e st
      = vxp_expr_or_loop (f1 + 7) e
        (Vex.mk .T_AND (some (Vex.mk .T_AND (some va) (some vb) none none opts))
          (some vc) none none opts)
        { st with toks := rest,
                  live := st.live + vexCount va + 1 + vexCount vb + 1 + vexCount vc } from by
    simp only [vxp_expr_or, htriple, herr, Bool.false_eq_true, if_false]]
  simp only [vxp_expr_or_loop]
  rw [if_neg (show ¬(curTok { st with toks := rest, live := st.live + vexCount va + 1 + vexCount vb + 1 + vexCount vc } = TokKind.T_OR) from by
    rw [show curTok { st with toks := rest, live := st.live + vexCount va + 1 + vexCount vb + 1 + vexCount vc } = TokKind.EOI from heoi]
    decide)]

end VXP

namespace VXP

/-- A stop token is none of the tokens that extend an LHS. -/
theorem stopTok_ne {k : TokKind} (h : stopTok k) :
    k ≠ .comma ∧ k ≠ .colon ∧ k ≠ .lbrack := by
  rcases h with h | h | h | h <;> subst h <;> exact ⟨by decide, by decide, by decide⟩

/-- A single VAL token whose glob expands to one tag is a comparison atom:
it parses to a bare `T_TRUE` tag test whose LHS carries `taglist = 1`,
with three allocations (node, LHS record, tag bitmap). -/
theorem cmpAtom_tag {e : VxpEnv} {opts : Nat} {s : String} (hg : e.glob s = 1) :
    CmpAtom e opts [⟨.VAL, s⟩]
      (Vex.mk .T_TRUE none none (some { taglist := 1 }) none opts) := by
  refine ⟨⟨⟨.VAL, s⟩, [], rfl, fun h => TokKind.noConfusion h,
    fun h => TokKind.noConfusion h, fun h => TokKind.noConfusion h⟩, ?_⟩
  intro st rest herr hopts htoks hstop
  obtain ⟨tks, er, sb, lv, vo⟩ := st
  dsimp only at herr hopts htoks hstop ⊢
  subst herr htoks
  rw [hopts] at hstop ⊢
  have hstop' : stopTok (curTok { toks := rest, err := false, sbLen := sb, live := lv, vex_options := opts }) := hstop
  have htags : vxp_lhs_tags e {}
      { toks := Tok.mk .VAL s :: rest, err := false, sbLen := sb, live := lv + 1 + 2, vex_options := opts }
      = ({ taglist := 1 },
         { toks := rest, err := false, sbLen := sb, live := lv + 1 + 2, vex_options := opts }) := by
    rcases rest with _ | ⟨t2, rest2⟩
    · simp +decide only [vxp_lhs_tags, vxp_lhs_tags_go, hg, if_false, if_true]
    · have hst2 : stopTok t2.tok := hstop'
      have hnc : ¬(t2.tok = TokKind.comma) := (stopTok_ne hst2).1
      simp +decide only [vxp_lhs_tags, vxp_lhs_tags_go, hg, if_false, if_true]
      rw [if_neg hnc]
      dsimp only
      simp
  have hlhs : vxp_expr_lhs e
      (alloc { toks := Tok.mk .VAL s :: rest, err := false, sbLen := sb, live := lv, vex_options := opts } 1)
      = ({ taglist := 1 },
         { toks := rest, err := false, sbLen := sb, live := lv + 1 + 2, vex_options := opts }) := by
    simp +decide only [vxp_expr_lhs, alloc, curTok, if_false]
    rw [htags]
    have hnc2 : ¬(curTok { toks := rest, err := false, sbLen := sb, live := lv + 1 + 2, vex_options := opts } = TokKind.colon) :=
      (stopTok_ne hstop').2.1
    have hnc3 : ¬(curTok { toks := rest, err := false, sbLen := sb, live := lv + 1 + 2, vex_options := opts } = TokKind.lbrack) :=
      (stopTok_ne hstop').2.2
    simp only [vxp_lhs_pfx]
    rw [if_neg hnc2]
    simp only [vxp_lhs_field]
    rw [if_neg hnc3]
    simp +decide only [vxp_lhs_vxidchk, if_true]
    simp
  simp only [vxp_expr_cmp, List.singleton_append, hlhs]
  simp +decide only [if_false, if_true]
  rw [if_pos (show curTok { toks := rest, err := false, sbLen := sb, live := lv + 1 + 2, vex_options := opts } = TokKind.EOI ∨ curTok { toks := rest, err := false, sbLen := sb, live := lv + 1 + 2, vex_options := opts } = TokKind.T_AND ∨ curTok { toks := rest, err := false, sbLen := sb, live := lv + 1 + 2, vex_options := opts } = TokKind.T_OR ∨ curTok { toks := rest, err := false, sbLen := sb, live := lv + 1 + 2, vex_options := opts } = TokKind.rparen from hstop')]
  have hlive : lv + 1 + 2 = lv + vexCount (Vex.mk .T_TRUE none none (some { taglist := 1 }) none opts) := by
    simp only [vexCount, lhsCount]
    norm_num
  rw [hlive]

end VXP

namespace VXP

/-- C6: for three comparison sub-expressions `a`, `b`, `c` joined by
connectives, `a or b and c` parses to `OR(a, AND(b, c))` — `and` binds
tighter than `or` — and `a and b and c` parses to `AND(AND(a, b), c)`:
chains of the same connective associate to the left, the earlier-built
node becoming the left child. -/
theorem claim_C6 {e : VxpEnv} {opts : Nat} {ta tb tc : List Tok}
    {va vb vc : Vex} (ha : CmpAtom e opts ta va) (hb : CmpAtom e opts tb vb)
    (hc : CmpAtom e opts tc vc) :
    ∀ f, 8 ≤ f → ∀ st t1 t2 rest, st.err = false → st.vex_options = opts →
    t2.tok = .T_AND → curTok { st with toks := rest } = .EOI →
    (t1.tok = .T_OR → st.toks = ta ++ t1 :: (tb ++ t2 :: (tc ++ rest)) →
      vxp_expr_or f e st
        = (some (Vex.mk .T_OR (some va)
            (some (Vex.mk .T_AND (some vb) (some vc) none none opts))
            none none opts),
           { st with toks := rest,
                     live := st.live + vexCount va + 1 + vexCount vb + 1 + vexCount vc })) ∧
    (t1.tok = .T_AND → st.toks = ta ++ t1 :: (tb ++ t2 :: (tc ++ rest)) →
      vxp_expr_or f e st
        = (some (Vex.mk .T_AND
            (some (Vex.mk .T_AND (some va) (some vb) none none opts))
            (some vc) none none opts),
           { st with toks := rest,
                     live := st.live + vexCount va + 1 + vexCount vb + 1 + vexCount vc })) := by
  intro f hf st t1 t2 rest herr hopts h2 heoi
  exact ⟨fun h1 htoks =>
      expr_or_prec ha hb hc f (by omega) st t1 t2 rest herr hopts htoks h1 h2 heoi,
    fun h1 htoks =>
      expr_or_assoc ha hb hc f hf st t1 t2 rest herr hopts htoks h1 h2 heoi⟩

/-- Instantiation of the precedence/associativity theorem: the queries
`a or b and c` and `a and b and c` over single-tag atoms. -/
theorem claim_C6_witness :
    vxp_expr_or 8 env0
      (st0 [⟨.VAL, "a"⟩, ⟨.T_OR, "or"⟩, ⟨.VAL, "b"⟩, ⟨.T_AND, "and"⟩,
            ⟨.VAL, "c"⟩, ⟨.EOI, ""⟩])
      = (some (Vex.mk .T_OR
          (some (Vex.mk .T_TRUE none none (some { taglist := 1 }) none 0))
          (some (Vex.mk .T_AND
            (some (Vex.mk .T_TRUE none none (some { taglist := 1 }) none 0))
            (some (Vex.mk .T_TRUE none none (some { taglist := 1 }) none 0))
            none none 0))
          none none 0),
         { toks := [⟨.EOI, ""⟩], err := false, sbLen := 0, live := 11,
           vex_options := 0 })
    ∧ vxp_expr_or 8 env0
      (st0 [⟨.VAL, "a"⟩, ⟨.T_AND, "and"⟩, ⟨.VAL, "b"⟩, ⟨.T_AND, "and"⟩,
            ⟨.VAL, "c"⟩, ⟨.EOI, ""⟩])
      = (some (Vex.mk .T_AND
          (some (Vex.mk .T_AND
            (some (Vex.mk .T_TRUE none none (some { taglist := 1 }) none 0))
            (some (Vex.mk .T_TRUE none none (some { taglist := 1 }) none 0))
            none none 0))
          (some (Vex.mk .T_TRUE none none (some { taglist := 1 }) none 0))
          none none 0),
         { toks := [⟨.EOI, ""⟩], err := false, sbLen := 0, live := 11,
           vex_options := 0 }) := by
  constructor
  · exact ((claim_C6 (@cmpAtom_tag env0 0 "a" rfl) (@cmpAtom_tag env0 0 "b" rfl)
      (@cmpAtom_tag env0 0 "c" rfl) 8 (by decide)
      (st0 [⟨.VAL, "a"⟩, ⟨.T_OR, "or"⟩, ⟨.VAL, "b"⟩, ⟨.T_AND, "and"⟩,
            ⟨.VAL, "c"⟩, ⟨.EOI, ""⟩])
      ⟨.T_OR, "or"⟩ ⟨.T_AND, "and"⟩ [⟨.EOI, ""⟩]
      rfl rfl rfl rfl).1 rfl rfl).trans rfl
  · exact ((claim_C6 (@cmpAtom_tag env0 0 "a" rfl) (@cmpAtom_tag env0 0 "b" rfl)
      (@cmpAtom_tag env0 0 "c" rfl) 8 (by decide)
      (st0 [⟨.VAL, "a"⟩, ⟨.T_AND, "and"⟩, ⟨.VAL, "b"⟩, ⟨.T_AND, "and"⟩,
            ⟨.VAL, "c"⟩, ⟨.EOI, ""⟩])
      ⟨.T_AND, "and"⟩ ⟨.T_AND, "and"⟩ [⟨.EOI, ""⟩]
      rfl rfl rfl rfl).2 rfl rfl).trans rfl

end VXP

namespace VXP

/-- C10: on a token stream consisting only of EOI tokens, the parse
returns null with the error flag still clear and no diagnostic written;
a null result therefore does not by itself imply a parse error. -/
theorem claim_C10 (f : Nat) (e : VxpEnv) (st : VxpSt)
    (h : ∀ t ∈ st.toks, t.tok = TokKind.EOI) (herr : st.err = false) :
    (vxp_Parse f e st).1 = none ∧ (vxp_Parse f e st).2.err = false ∧
    (vxp_Parse f e st).2.sbLen = st.sbLen := by
  cases f with
  | zero => exact ⟨rfl, herr, rfl⟩
  | succ f =>
    have hnil : st.toks.dropWhile (fun t => t.tok == TokKind.EOI) = [] := by
      rw [List.dropWhile_eq_nil_iff]
      intro x hx
      rw [h x hx]
      rfl
    simp only [vxp_Parse, vxp_Parse_loop, skipEOIs, hnil]
    exact ⟨trivial, herr, trivial⟩

/-- Instantiation of the empty-query theorem on a two-EOI stream. -/
theorem claim_C10_witness :
    ((∀ t ∈ (st0 [⟨.EOI, ""⟩, ⟨.EOI, ""⟩]).toks, t.tok = TokKind.EOI) ∧
      (st0 [⟨.EOI, ""⟩, ⟨.EOI, ""⟩]).err = false) ∧
    (vxp_Parse 5 env0 (st0 [⟨.EOI, ""⟩, ⟨.EOI, ""⟩])).1 = none ∧
    (vxp_Parse 5 env0 (st0 [⟨.EOI, ""⟩, ⟨.EOI, ""⟩])).2.err = false ∧
    (vxp_Parse 5 env0 (st0 [⟨.EOI, ""⟩, ⟨.EOI, ""⟩])).2.sbLen
      = (st0 [⟨.EOI, ""⟩, ⟨.EOI, ""⟩]).sbLen :=
  ⟨⟨by decide, rfl⟩,
   claim_C10 5 env0 (st0 [⟨.EOI, ""⟩, ⟨.EOI, ""⟩]) (by decide) rfl⟩

end VXP

namespace VXP

/-- C2: the claim fails.  On the chained input `a <EOI> ( <EOI>` the
second sub-query raises a diagnostic inside the recursive `vxp_expr`
call, which has already built a partial `T_NULL` comparison node (with
its LHS record and tag bitmap) in its local `a`; the `ERRCHK` in the
accumulated branch of `vxp_expr` unwinds without releasing that local
tree and hands only the accumulated first tree back to `vxp_Parse`,
which frees it.  The parse returns null with the error flag set, yet
three allocations of the failed sub-query are still outstanding when
`vxp_Parse` returns. -/
theorem claim_C2 :
    (vxp_Parse 12 env0
      (st0 [⟨.VAL, "a"⟩, ⟨.EOI, ""⟩, ⟨.lparen, "("⟩, ⟨.EOI, ""⟩])).1 = none ∧
    (vxp_Parse 12 env0
      (st0 [⟨.VAL, "a"⟩, ⟨.EOI, ""⟩, ⟨.lparen, "("⟩, ⟨.EOI, ""⟩])).2.err = true ∧
    (vxp_Parse 12 env0
      (st0 [⟨.VAL, "a"⟩, ⟨.EOI, ""⟩, ⟨.lparen, "("⟩, ⟨.EOI, ""⟩])).2.live = 3 :=
  ⟨rfl, by decide, by decide⟩

end VXP

namespace VXP

/-- C8: two EOI-terminated sub-queries are parsed iteratively by
`vxp_Parse` and combined into a single `T_OR` node, the later sub-query's
tree as child `a`, the previously accumulated tree as child `b`. -/
theorem claim_C8 {e : VxpEnv} {opts N1 N2 : Nat} {t1s t2s : List Tok}
    {v1 v2 : Vex} {d1 d2 : String}
    (h1 : OrAtom e opts N1 t1s v1) (h2 : OrAtom e opts N2 t2s v2) :
    ∀ f, N1 + 2 ≤ f → N2 + 4 ≤ f → ∀ st, st.err = false → st.vex_options = opts →
    st.toks = t1s ++ ⟨.EOI, d1⟩ :: (t2s ++ [⟨.EOI, d2⟩]) →
    vxp_Parse f e st
      = (some (Vex.mk .T_OR (some v2) (some v1) none none opts),
         { st with toks := [],
                   live := st.live + vexCount v1 + vexCount v2 + 1 }) := by
  intro f hf1 hf2 st herr hopts htoks
  obtain ⟨G, rfl⟩ : ∃ G, f = G + 3 := ⟨f - 3, by omega⟩
  obtain ⟨G', hG'⟩ : ∃ G', G = G' + 1 := ⟨G - 1, by omega⟩
  obtain ⟨a1, r1, hts1, hne1⟩ := h1.1
  obtain ⟨a2, r2, hts2, hne2⟩ := h2.1
  obtain ⟨tks, er, sb, lv, vo⟩ := st
  dsimp only at herr hopts htoks ⊢
  subst herr htoks hts1 hts2
  rw [hopts]
  have hbe1 : (a1.tok == TokKind.EOI) = false := by simpa using hne1
  have hbe2 : (a2.tok == TokKind.EOI) = false := by simpa using hne2
  have hor1 := h1.2 (G + 1) (by omega)
    { toks := a1 :: (r1 ++ ⟨.EOI, d1⟩ :: (a2 :: (r2 ++ [⟨.EOI, d2⟩]))),
      err := false, sbLen := sb, live := lv, vex_options := opts }
    (⟨.EOI, d1⟩ :: (a2 :: (r2 ++ [⟨.EOI, d2⟩])))
    rfl (hopts.symm.trans hopts) (by simp only [List.cons_append]) rfl
  have hexpr1 : vxp_expr (G + 2) e none
      { toks := a1 :: (r1 ++ ⟨.EOI, d1⟩ :: (a2 :: (r2 ++ [⟨.EOI, d2⟩]))),
        err := false, sbLen := sb, live := lv, vex_options := opts }
      = (some v1,
         { toks := ⟨.EOI, d1⟩ :: (a2 :: (r2 ++ [⟨.EOI, d2⟩])),
           err := false, sbLen := sb, live := lv + vexCount v1, vex_options := opts }) := by
    have hor1' : vxp_expr_or (G + 1) e
        { toks := a1 :: (r1 ++ ⟨.EOI, d1⟩ :: (a2 :: (r2 ++ [⟨.EOI, d2⟩]))),
          err := false, sbLen := sb, live := lv, vex_options := opts }
        = (some v1,
           { toks := ⟨.EOI, d1⟩ :: (a2 :: (r2 ++ [⟨.EOI, d2⟩])),
             err := false, sbLen := sb, live := lv + vexCount v1, vex_options := opts }) := hor1
    simp +decide only [vxp_expr, hor1', curTok, if_false, if_true]
  have hor2 := h2.2 G' (by omega)
    { toks := a2 :: (r2 ++ [⟨.EOI, d2⟩]), err := false, sbLen := sb,
      live := lv + vexCount v1, vex_options := opts }
    [⟨.EOI, d2⟩] rfl (hopts.symm.trans hopts) (by simp only [List.cons_append]) rfl
  have hexpr2none : vxp_expr G e none
      { toks := a2 :: (r2 ++ [⟨.EOI, d2⟩]), err := false, sbLen := sb,
        live := lv + vexCount v1, vex_options := opts }
      = (some v2,
         { toks := [⟨.EOI, d2⟩], err := false, sbLen := sb,
           live := lv + vexCount v1 + vexCount v2, vex_options := opts }) := by
    have hor2' : vxp_expr_or G' e
        { toks := a2 :: (r2 ++ [⟨.EOI, d2⟩]), err := false, sbLen := sb,
          live := lv + vexCount v1, vex_options := opts }
        = (some v2,
           { toks := [⟨.EOI, d2⟩], err := false, sbLen := sb,
             live := lv + vexCount v1 + vexCount v2, vex_options := opts }) := hor2
    rw [hG']
    simp +decide only [vxp_expr, hor2', curTok, if_false, if_true]
  have hexpr2 : vxp_expr (G + 1) e (some v1)
      { toks := a2 :: (r2 ++ [⟨.EOI, d2⟩]), err := false, sbLen := sb,
        live := lv + vexCount v1, vex_options := opts }
      = (some (Vex.mk .T_OR (some v2) (some v1) none none opts),
         { toks := [⟨.EOI, d2⟩], err := false, sbLen := sb,
           live := lv + vexCount v1 + vexCount v2 + 1, vex_options := opts }) := by
    simp +decide only [vxp_expr, hexpr2none, alloc, if_false, if_true]
  simp +decide only [vxp_Parse, vxp_Parse_loop, skipEOIs, List.dropWhile_cons,
    List.dropWhile_nil, hbe1, hbe2, List.cons_append, List.nil_append,
    vxp_NextToken, List.tail_cons, hexpr1, hexpr2, if_false, if_true]

end VXP

namespace VXP

/-- Instantiation of the chaining theorem: `a <EOI> b <EOI>` parses to
`OR(b, a)` with no error and seven outstanding allocations (two
three-allocation tag tests plus the OR node). -/
theorem claim_C8_witness :
    (5 + 2 ≤ 9 ∧ 5 + 4 ≤ 9) ∧
    vxp_Parse 9 env0 (st0 [⟨.VAL, "a"⟩, ⟨.EOI, ""⟩, ⟨.VAL, "b"⟩, ⟨.EOI, ""⟩])
      = (some (Vex.mk .T_OR
          (some (Vex.mk .T_TRUE none none (some { taglist := 1 }) none 0))
          (some (Vex.mk .T_TRUE none none (some { taglist := 1 }) none 0))
          none none 0),
         { toks := [], err := false, sbLen := 0, live := 7, vex_options := 0 }) :=
  ⟨⟨by decide, by decide⟩,
   (claim_C8 (orAtom_of_cmpAtom (@cmpAtom_tag env0 0 "a" rfl))
     (orAtom_of_cmpAtom (@cmpAtom_tag env0 0 "b" rfl)) 9 (by decide) (by decide)
     (st0 [⟨.VAL, "a"⟩, ⟨.EOI, ""⟩, ⟨.VAL, "b"⟩, ⟨.EOI, ""⟩])
     rfl rfl rfl).trans rfl⟩

end VXP

namespace VXP

/-- If `vxp_vxid_cmp` leaves the error flag clear, it changed nothing and
the current token is one of the six numeric comparison operators. -/
theorem vxid_cmp_ok {st : VxpSt} (h : (vxp_vxid_cmp st).err = false) :
    vxp_vxid_cmp st = st ∧
    (curTok st = .T_EQ ∨ curTok st = .lt ∨ curTok st = .gt ∨
     curTok st = .T_GEQ ∨ curTok st = .T_LEQ ∨ curTok st = .T_NEQ) := by
  unfold vxp_vxid_cmp at h ⊢
  cases hk : curTok st
  all_goals rw [hk] at h
  all_goals first
    | exact ⟨rfl, by decide⟩
    | simp [mkErr] at h

/-- The vxid mutual-exclusion check: when it passes with a positive vxid
count, the LHS has exactly one vxid selector and every other selector
zero-valued. -/
theorem vxidchk_ok {l : VexLhs} {st : VxpSt} {l' : VexLhs} {st' : VxpSt}
    (h : vxp_lhs_vxidchk l st = (l', st')) (herr : st'.err = false)
    (hvx : 0 < l'.vxid) :
    l'.vxid = 1 ∧ l'.level < 0 ∧ l'.field ≤ 0 ∧ l'.prefixlen = 0 ∧
    l'.taglist = 0 := by
  simp only [vxp_lhs_vxidchk] at h
  split at h
  next hc =>
    rw [Prod.mk.injEq] at h
    obtain ⟨rfl, rfl⟩ := h
    omega
  next hc =>
    split at h
    next hc2 =>
      rw [Prod.mk.injEq] at h
      obtain ⟨rfl, rfl⟩ := h
      simp [mkErr] at herr
    next hc2 =>
      rw [Prod.mk.injEq] at h
      obtain ⟨rfl, rfl⟩ := h
      push_neg at hc2
      refine ⟨by omega, by omega, by omega, by omega, by omega⟩

/-- The field section preserves the vxid check's guarantees. -/
theorem field_ok {l : VexLhs} {st : VxpSt} {l' : VexLhs} {st' : VxpSt}
    (h : vxp_lhs_field l st = (l', st')) (herr : st'.err = false)
    (hvx : 0 < l'.vxid) :
    l'.vxid = 1 ∧ l'.level < 0 ∧ l'.field ≤ 0 ∧ l'.prefixlen = 0 ∧
    l'.taglist = 0 := by
  simp only [vxp_lhs_field] at h
  split at h
  · split at h
    · rw [Prod.mk.injEq] at h
      obtain ⟨rfl, rfl⟩ := h
      simp [mkErr] at herr
    · split at h
      · rw [Prod.mk.injEq] at h
        obtain ⟨rfl, rfl⟩ := h
        simp [mkErr] at herr
      · split at h
        · rw [Prod.mk.injEq] at h
          obtain ⟨rfl, rfl⟩ := h
          simp [mkErr] at herr
        · exact vxidchk_ok h herr hvx
  · exact vxidchk_ok h herr hvx

/-- The record-prefix section preserves the vxid check's guarantees. -/
theorem prefix_ok {l : VexLhs} {st : VxpSt} {l' : VexLhs} {st' : VxpSt}
    (h : vxp_lhs_pfx l st = (l', st')) (herr : st'.err = false)
    (hvx : 0 < l'.vxid) :
    l'.vxid = 1 ∧ l'.level < 0 ∧ l'.field ≤ 0 ∧ l'.prefixlen = 0 ∧
    l'.taglist = 0 := by
  simp only [vxp_lhs_pfx] at h
  split at h
  · split at h
    · rw [Prod.mk.injEq] at h
      obtain ⟨rfl, rfl⟩ := h
      simp [mkErr] at herr
    · exact field_ok h herr hvx
  · exact field_ok h herr hvx

/-- When `vxp_expr_lhs` returns without a diagnostic and the LHS selects
on vxid, the vxid count is one and level, field, prefix length and tag
list are all zero-valued. -/
theorem lhs_ok {e : VxpEnv} {st : VxpSt} {l' : VexLhs} {st' : VxpSt}
    (h : vxp_expr_lhs e st = (l', st')) (herr : st'.err = false)
    (hvx : 0 < l'.vxid) :
    l'.vxid = 1 ∧ l'.level < 0 ∧ l'.field ≤ 0 ∧ l'.prefixlen = 0 ∧
    l'.taglist = 0 := by
  simp only [vxp_expr_lhs] at h
  split at h
  · split at h
    · rw [Prod.mk.injEq] at h
      obtain ⟨rfl, rfl⟩ := h
      simp [mkErr] at herr
    · split at h
      · rw [Prod.mk.injEq] at h
        obtain ⟨rfl, rfl⟩ := h
        simp [mkErr] at herr
      · split at h
        · rw [Prod.mk.injEq] at h
          obtain ⟨rfl, rfl⟩ := h
          simp [mkErr] at herr
        · split at h
          · rw [Prod.mk.injEq] at h
            obtain ⟨rfl, rfl⟩ := h
            simp [mkErr] at herr
          · split at h
            next hc =>
              rw [h] at hc
              dsimp only at hc
              rw [herr] at hc
              exact Bool.noConfusion hc
            next hc => exact prefix_ok h herr hvx
  · split at h
    next hc =>
      rw [h] at hc
      dsimp only at hc
      rw [herr] at hc
      exact Bool.noConfusion hc
    next hc => exact prefix_ok h herr hvx

/-- When `vxp_expr_num` succeeds on behalf of a vxid LHS, the RHS it
produced is an integer. -/
theorem num_ok {e : VxpEnv} {st : VxpSt} {vxid : Nat} {r : Option VexRhs}
    {st' : VxpSt} (h : vxp_expr_num e st vxid = (r, st'))
    (herr : st'.err = false) (hvx : vxid ≠ 0) :
    ∀ rhs, r = some rhs → rhs.rtype = .VEX_INT := by
  simp only [vxp_expr_num] at h
  split at h
  · rw [Prod.mk.injEq] at h
    obtain ⟨rfl, rfl⟩ := h
    simp [mkErr] at herr
  · split at h
    · split at h
      · rw [Prod.mk.injEq] at h
        obtain ⟨rfl, rfl⟩ := h
        simp [mkErr] at herr
      · rw [Prod.mk.injEq] at h
        obtain ⟨rfl, rfl⟩ := h
        simp [mkErr] at herr
    · split at h
      · rw [Prod.mk.injEq] at h
        obtain ⟨rfl, rfl⟩ := h
        simp [mkErr] at herr
      · rw [Prod.mk.injEq] at h
        obtain ⟨rfl, rfl⟩ := h
        intro rhs hr
        obtain rfl := Option.some.inj hr
        rfl

end VXP

namespace VXP

/-- C7: a comparison whose LHS selects on vxid has exactly one vxid
selector, no level qualifier, no field index, a zero-length prefix and no
tag-list additions; its operator is one of the six numeric comparison
operators; and its RHS, when present, is an integer. -/
theorem claim_C7 {e : VxpEnv} {st st' : VxpSt} {v : Vex} {l : VexLhs}
    (h : vxp_expr_cmp e st = (some v, st')) (herr : st'.err = false)
    (hl : v.lhs = some l) (hvx : 0 < l.vxid) :
    l.vxid = 1 ∧ l.level < 0 ∧ l.field ≤ 0 ∧ l.prefixlen = 0 ∧ l.taglist = 0 ∧
    (v.tok = .T_EQ ∨ v.tok = .lt ∨ v.tok = .gt ∨ v.tok = .T_GEQ ∨
     v.tok = .T_LEQ ∨ v.tok = .T_NEQ) ∧
    (∀ r, v.rhs = some r → r.rtype = .VEX_INT) := by
  simp only [vxp_expr_cmp] at h
  rcases hR : vxp_expr_lhs e (alloc st 1) with ⟨l1, st1⟩
  rw [hR] at h
  dsimp only at h
  by_cases hc1 : st1.err = true
  · rw [if_pos hc1] at h
    rw [Prod.mk.injEq] at h
    obtain ⟨hv, rfl⟩ := h
    rw [herr] at hc1
    exact Bool.noConfusion hc1
  · rw [if_neg hc1] at h
    have herr1 : st1.err = false := by
      simpa using hc1
    by_cases hc2 : 0 < l1.vxid
    · rw [if_pos hc2] at h
      by_cases hc3 : (vxp_vxid_cmp st1).err = true
      · rw [if_pos hc3] at h
        rw [Prod.mk.injEq] at h
        obtain ⟨hv, rfl⟩ := h
        rw [herr] at hc3
        exact Bool.noConfusion hc3
      · rw [if_neg hc3] at h
        obtain ⟨hcmp, hnum⟩ := vxid_cmp_ok (by simpa using hc3)
        rw [hcmp] at h
        split at h
        next hstop =>
          rcases hnum with hn | hn | hn | hn | hn | hn <;>
            rcases hstop with hc | hc | hc | hc <;>
            · rw [hn] at hc
              exact TokKind.noConfusion hc
        next hstop =>
          rw [Prod.mk.injEq] at h
          obtain ⟨hv, rfl⟩ := h
          obtain rfl := Option.some.inj hv
          dsimp only [Vex.lhs] at hl
          obtain rfl := Option.some.inj hl
          obtain ⟨p1, p2, p3, p4, p5⟩ := lhs_ok hR herr1 hvx
          refine ⟨p1, p2, p3, p4, p5, hnum, ?_⟩
          exact num_ok rfl herr (by omega)
    · rw [if_neg hc2] at h
      rw [if_neg hc1] at h
      split at h
      next hstop =>
        rw [Prod.mk.injEq] at h
        obtain ⟨hv, rfl⟩ := h
        obtain rfl := Option.some.inj hv
        dsimp only [Vex.lhs] at hl
        obtain rfl := Option.some.inj hl
        exact absurd hvx hc2
      next hstop =>
        split at h
        next hop =>
          rw [Prod.mk.injEq] at h
          obtain ⟨hv, rfl⟩ := h
          obtain rfl := Option.some.inj hv
          dsimp only [Vex.lhs] at hl
          obtain rfl := Option.some.inj hl
          exact absurd hvx hc2
        next hop =>
          split at h
          next hop2 =>
            rw [Prod.mk.injEq] at h
            obtain ⟨hv, rfl⟩ := h
            obtain rfl := Option.some.inj hv
            dsimp only [Vex.lhs] at hl
            obtain rfl := Option.some.inj hl
            exact absurd hvx hc2
          next hop2 =>
            split at h
            next hop3 =>
              rw [Prod.mk.injEq] at h
              obtain ⟨hv, rfl⟩ := h
              obtain rfl := Option.some.inj hv
              dsimp only [Vex.lhs] at hl
              obtain rfl := Option.some.inj hl
              exact absurd hvx hc2
            next hop3 =>
              rw [Prod.mk.injEq] at h
              obtain ⟨hv, rfl⟩ := h
              simp [mkErr] at herr

end VXP

namespace VXP

/-- The query `vxid:"" == 42` attaches a record prefix to a vxid LHS yet
parses without any diagnostic: the mutual-exclusion check tests
`prefixlen > 0`, and the strdup'ed empty prefix string stays attached
with `prefixlen = 0`. -/
theorem claim_C7_counterexample :
    (vxp_expr_cmp env0
      (st0 [⟨.VXID, "vxid"⟩, ⟨.colon, ":"⟩, ⟨.VAL, ""⟩, ⟨.T_EQ, "=="⟩,
            ⟨.VAL, "42"⟩, ⟨.EOI, ""⟩])).2.err = false ∧
    Option.map Vex.lhs (vxp_expr_cmp env0
      (st0 [⟨.VXID, "vxid"⟩, ⟨.colon, ":"⟩, ⟨.VAL, ""⟩, ⟨.T_EQ, "=="⟩,
            ⟨.VAL, "42"⟩, ⟨.EOI, ""⟩])).1
      = some (some { prefixStr := some "", prefixlen := 0, vxid := 1 }) := by
  constructor
  · decide
  · decide

/-- Instantiation of the vxid-constraint theorem on the query
`vxid == 42`. -/
theorem claim_C7_witness :
    (vxp_expr_cmp env0 (st0 [⟨.VXID, "vxid"⟩, ⟨.T_EQ, "=="⟩, ⟨.VAL, "42"⟩, ⟨.EOI, ""⟩])
       = (some (Vex.mk .T_EQ none none (some { vxid := 1 })
           (some { rtype := .VEX_INT, val_int := 42 }) 0),
          { toks := [⟨.EOI, ""⟩], err := false, sbLen := 0, live := 4,
            vex_options := 0 }) ∧
      (Vex.mk .T_EQ none none (some { vxid := 1 })
        (some { rtype := .VEX_INT, val_int := 42 }) 0).lhs
        = some ({ vxid := 1 } : VexLhs) ∧
      0 < ({ vxid := 1 } : VexLhs).vxid) ∧
    (({ vxid := 1 } : VexLhs).vxid = 1 ∧ ({ vxid := 1 } : VexLhs).level < 0 ∧
     ({ vxid := 1 } : VexLhs).field ≤ 0 ∧ ({ vxid := 1 } : VexLhs).prefixlen = 0 ∧
     ({ vxid := 1 } : VexLhs).taglist = 0 ∧
     ((Vex.mk .T_EQ none none (some { vxid := 1 })
        (some { rtype := .VEX_INT, val_int := 42 }) 0).tok = .T_EQ ∨
      (Vex.mk .T_EQ none none (some { vxid := 1 })
        (some { rtype := .VEX_INT, val_int := 42 }) 0).tok = .lt ∨
      (Vex.mk .T_EQ none none (some { vxid := 1 })
        (some { rtype := .VEX_INT, val_int := 42 }) 0).tok = .gt ∨
      (Vex.mk .T_EQ none none (some { vxid := 1 })
        (some { rtype := .VEX_INT, val_int := 42 }) 0).tok = .T_GEQ ∨
      (Vex.mk .T_EQ none none (some { vxid := 1 })
        (some { rtype := .VEX_INT, val_int := 42 }) 0).tok = .T_LEQ ∨
      (Vex.mk .T_EQ none none (some { vxid := 1 })
        (some { rtype := .VEX_INT, val_int := 42 }) 0).tok = .T_NEQ) ∧
     (∀ r, (Vex.mk .T_EQ none none (some { vxid := 1 })
        (some { rtype := .VEX_INT, val_int := 42 }) 0).rhs = some r →
        r.rtype = .VEX_INT)) :=
  ⟨⟨rfl, rfl, by decide⟩,
   @claim_C7 env0
     (st0 [⟨.VXID, "vxid"⟩, ⟨.T_EQ, "=="⟩, ⟨.VAL, "42"⟩, ⟨.EOI, ""⟩])
     { toks := [⟨.EOI, ""⟩], err := false, sbLen := 0, live := 4,
       vex_options := 0 }
     (Vex.mk .T_EQ none none (some { vxid := 1 })
       (some { rtype := .VEX_INT, val_int := 42 }) 0)
     { vxid := 1 }
     rfl rfl rfl (by decide)⟩

end VXP
